import Mathlib

/-!
Grantlee default tags `for` and `if`.

A shallow embedding of `defaulttags/for.cpp` and `defaulttags/if.cpp`:
the two tag factories (`ForNodeFactory::getNode`, `IfNodeFactory::getNode`)
and the two render methods (`ForNode::render`, `IfNode::render`), and then
what is proved about them.

Collaborators that live outside these two files (the Context, the
FilterExpression evaluator, the parser, `smartSplit`, Qt containers and
strings) are either modelled from the specification or taken as parameters.
-/

set_option autoImplicit false

/-! ## Values -/

/-- A `QVariant`: the dynamically typed value stored in a Context.
`invalid` is the default-constructed `QVariant()`. -/
inductive QVariant where
  | invalid
  | bool (b : Bool)
  | int (n : Int)
  | string (s : String)
  | list (l : List QVariant)
  | hash (h : List (String × QVariant))

mutual
/-- Structural equality test on values. -/
def QVariant.beq : QVariant → QVariant → Bool
  | .invalid, .invalid => true
  | .bool a, .bool b => a == b
  | .int a, .int b => a == b
  | .string a, .string b => a == b
  | .list a, .list b => QVariant.beqList a b
  | .hash a, .hash b => QVariant.beqHash a b
  | _, _ => false
/-- Structural equality test on lists of values. -/
def QVariant.beqList : List QVariant → List QVariant → Bool
  | [], [] => true
  | a :: as, b :: bs => QVariant.beq a b && QVariant.beqList as bs
  | _, _ => false
/-- Structural equality test on key/value lists. -/
def QVariant.beqHash : List (String × QVariant) → List (String × QVariant) → Bool
  | [], [] => true
  | (k, a) :: as, (l, b) :: bs => k == l && QVariant.beq a b && QVariant.beqHash as bs
  | _, _ => false
end

mutual
theorem QVariant.beq_iff : ∀ (a b : QVariant), QVariant.beq a b = true ↔ a = b
  | .invalid, b => by cases b <;> simp [QVariant.beq]
  | .bool a, b => by cases b <;> simp [QVariant.beq]
  | .int a, b => by cases b <;> simp [QVariant.beq]
  | .string a, b => by cases b <;> simp [QVariant.beq]
  | .list a, b => by cases b <;> simp [QVariant.beq, QVariant.beqList_iff a]
  | .hash a, b => by cases b <;> simp [QVariant.beq, QVariant.beqHash_iff a]
theorem QVariant.beqList_iff : ∀ (a b : List QVariant), QVariant.beqList a b = true ↔ a = b
  | [], b => by cases b <;> simp [QVariant.beqList]
  | x :: xs, b => by
    cases b <;> simp [QVariant.beqList, QVariant.beq_iff x, QVariant.beqList_iff xs]
theorem QVariant.beqHash_iff : ∀ (a b : List (String × QVariant)),
    QVariant.beqHash a b = true ↔ a = b
  | [], b => by cases b <;> simp [QVariant.beqHash]
  | (k, x) :: xs, b => by
    rcases b with _ | ⟨⟨l, y⟩, ys⟩ <;>
      simp [QVariant.beqHash, QVariant.beq_iff x, QVariant.beqHash_iff xs, and_assoc]
end

instance : DecidableEq QVariant := fun a b =>
  decidable_of_iff (QVariant.beq a b = true) (QVariant.beq_iff a b)

/-- A `QVariantHash` (`QHash<QString, QVariant>`), kept as a key/value list
with at most one entry per key when built through `insert`. -/
abbrev QVariantHash := List (String × QVariant)

/-- Embeds `QHash::contains`. -/
def QVariantHash.contains (h : QVariantHash) (key : String) : Bool :=
  h.any (fun p => p.1 == key)

/-- Embeds `QHash::value`: the value stored under `key`, or a default-constructed
(invalid) value. -/
def QVariantHash.value (h : QVariantHash) (key : String) : QVariant :=
  match h.find? (fun p => p.1 == key) with
  | some p => p.2
  | none => QVariant.invalid

/-- Embeds `QHash::insert`: an existing item with the same key is replaced. -/
def QVariantHash.insert (h : QVariantHash) (key : String) (value : QVariant) : QVariantHash :=
  (key, value) :: h.filter (fun p => p.1 != key)

/-- Embeds `QVariant::isValid`. -/
def QVariant.isValid : QVariant → Bool
  | .invalid => false
  | _ => true

/-- Embeds `QVariant::toHash`: the stored hash, or an empty hash for any other type. -/
def QVariant.toHash : QVariant → QVariantHash
  | .hash h => h
  | _ => []

/-- Embeds `QVariant::toList`: the stored list, or an empty list for any other type. -/
def QVariant.toList : QVariant → List QVariant
  | .list l => l
  | _ => []

/-- The test `v.type() == QVariant::List`. -/
def QVariant.isList : QVariant → Bool
  | .list _ => true
  | _ => false

/-! ## Context -/

/-- Modelled from the spec: the Context collaborator (its implementation is
not part of the two tag files), "an ordered stack of variable scopes
supporting push/pop, insert, and lookup-with-shadowing".  A Context is created
with one scope; `top` is the most recently pushed scope (or that first scope)
and `below` are the scopes under it, most recent first. -/
structure Context where
  top : QVariantHash
  below : List QVariantHash
  deriving DecidableEq

/-- Modelled from the spec: `push()` of the Context collaborator opens a new,
empty scope. -/
def Context.push (c : Context) : Context :=
  ⟨[], c.top :: c.below⟩

/-- Modelled from the spec: `pop()` of the Context collaborator discards the
most recently pushed scope.  The scope the Context was created with was never
pushed and stays. -/
def Context.pop (c : Context) : Context :=
  match c.below with
  | [] => c
  | h :: rest => ⟨h, rest⟩

/-- Modelled from the spec: `insert(name, value)` of the Context collaborator
binds `name` in the most recently pushed scope. -/
def Context.insert (c : Context) (name : String) (value : QVariant) : Context :=
  ⟨c.top.insert name value, c.below⟩

/-- Scan of the scope stack from the most recently pushed scope down. -/
def Context.lookupIn : List QVariantHash → String → QVariant
  | [], _ => QVariant.invalid
  | h :: rest, name => if h.contains name then h.value name else Context.lookupIn rest name

/-- Modelled from the spec: `lookup(name)` of the Context collaborator, "most
recently pushed scope wins on name collision"; a name bound nowhere yields the
invalid value the callers test with `isValid`. -/
def Context.lookup (c : Context) (name : String) : QVariant :=
  Context.lookupIn (c.top :: c.below) name

/-- Number of scopes on the stack. -/
def Context.depth (c : Context) : Nat :=
  c.below.length + 1

/-! ## Expressions, output and nodes -/

/-- A compiled `FilterExpression`, identified by the text it was compiled
from. -/
structure FilterExpression where
  text : String
  deriving DecidableEq

/-- The Expression collaborator (`FilterExpression::resolve`, `isTrue`,
`toList`), taken as a parameter: how an expression evaluates against a
Context. -/
structure Evaluator where
  resolve : FilterExpression → Context → QVariant
  isTrue : FilterExpression → Context → Bool
  toList : FilterExpression → Context → List QVariant

/-- What a `render( OutputStream *stream, Context *c )` call reads and
mutates: the chunks written to the stream so far, and the Context. -/
structure RenderState where
  stream : List String
  c : Context
  deriving DecidableEq

/-- A renderable `Node`: its virtual `render` method. -/
structure Node where
  render : RenderState → RenderState

/-- A `NodeList`. -/
abbrev NodeList := List Node

/-- Modelled from the spec: `NodeList::render`, "rendering a NodeList renders
each child in order against the same Context and output sink". -/
def NodeList.render (l : NodeList) (s : RenderState) : RenderState :=
  l.foldl (fun st n => n.render st) s

/-! ## `if.cpp`: IfNode -/

/-- Embeds `IfNode::OrLink` / `IfNode::AndLink`. -/
inductive LinkType where
  | OrLink
  | AndLink
  deriving DecidableEq

/-- The members of an `IfNode`. -/
structure IfNode where
  boolVars : List (Bool × FilterExpression)
  linkType : LinkType
  trueList : NodeList
  falseList : NodeList

/-- The calls `IfNode::render` makes, in program order: `isTrue i` is the
evaluation `m_boolVars.at( i ).second.isTrue( c )`. -/
inductive IfCall where
  | isTrue (i : Nat)
  | renderTrueList
  | renderFalseList
  deriving DecidableEq

/-- Embeds `IfNode::renderTrueList`. -/
def IfNode.renderTrueList (n : IfNode) (s : RenderState) : RenderState :=
  NodeList.render n.trueList s

/-- Embeds `IfNode::renderFalseList`. -/
def IfNode.renderFalseList (n : IfNode) (s : RenderState) : RenderState :=
  NodeList.render n.falseList s

/-- The loop of the `OrLink` branch of `IfNode::render`, started at index `i`
on the terms from `i` on.  Yields the `isTrue` calls made and whether the loop
left through its `renderTrueList; return`. -/
def IfNode.orLoop (ev : Evaluator) (c : Context) :
    List (Bool × FilterExpression) → Nat → List IfCall × Bool
  | [], _ => ([], false)
  | pair :: rest, i =>
    let negate := pair.1
    let isTrue := ev.isTrue pair.2 c
    if isTrue != negate then
      ([IfCall.isTrue i], true)
    else
      let r := IfNode.orLoop ev c rest (i + 1)
      (IfCall.isTrue i :: r.1, r.2)

/-- The loop of the `AndLink` branch of `IfNode::render`, started at index `i`.
Yields the `isTrue` calls made and the value of `renderTrue` when the loop is
left (by `break` or by exhaustion). -/
def IfNode.andLoop (ev : Evaluator) (c : Context) :
    List (Bool × FilterExpression) → Nat → List IfCall × Bool
  | [], _ => ([], true)
  | pair :: rest, i =>
    let negate := pair.1
    let isTrue := ev.isTrue pair.2 c
    if (!isTrue && !negate) || (isTrue && negate) then
      ([IfCall.isTrue i], false)
    else
      let r := IfNode.andLoop ev c rest (i + 1)
      (IfCall.isTrue i :: r.1, r.2)

/-- Embeds `IfNode::render`, with the calls it made: the final state and the call
trace. -/
def IfNode.run (ev : Evaluator) (n : IfNode) (s : RenderState) : RenderState × List IfCall :=
  match n.linkType with
  | LinkType.OrLink =>
    let r := IfNode.orLoop ev s.c n.boolVars 0
    if r.2 then
      (n.renderTrueList s, r.1 ++ [IfCall.renderTrueList])
    else
      (n.renderFalseList s, r.1 ++ [IfCall.renderFalseList])
  | LinkType.AndLink =>
    let r := IfNode.andLoop ev s.c n.boolVars 0
    if r.2 then
      (n.renderTrueList s, r.1 ++ [IfCall.renderTrueList])
    else
      (n.renderFalseList s, r.1 ++ [IfCall.renderFalseList])

/-- Embeds `IfNode::render`: the state it leaves. -/
def IfNode.render (ev : Evaluator) (n : IfNode) (s : RenderState) : RenderState :=
  (IfNode.run ev n s).1

/-- The calls made by `IfNode::render`. -/
def IfNode.calls (ev : Evaluator) (n : IfNode) (s : RenderState) : List IfCall :=
  (IfNode.run ev n s).2

/-- An `IfNode` as a `Node` of a node list. -/
def IfNode.toNode (ev : Evaluator) (n : IfNode) : Node :=
  ⟨IfNode.render ev n⟩

/-! ## `for.cpp`: ForNode -/

/-- The members of a `ForNode`.  `isReversed` is `m_isReversed == IsReversed`. -/
structure ForNode where
  loopVars : List String
  filterExpression : FilterExpression
  isReversed : Bool
  loopNodeList : NodeList
  emptyNodeList : NodeList

/-- The calls `ForNode::render` makes on the Context and on its two node
lists, in program order.  `renderLoop` and `renderEmpty` carry the state in
which the node list was entered; `insert` is a direct `c->insert( name, value )`
of `render`; `insertLoopVariables` carries the two `int` arguments. -/
inductive ForCall where
  | push
  | pop
  | insert (name : String) (value : QVariant)
  | insertLoopVariables (listSize i : Int)
  | renderLoop (entry : RenderState)
  | renderEmpty (entry : RenderState)
  deriving DecidableEq

/-- A run of `ForNode::render` so far: the current state and the calls made. -/
structure ForRun where
  s : RenderState
  calls : List ForCall
  deriving DecidableEq

/-- The call `c->push()`. -/
def ForRun.push (r : ForRun) : ForRun :=
  ⟨{ r.s with c := r.s.c.push }, r.calls ++ [ForCall.push]⟩

/-- The call `c->pop()`. -/
def ForRun.pop (r : ForRun) : ForRun :=
  ⟨{ r.s with c := r.s.c.pop }, r.calls ++ [ForCall.pop]⟩

/-- The call `c->insert( name, value )`. -/
def ForRun.insert (r : ForRun) (name : String) (value : QVariant) : ForRun :=
  ⟨{ r.s with c := r.s.c.insert name value }, r.calls ++ [ForCall.insert name value]⟩

/-- Embeds `ForNode::insertLoopVariables( c, listSize, i )`: the Context it leaves. -/
def ForNode.insertLoopVariables (c : Context) (listSize i : Int) : Context :=
  let forloopHash := (c.lookup "forloop").toHash
  let forloopHash := forloopHash.insert "counter0" (QVariant.int i)
  let forloopHash := forloopHash.insert "counter" (QVariant.int (i + 1))
  let forloopHash := forloopHash.insert "revcounter" (QVariant.int (listSize - i))
  let forloopHash := forloopHash.insert "revcounter0" (QVariant.int (listSize - i - 1))
  let forloopHash := forloopHash.insert "first" (QVariant.bool (i == 0))
  let forloopHash := forloopHash.insert "last" (QVariant.bool (i == listSize - 1))
  c.insert "forloop" (QVariant.hash forloopHash)

/-- The call `insertLoopVariables( c, listSize, i )` inside a run. -/
def ForRun.insertLoopVariables (r : ForRun) (listSize i : Int) : ForRun :=
  ⟨{ r.s with c := ForNode.insertLoopVariables r.s.c listSize i },
    r.calls ++ [ForCall.insertLoopVariables listSize i]⟩

/-- Embeds `ForNode::renderLoop`: every node of the loop body in order. -/
def ForNode.renderLoop (n : ForNode) (s : RenderState) : RenderState :=
  n.loopNodeList.foldl (fun st nd => nd.render st) s

/-- The call `renderLoop( stream, c )` inside a run. -/
def ForRun.renderLoop (r : ForRun) (n : ForNode) : ForRun :=
  ⟨n.renderLoop r.s, r.calls ++ [ForCall.renderLoop r.s]⟩

/-- The effective index of iteration `i` (`index` in `ForNode::render`). -/
def ForNode.index (n : ForNode) (listSize i : Nat) : Nat :=
  if n.isReversed then listSize - i - 1 else i

/-- The unpack branch for an element that is a list: the two `j` loops.
Indexing is `at( j )`, in range by construction of the loop bounds. -/
def ForNode.unpackList (n : ForNode) (vList : List QVariant) (r : ForRun) : ForRun :=
  let varsSize := min n.loopVars.length vList.length
  let r := (List.range varsSize).foldl
    (fun r j => r.insert (n.loopVars.getD j "") (vList.getD j QVariant.invalid)) r
  (List.range' varsSize (n.loopVars.length - varsSize)).foldl
    (fun r j => r.insert (n.loopVars.getD j "") QVariant.invalid) r

/-- The unpack branch for an element that is not a list: one pass of the
`Q_FOREACH` over the loop variables. -/
def ForNode.unpackAttribute (ev : Evaluator) (item : QVariant) (r : ForRun)
    (loopVar : String) : ForRun :=
  let r := r.push
  let r := r.insert "var" item
  let v := ev.resolve ⟨"var." ++ loopVar⟩ r.s.c
  let r := r.pop
  r.insert loopVar v

/-- The variable binding of one iteration (the `if ( unpack )` statement),
for the element `item = varList[index]`.  `m_loopVars[0]` on an empty
variable list is undefined in the source; the model then binds the empty
name, and no theorem below relies on that case. -/
def ForNode.bind (ev : Evaluator) (n : ForNode) (item : QVariant) (r : ForRun) : ForRun :=
  let unpack := decide (n.loopVars.length > 1)
  if unpack then
    if item.isList then
      n.unpackList item.toList r
    else
      n.loopVars.foldl (ForNode.unpackAttribute ev item) r
  else
    r.insert (n.loopVars.getD 0 "") item

/-- One pass of the `for ( int i = 0; i < listSize; i++ )` loop of
`ForNode::render`. -/
def ForNode.iteration (ev : Evaluator) (n : ForNode) (varList : List QVariant)
    (r : ForRun) (i : Nat) : ForRun :=
  let listSize := varList.length
  let r := r.insertLoopVariables listSize i
  let index := n.index listSize i
  let r := n.bind ev (varList.getD index QVariant.invalid) r
  r.renderLoop n

/-- The `for` loop of `ForNode::render` over `varList`. -/
def ForNode.loop (ev : Evaluator) (n : ForNode) (varList : List QVariant) (r : ForRun) : ForRun :=
  (List.range varList.length).foldl (ForNode.iteration ev n varList) r

/-- The opening of `ForNode::render`: when a `forloop` is already visible this
is a nested loop, and the visible record is re-installed with itself as
`parentloop`. -/
def ForNode.installParentLoop (r : ForRun) : ForRun :=
  let parentLoopVariant := r.s.c.lookup "forloop"
  if parentLoopVariant.isValid then
    let forloopHash := parentLoopVariant.toHash
    let forloopHash := forloopHash.insert "parentloop" (QVariant.hash parentLoopVariant.toHash)
    r.insert "forloop" (QVariant.hash forloopHash)
  else
    r

/-- Embeds `ForNode::render`, with the calls it made. -/
def ForNode.run (ev : Evaluator) (n : ForNode) (s : RenderState) : ForRun :=
  let r := ForNode.installParentLoop ⟨s, []⟩
  let r := r.push
  let varList := ev.toList n.filterExpression r.s.c
  let listSize := varList.length
  if listSize < 1 then
    let r := r.pop
    ⟨NodeList.render n.emptyNodeList r.s, r.calls ++ [ForCall.renderEmpty r.s]⟩
  else
    let r := ForNode.loop ev n varList r
    r.pop

/-- Embeds `ForNode::render`: the state it leaves. -/
def ForNode.render (ev : Evaluator) (n : ForNode) (s : RenderState) : RenderState :=
  (ForNode.run ev n s).s

/-- A `ForNode` as a `Node` of a node list. -/
def ForNode.toNode (ev : Evaluator) (n : ForNode) : Node :=
  ⟨ForNode.render ev n⟩

/-- The states in which the loop body was entered, in order. -/
def ForCall.loopEntries : List ForCall → List RenderState
  | [] => []
  | ForCall.renderLoop entry :: rest => entry :: ForCall.loopEntries rest
  | _ :: rest => ForCall.loopEntries rest

/-- The states in which the empty-body list was entered, in order. -/
def ForCall.emptyEntries : List ForCall → List RenderState
  | [] => []
  | ForCall.renderEmpty entry :: rest => entry :: ForCall.emptyEntries rest
  | _ :: rest => ForCall.emptyEntries rest

/-! ## Strings (`QString`, `QStringList`) -/

/-- Whether `sep` starts at the head of `s`. -/
def QString.startsAt (sep : List Char) (s : List Char) : Bool :=
  sep.isPrefixOf s

/-- Embeds `QString::contains( sep )` on character lists: `sep` occurs at some
position of `s`. -/
def QString.containsChars (sep : List Char) : List Char → Bool
  | [] => QString.startsAt sep []
  | ch :: rest => QString.startsAt sep (ch :: rest) || QString.containsChars sep rest

/-- Embeds `QString::split( sep )` with `KeepEmptyParts` on character lists, for a
non-empty `sep`: the pieces between the occurrences of `sep`, found left to
right without overlap.  `skip` counts the characters of an occurrence just
found that are still to be passed over. -/
def QString.splitChars (sep : List Char) : List Char → Nat → List (List Char)
  | [], _ => [[]]
  | _ :: rest, skip + 1 => QString.splitChars sep rest skip
  | ch :: rest, 0 =>
    if QString.startsAt sep (ch :: rest) then
      [] :: QString.splitChars sep rest (sep.length - 1)
    else
      match QString.splitChars sep rest 0 with
      | piece :: pieces => (ch :: piece) :: pieces
      | [] => [[ch]]

/-- Embeds `QString::contains( sep )`. -/
def QString.contains (s : String) (sep : String) : Bool :=
  QString.containsChars sep.data s.data

/-- Embeds `QString::split( sep )` (the default `KeepEmptyParts`). -/
def QString.split (s : String) (sep : String) : List String :=
  (QString.splitChars sep.data s.data 0).map String.mk

/-- Embeds `QString::split( sep, QString::SkipEmptyParts )`. -/
def QString.splitSkipEmptyParts (s : String) (sep : String) : List String :=
  ((QString.splitChars sep.data s.data 0).filter (fun piece => !piece.isEmpty)).map String.mk

/-- Embeds `QStringList::join( sep )`. -/
def QStringList.join (l : List String) (sep : String) : String :=
  sep.intercalate l

/-- Embeds `QChar::isSpace` on the ASCII range: tab, line feed, vertical tab, form
feed, carriage return and space. -/
def QChar.isSpace (ch : Char) : Bool :=
  ch.toNat == 32 || (9 ≤ ch.toNat && ch.toNat ≤ 13)

/-- Embeds `QString::trimmed`: whitespace removed from both ends. -/
def QString.trimmed (s : String) : String :=
  String.mk ((s.data.dropWhile QChar.isSpace).reverse.dropWhile QChar.isSpace).reverse

/-- Embeds `QString::isNull`.  A null `QString` is in particular empty; the model has
no separate null state and answers `true` on every empty string, which is at
least as often as the source does. -/
def QString.isNull (s : String) : Bool :=
  s.data.isEmpty

/-! ## Parser and exceptions -/

/-- Embeds `Grantlee::Exception( TagSyntaxError, message )`, the only error the two
factories throw. -/
inductive Exception where
  | TagSyntaxError (what : String)
  deriving DecidableEq

/-- A template token, of which the factories read only `content`. -/
structure Token where
  content : String
  deriving DecidableEq

/-- The parsing driver, taken as a parameter: `parse( node, stopAt )` consumes
tokens up to a tag named in `stopAt`, returns the nodes parsed and leaves that
tag as the next token. -/
structure Parser where
  parse : List String → List Token → NodeList × List Token

/-- Modelled from the spec: `consume_next_token()` of the parsing driver
(`takeNextToken` in `for.cpp`, `nextToken` in `if.cpp`) removes and returns
the next token. -/
def Parser.takeNextToken (tokens : List Token) : Token × List Token :=
  (tokens.headD ⟨""⟩, tokens.tail)

/-- Modelled from the spec: the driver call that skips the next token
(`removeNextToken` in `for.cpp`, `deleteNextToken` in `if.cpp`). -/
def Parser.removeNextToken (tokens : List Token) : List Token :=
  tokens.tail

/-! ## `for.cpp`: ForNodeFactory -/

/-- Embeds `ForNode::setLoopList`. -/
def ForNode.setLoopList (n : ForNode) (loopNodeList : NodeList) : ForNode :=
  { n with loopNodeList := loopNodeList }

/-- Embeds `ForNode::setEmptyList`. -/
def ForNode.setEmptyList (n : ForNode) (emptyList : NodeList) : ForNode :=
  { n with emptyNodeList := emptyList }

/-- The loop that fills `vars` in `ForNodeFactory::getNode`: every word before
`in` is split at commas, empty parts skipped. -/
def ForNodeFactory.vars (args : List String) : List String :=
  args.foldl (fun vars arg => vars ++ QString.splitSkipEmptyParts arg ",") []

/-- Embeds `ForNodeFactory::getNode( tagContent, p )`.  `smartSplit` is the
quote-aware splitter of the node-factory base class, taken as a parameter;
`tokens` is what the parser has still to read.  Yields the node and the tokens
left, or the exception thrown. -/
def ForNodeFactory.getNode (smartSplit : String → List String) (p : Parser)
    (tagContent : String) (tokens : List Token) : Except Exception (ForNode × List Token) :=
  let expr := smartSplit tagContent
  if expr.length < 4 then
    Except.error (Exception.TagSyntaxError
      ("'for' statements should have at least four words: " ++ tagContent))
  else
    let expr := expr.eraseIdx 0
    let reversed := decide (expr.getLast? = some "reversed")
    let expr := if reversed then expr.dropLast else expr
    if (expr.drop (expr.length - 2)).head? ≠ some "in" then
      Except.error (Exception.TagSyntaxError
        ("'for' statements should use the form 'for x in y': " ++ tagContent))
    else
      let vars := ForNodeFactory.vars (expr.take (expr.length - 2))
      if vars.any QString.isNull then
        Except.error (Exception.TagSyntaxError "'for' tag received invalid argument")
      else
        let fe : FilterExpression := ⟨expr.getLastD ""⟩
        let n : ForNode := ⟨vars, fe, reversed, [], []⟩
        let parsed := p.parse ["empty", "endfor"] tokens
        let n := n.setLoopList parsed.1
        let next := Parser.takeNextToken parsed.2
        if QString.trimmed next.1.content = "empty" then
          let parsedEmpty := p.parse ["endfor"] next.2
          let n := n.setEmptyList parsedEmpty.1
          Except.ok (n, Parser.removeNextToken parsedEmpty.2)
        else
          Except.ok (n, next.2)

/-! ## `if.cpp`: IfNodeFactory -/

/-- Embeds `IfNode::setTrueList`. -/
def IfNode.setTrueList (n : IfNode) (trueList : NodeList) : IfNode :=
  { n with trueList := trueList }

/-- Embeds `IfNode::setFalseList`. -/
def IfNode.setFalseList (n : IfNode) (falseList : NodeList) : IfNode :=
  { n with falseList := falseList }

/-- The body of the `foreach` over `boolPairs` in `IfNodeFactory::getNode`:
one piece becomes one `(negate, expression)` pair. -/
def IfNodeFactory.pair (boolStr : String) : Except Exception (Bool × FilterExpression) :=
  if QString.contains boolStr " " then
    let bits := QString.split boolStr " "
    if bits.length ≠ 2 then
      Except.error (Exception.TagSyntaxError "'if' statement improperly formatted")
    else if bits.getD 0 "" ≠ "not" then
      Except.error (Exception.TagSyntaxError "Expected 'not' in if statement")
    else
      Except.ok (true, ⟨QString.trimmed (bits.getD 1 "")⟩)
  else
    Except.ok (false, ⟨QString.trimmed boolStr⟩)

/-- The `foreach` over `boolPairs`: pairs are appended in order, and the first
piece that throws ends the loop. -/
def IfNodeFactory.boolVars : List String → Except Exception (List (Bool × FilterExpression))
  | [] => Except.ok []
  | boolStr :: rest =>
    match IfNodeFactory.pair boolStr with
    | Except.error e => Except.error e
    | Except.ok pair =>
      match IfNodeFactory.boolVars rest with
      | Except.error e => Except.error e
      | Except.ok pairs => Except.ok (pair :: pairs)

/-- The split of the joined arguments into pieces and the link type, or the
exception for mixed operators. -/
def IfNodeFactory.boolPairs (exprString : String) : Except Exception (List String × LinkType) :=
  let boolPairs := QString.split exprString " and "
  if boolPairs.length = 1 then
    Except.ok (QString.split exprString " or ", LinkType.OrLink)
  else if QString.contains exprString " or " then
    Except.error (Exception.TagSyntaxError "'if' tags can't mix 'and' and 'or'")
  else
    Except.ok (boolPairs, LinkType.AndLink)

/-- Embeds `IfNodeFactory::getNode( tagContent, p )`, with the same parameters as
`ForNodeFactory.getNode`.  The tag content always starts with the tag name;
`takeAt( 0 )` on an empty token list is undefined in the source, and the
model then leaves the list empty. -/
def IfNodeFactory.getNode (smartSplit : String → List String) (p : Parser)
    (tagContent : String) (tokens : List Token) : Except Exception (IfNode × List Token) :=
  let expr := smartSplit tagContent
  let expr := expr.eraseIdx 0
  if expr.length ≤ 0 then
    Except.error (Exception.TagSyntaxError "'if' statement requires at least one argument")
  else
    let exprString := QStringList.join expr " "
    match IfNodeFactory.boolPairs exprString with
    | Except.error e => Except.error e
    | Except.ok (boolPairs, linkType) =>
      match IfNodeFactory.boolVars boolPairs with
      | Except.error e => Except.error e
      | Except.ok boolVars =>
        let n : IfNode := ⟨boolVars, linkType, [], []⟩
        let parsed := p.parse ["else", "endif"] tokens
        let n := n.setTrueList parsed.1
        let next := Parser.takeNextToken parsed.2
        if QString.trimmed next.1.content = "else" then
          let parsedFalse := p.parse ["endif"] next.2
          let n := n.setFalseList parsedFalse.1
          Except.ok (n, Parser.removeNextToken parsedFalse.2)
        else
          Except.ok (n, next.2)

/-! ## Reference collaborators for worked examples -/

/-- Modelled from the spec: `split_tag_arguments`, "quote-aware whitespace
splitting".  A reference splitter for worked examples: words are separated by
blanks, and a blank inside a pair of double quotes does not separate. -/
def smartSplitChars : List Char → List Char → Bool → List (List Char)
  | [], cur, _ => if cur.isEmpty then [] else [cur.reverse]
  | ch :: rest, cur, inQuote =>
    if ch = Char.ofNat 34 then
      smartSplitChars rest (ch :: cur) (!inQuote)
    else if QChar.isSpace ch && !inQuote then
      (if cur.isEmpty then [] else [cur.reverse]) ++ smartSplitChars rest [] false
    else
      smartSplitChars rest (ch :: cur) inQuote

/-- Modelled from the spec: the reference `split_tag_arguments` on strings. -/
def smartSplit (tagContent : String) : List String :=
  (smartSplitChars tagContent.data [] false).map String.mk

/-- Modelled from the spec: resolution of a dotted path, one component after
the other, through nested hashes. -/
def Variable.resolvePath (v : QVariant) : List String → QVariant
  | [] => v
  | part :: rest => Variable.resolvePath (v.toHash.value part) rest

/-- Modelled from the spec: a reference `resolve` for worked examples, "a
dotted variable path" looked up in the Context (no filters). -/
def Variable.resolve (fe : FilterExpression) (c : Context) : QVariant :=
  match QString.split fe.text "." with
  | [] => QVariant.invalid
  | name :: path => Variable.resolvePath (c.lookup name) path

/-- Modelled from the spec: a reference truthiness, "coerce a value to a
boolean": absent values, `false`, zero and empty containers are falsy. -/
def Variable.variantIsTrue : QVariant → Bool
  | .invalid => false
  | .bool b => b
  | .int n => n != 0
  | .string s => !s.data.isEmpty
  | .list l => !l.isEmpty
  | .hash h => !h.isEmpty

/-- Modelled from the spec: a reference coercion "to a sequence": a list is
iterated, an absent value is empty, anything else is a list of one. -/
def Variable.variantToList : QVariant → List QVariant
  | .invalid => []
  | .list l => l
  | v => [v]

/-- Modelled from the spec: the reference Expression collaborator used in
worked examples. -/
def referenceEvaluator : Evaluator :=
  ⟨Variable.resolve, fun fe c => Variable.variantIsTrue (Variable.resolve fe c),
    fun fe c => Variable.variantToList (Variable.resolve fe c)⟩

/-- Modelled from the spec: a parser for worked examples that hands out fixed
node lists: `body` up to the first boundary and `alt` up to the second. -/
def fixedParser (body alt : NodeList) : Parser :=
  ⟨fun stopAt tokens => (if stopAt.length = 2 then body else alt,
    tokens.dropWhile (fun t => !stopAt.contains (QString.trimmed t.content)))⟩

/-- A node that writes the value of an expression to the stream, as a
`{{ variable }}` does; used to observe the Context from inside a body. -/
def VariableNode (ev : Evaluator) (fe : FilterExpression) : Node :=
  ⟨fun s => { s with stream := s.stream ++ [match ev.resolve fe s.c with
    | QVariant.int n => toString n
    | QVariant.string str => str
    | QVariant.bool b => toString b
    | _ => ""] }⟩

/-- A node that writes a fixed text, as template text outside tags does. -/
def TextNode (content : String) : Node :=
  ⟨fun s => { s with stream := s.stream ++ [content] }⟩

/-! ## Reading a run of `ForNode::render` -/

/-- The source sequence `varList` as `ForNode::render` obtains it when entered
in state `s`: `m_filterExpression.toList( c )`, evaluated after the opening of
`render` and its `c->push()`. -/
def ForNode.varList (ev : Evaluator) (n : ForNode) (s : RenderState) : List QVariant :=
  ev.toList n.filterExpression (ForNode.installParentLoop ⟨s, []⟩).push.s.c

/-- The run after the first `k` passes of the loop. -/
def ForNode.passes (ev : Evaluator) (n : ForNode) (varList : List QVariant) (r : ForRun)
    (k : Nat) : ForRun :=
  (List.range k).foldl (ForNode.iteration ev n varList) r

/-- The state in which the body is entered in pass `i`, when the run before
the pass is `r`. -/
def ForNode.entry (ev : Evaluator) (n : ForNode) (varList : List QVariant) (r : ForRun)
    (i : Nat) : RenderState :=
  (n.bind ev (varList.getD (n.index varList.length i) QVariant.invalid)
    (r.insertLoopVariables varList.length i)).s

/-- The `forloop` record visible in state `entry` holds the six counters of
iteration `i` of a loop over `len` elements. -/
def ForNode.ForloopRecordAt (entry : RenderState) (len i : Nat) : Prop :=
  ((entry.c.lookup "forloop").toHash.value "counter0" = QVariant.int (i : Int)) ∧
  ((entry.c.lookup "forloop").toHash.value "counter" = QVariant.int ((i : Int) + 1)) ∧
  ((entry.c.lookup "forloop").toHash.value "revcounter"
    = QVariant.int ((len : Int) - (i : Int))) ∧
  ((entry.c.lookup "forloop").toHash.value "revcounter0"
    = QVariant.int ((len : Int) - 1 - (i : Int))) ∧
  ((entry.c.lookup "forloop").toHash.value "first" = QVariant.bool (decide ((i : Int) = 0))) ∧
  ((entry.c.lookup "forloop").toHash.value "last"
    = QVariant.bool (decide ((i : Int) = (len : Int) - 1)))

instance (entry : RenderState) (len i : Nat) : Decidable (ForNode.ForloopRecordAt entry len i) := by
  unfold ForNode.ForloopRecordAt; infer_instance

/-- The `( listSize, i )` arguments of the `insertLoopVariables` calls, in
order. -/
def ForCall.counters : List ForCall → List (Int × Int)
  | [] => []
  | ForCall.insertLoopVariables listSize i :: rest => (listSize, i) :: ForCall.counters rest
  | _ :: rest => ForCall.counters rest

/-- Every entry of the loop body, in a run of `n` from `s`, sees the `forloop`
counters of its own iteration: the body is entered once per source element,
and the `i`-th entry sees the record of iteration `i`. -/
def ForNode.CountersVisible (ev : Evaluator) (n : ForNode) (s : RenderState) : Prop :=
  (ForCall.loopEntries (ForNode.run ev n s).calls).length = (ForNode.varList ev n s).length ∧
  ∀ i, i < (ForNode.varList ev n s).length →
    ∃ entry, (ForCall.loopEntries (ForNode.run ev n s).calls)[i]? = some entry ∧
      ForNode.ForloopRecordAt entry (ForNode.varList ev n s).length i

/-- Every entry of the loop body, in a run of `n` entered in state `s`, sees
under `forloop.parentloop` the `forloop` record that was visible in `s`. -/
def ForNode.ParentloopVisible (ev : Evaluator) (n : ForNode) (s : RenderState) : Prop :=
  ∀ i, i < (ForNode.varList ev n s).length →
    ∃ entry, (ForCall.loopEntries (ForNode.run ev n s).calls)[i]? = some entry ∧
      (entry.c.lookup "forloop").toHash.value "parentloop"
        = QVariant.hash (s.c.lookup "forloop").toHash

/-- A step of a run that made only plain Context calls (`push`, `pop`,
`insert`): the node lists were not entered and no counters were installed. -/
def ForRun.ContextStep (r r2 : ForRun) : Prop :=
  r2.s.stream = r.s.stream ∧
  ForCall.loopEntries r2.calls = ForCall.loopEntries r.calls ∧
  ForCall.emptyEntries r2.calls = ForCall.emptyEntries r.calls ∧
  ForCall.counters r2.calls = ForCall.counters r.calls

/-! ## Reading the `for` tag -/

/-- The words of a `for` tag "after dropping the tag name and one trailing
`reversed` token if present". -/
def ForNodeFactory.remaining (expr : List String) : List String :=
  if (expr.eraseIdx 0).getLast? = some "reversed" then (expr.eraseIdx 0).dropLast
  else expr.eraseIdx 0

/-- The non-empty comma-separated fragments of a word, by the library split
of a list at an element. -/
def ForNodeFactory.fragments (word : String) : List String :=
  ((word.data.splitOn ',').filter (fun fragment => !fragment.isEmpty)).map String.mk

/-- The part of `ForNodeFactory::getNode` that reads the tag content, before
the parser is asked for the node lists: the loop variables, the source
expression and the `reversed` flag, or the exception thrown. -/
def ForNodeFactory.header (smartSplit : String → List String) (tagContent : String) :
    Except Exception (List String × FilterExpression × Bool) :=
  let expr := smartSplit tagContent
  if expr.length < 4 then
    Except.error (Exception.TagSyntaxError
      ("'for' statements should have at least four words: " ++ tagContent))
  else
    let expr := expr.eraseIdx 0
    let reversed := decide (expr.getLast? = some "reversed")
    let expr := if reversed then expr.dropLast else expr
    if (expr.drop (expr.length - 2)).head? ≠ some "in" then
      Except.error (Exception.TagSyntaxError
        ("'for' statements should use the form 'for x in y': " ++ tagContent))
    else
      let vars := ForNodeFactory.vars (expr.take (expr.length - 2))
      if vars.any QString.isNull then
        Except.error (Exception.TagSyntaxError "'for' tag received invalid argument")
      else
        Except.ok (vars, ⟨expr.getLastD ""⟩, reversed)


/-! ## Reading a run of `IfNode::render` -/

/-- The indexes of the terms whose `isTrue` was evaluated, in the order of
the evaluations. -/
def IfCall.evaluated : List IfCall → List Nat
  | [] => []
  | IfCall.isTrue i :: rest => i :: IfCall.evaluated rest
  | _ :: rest => IfCall.evaluated rest

/-- Whether a term decides the outcome: "for OR the first term with
truth != negate, for AND the first term with truth == negate". -/
def IfNode.decides (ev : Evaluator) (c : Context) (linkType : LinkType)
    (term : Bool × FilterExpression) : Bool :=
  match linkType with
  | LinkType.OrLink => ev.isTrue term.2 c != term.1
  | LinkType.AndLink => ev.isTrue term.2 c == term.1

/-! ## Scope bookkeeping of a run of `ForNode::render` -/

/-- The number of scopes a render has open after `calls`, when it had opened
`d` before them: each `push` opens one, each `pop` closes one, and the answer
is `none` as soon as a `pop` would close a scope the render did not open. -/
def ForCall.scopesOpen : List ForCall → Nat → Option Nat
  | [], d => some d
  | ForCall.push :: rest, d => ForCall.scopesOpen rest (d + 1)
  | ForCall.pop :: _, 0 => none
  | ForCall.pop :: rest, d + 1 => ForCall.scopesOpen rest d
  | ForCall.insert _ _ :: rest, d => ForCall.scopesOpen rest d
  | ForCall.insertLoopVariables _ _ :: rest, d => ForCall.scopesOpen rest d
  | ForCall.renderLoop _ :: rest, d => ForCall.scopesOpen rest d
  | ForCall.renderEmpty _ :: rest, d => ForCall.scopesOpen rest d

/-- A run that started at depth `depth` (at least one scope, as every Context
has) and has `d` scopes of its own open:
its pops never went below the start, it made `d` more pushes than pops, the
Context is `d` scopes deeper than at the start, every entry of the body was
one scope deeper than the start and every entry of the empty-body at the
depth of the start. -/
def ForRun.Scoped (depth d : Nat) (r : ForRun) : Prop :=
  1 ≤ depth ∧
  ForCall.scopesOpen r.calls 0 = some d ∧
  r.calls.count ForCall.push = r.calls.count ForCall.pop + d ∧
  r.s.c.depth = depth + d ∧
  (∀ entry ∈ ForCall.loopEntries r.calls, entry.c.depth = depth + 1) ∧
  (∀ entry ∈ ForCall.emptyEntries r.calls, entry.c.depth = depth)

/-! ## `ForNode::render` with every indexed access checked -/

/-- The list branch of the unpacking with each `at( j )` checked against the
size of the list it indexes: `none` as soon as one is out of range. -/
def ForNode.unpackListChecked (n : ForNode) (vList : List QVariant) (r : ForRun) :
    Option ForRun :=
  let varsSize := min n.loopVars.length vList.length
  match (List.range varsSize).foldlM
      (fun r j =>
        match n.loopVars[j]?, vList[j]? with
        | some loopVar, some value => some (r.insert loopVar value)
        | _, _ => none) r with
  | none => none
  | some r =>
    (List.range' varsSize (n.loopVars.length - varsSize)).foldlM
      (fun r j =>
        match n.loopVars[j]? with
        | some loopVar => some (r.insert loopVar QVariant.invalid)
        | none => none) r

/-- The variable binding of one iteration with `m_loopVars[0]` and each
`at( j )` checked. -/
def ForNode.bindChecked (ev : Evaluator) (n : ForNode) (item : QVariant) (r : ForRun) :
    Option ForRun :=
  let unpack := decide (n.loopVars.length > 1)
  if unpack then
    if item.isList then
      n.unpackListChecked item.toList r
    else
      some (n.loopVars.foldl (ForNode.unpackAttribute ev item) r)
  else
    match n.loopVars[0]? with
    | some loopVar => some (r.insert loopVar item)
    | none => none

/-- One pass of the loop with `varList[index]` and the accesses of the
binding checked. -/
def ForNode.iterationChecked (ev : Evaluator) (n : ForNode) (varList : List QVariant)
    (r : ForRun) (i : Nat) : Option ForRun :=
  let listSize := varList.length
  let r := r.insertLoopVariables listSize i
  let index := n.index listSize i
  match varList[index]? with
  | none => none
  | some item =>
    match n.bindChecked ev item r with
    | none => none
    | some r => some (r.renderLoop n)

/-- The embedding of `ForNode::render` in which every indexed access is
checked: `none` when an access is out of range, and otherwise the run. -/
def ForNode.runChecked (ev : Evaluator) (n : ForNode) (s : RenderState) : Option ForRun :=
  let r := ForNode.installParentLoop ⟨s, []⟩
  let r := r.push
  let varList := ev.toList n.filterExpression r.s.c
  let listSize := varList.length
  if listSize < 1 then
    let r := r.pop
    some ⟨NodeList.render n.emptyNodeList r.s, r.calls ++ [ForCall.renderEmpty r.s]⟩
  else
    match (List.range listSize).foldlM (ForNode.iterationChecked ev n varList) r with
    | none => none
    | some r => some r.pop

/-! ## `ForNode::render` when a callee throws

`ForNode::render` has no `try` block and no scope guard: an exception thrown
by a callee leaves `render` at the call, and the statements after the call
are not executed.  The embedding below follows a render in which the nodes of
the two lists and the evaluation of the source expression may throw. -/

/-- An exception that aborts a render. -/
structure RenderFailure where
  what : String
  deriving DecidableEq

/-- What a call that may throw leaves: the state when it returned, or when
the exception left it, and the exception if there was one. -/
structure Outcome where
  s : RenderState
  thrown : Option RenderFailure
  deriving DecidableEq

/-- A renderable `Node` whose `render` may throw. -/
structure ThrowingNode where
  render : RenderState → Outcome

/-- The loop over the nodes of a list (`ForNode::renderLoop`, and
`NodeList::render` as the spec describes it), left at the first node that
throws. -/
def ThrowingNode.renderList : List ThrowingNode → RenderState → Outcome
  | [], s => ⟨s, none⟩
  | nd :: rest, s =>
    match (nd.render s).thrown with
    | some e => ⟨(nd.render s).s, some e⟩
    | none => ThrowingNode.renderList rest (nd.render s).s

/-- The members of a `ForNode` whose node lists may throw. -/
structure ThrowingForNode where
  loopVars : List String
  filterExpression : FilterExpression
  isReversed : Bool
  loopNodeList : List ThrowingNode
  emptyNodeList : List ThrowingNode

/-- The members that do not render: loop variables, source and flag. -/
def ThrowingForNode.header (n : ThrowingForNode) : ForNode :=
  ⟨n.loopVars, n.filterExpression, n.isReversed, [], []⟩

/-- A run so far, and the exception that ended it if one did. -/
structure ThrowingRun where
  r : ForRun
  thrown : Option RenderFailure
  deriving DecidableEq

/-- One pass of the `for` loop: the counters, the binding, then the body,
which may throw. -/
def ThrowingForNode.iteration (ev : Evaluator) (n : ThrowingForNode)
    (varList : List QVariant) (r : ForRun) (i : Nat) : ThrowingRun :=
  let listSize := varList.length
  let r := r.insertLoopVariables listSize i
  let index := n.header.index listSize i
  let r := n.header.bind ev (varList.getD index QVariant.invalid) r
  let o := ThrowingNode.renderList n.loopNodeList r.s
  ⟨⟨o.s, r.calls ++ [ForCall.renderLoop r.s]⟩, o.thrown⟩

/-- The `for` loop over the iterations `is`, left at the first pass that
throws. -/
def ThrowingForNode.loop (ev : Evaluator) (n : ThrowingForNode) (varList : List QVariant) :
    List Nat → ForRun → ThrowingRun
  | [], r => ⟨r, none⟩
  | i :: rest, r =>
    match (n.iteration ev varList r i).thrown with
    | some e => ⟨(n.iteration ev varList r i).r, some e⟩
    | none => ThrowingForNode.loop ev n varList rest (n.iteration ev varList r i).r

/-- Embeds `ForNode::render` with callees that may throw.  `sourceFails` tells
whether `m_filterExpression.toList( c )` throws in a Context, and what. -/
def ThrowingForNode.run (ev : Evaluator)
    (sourceFails : FilterExpression → Context → Option RenderFailure)
    (n : ThrowingForNode) (s : RenderState) : ThrowingRun :=
  let r := ForNode.installParentLoop ⟨s, []⟩
  let r := r.push
  match sourceFails n.filterExpression r.s.c with
  | some e => ⟨r, some e⟩
  | none =>
    let varList := ev.toList n.filterExpression r.s.c
    let listSize := varList.length
    if listSize < 1 then
      let r := r.pop
      let o := ThrowingNode.renderList n.emptyNodeList r.s
      ⟨⟨o.s, r.calls ++ [ForCall.renderEmpty r.s]⟩, o.thrown⟩
    else
      let t := ThrowingForNode.loop ev n varList (List.range listSize) r
      match t.thrown with
      | some e => ⟨t.r, some e⟩
      | none => ⟨t.r.pop, none⟩

/-- A node that does not throw, as a node that may. -/
def Node.toThrowing (nd : Node) : ThrowingNode :=
  ⟨fun s => ⟨nd.render s, none⟩⟩

/-- A `ForNode` whose nodes do not throw, as one whose nodes may. -/
def ForNode.toThrowing (n : ForNode) : ThrowingForNode :=
  ⟨n.loopVars, n.filterExpression, n.isReversed, n.loopNodeList.map Node.toThrowing,
    n.emptyNodeList.map Node.toThrowing⟩

/-- A node that throws, leaving the state as it found it. -/
def ThrowingNode.fail (what : String) : ThrowingNode :=
  ⟨fun s => ⟨s, some ⟨what⟩⟩⟩

/-- The Context in which `ForNode::render`, entered in state `s`, evaluates
its source expression: after the opening of `render` and its `c->push()`. -/
def ForNode.sourceContext (s : RenderState) : Context :=
  (ForNode.installParentLoop ⟨s, []⟩).push.s.c

/-- The scope a render pushed is released when an exception leaves it: "the
Context's scope-stack depth when the error leaves `ForNode::render` equals
the depth at entry". -/
def ThrowingForNode.ReleasesOnError (ev : Evaluator)
    (sourceFails : FilterExpression → Context → Option RenderFailure)
    (n : ThrowingForNode) (s : RenderState) : Prop :=
  ∀ e, (ThrowingForNode.run ev sourceFails n s).thrown = some e →
    (ThrowingForNode.run ev sourceFails n s).r.s.c.depth = s.c.depth
/-! ## Theorems: IfNode::render -/

/-- A term passes when its post-negation value is true. -/
theorem IfNode.orLoop_returned (ev : Evaluator) (c : Context)
    (terms : List (Bool × FilterExpression)) (i : Nat) :
    (IfNode.orLoop ev c terms i).2 = true ↔ ∃ t ∈ terms, ev.isTrue t.2 c ≠ t.1 := by
  induction terms generalizing i with
  | nil => simp [IfNode.orLoop]
  | cons p rest ih =>
    by_cases hp : ev.isTrue p.2 c = p.1
    · simp [IfNode.orLoop, hp, ih]
    · simp [IfNode.orLoop, hp]

theorem IfNode.orLoop_no_render (ev : Evaluator) (c : Context)
    (terms : List (Bool × FilterExpression)) (i : Nat) :
    IfCall.renderTrueList ∉ (IfNode.orLoop ev c terms i).1 ∧
      IfCall.renderFalseList ∉ (IfNode.orLoop ev c terms i).1 := by
  induction terms generalizing i with
  | nil => simp [IfNode.orLoop]
  | cons p rest ih =>
    by_cases hp : ev.isTrue p.2 c = p.1
    · simp [IfNode.orLoop, hp, ih]
    · simp [IfNode.orLoop, hp]

theorem IfNode.andLoop_renderTrue (ev : Evaluator) (c : Context)
    (terms : List (Bool × FilterExpression)) (i : Nat) :
    (IfNode.andLoop ev c terms i).2 = true ↔ ∀ t ∈ terms, ev.isTrue t.2 c ≠ t.1 := by
  induction terms generalizing i with
  | nil => simp [IfNode.andLoop]
  | cons p rest ih =>
    cases h1 : ev.isTrue p.2 c <;> cases h2 : p.1 <;> simp [IfNode.andLoop, h1, h2, ih]

theorem IfNode.andLoop_no_render (ev : Evaluator) (c : Context)
    (terms : List (Bool × FilterExpression)) (i : Nat) :
    IfCall.renderTrueList ∉ (IfNode.andLoop ev c terms i).1 ∧
      IfCall.renderFalseList ∉ (IfNode.andLoop ev c terms i).1 := by
  induction terms generalizing i with
  | nil => simp [IfNode.andLoop]
  | cons p rest ih =>
    cases h1 : ev.isTrue p.2 c <;> cases h2 : p.1 <;> simp [IfNode.andLoop, h1, h2, ih]

/-- C1: with link type OR, for every term list (empty or not), both branches
and every state, `IfNode::render` renders the true-branch (once, and not the
false-branch) exactly when some term `(negate, cond)` has
`cond.isTrue( c ) != negate`, and renders the false-branch (once, and not the
true-branch) exactly when no term does.  For `not A or B` the true-branch
renders iff `A` is falsy or `B` is truthy. -/
theorem IfNode.render_orLink (ev : Evaluator) (terms : List (Bool × FilterExpression))
    (trueList falseList : NodeList) (s : RenderState) :
    ((∃ t ∈ terms, ev.isTrue t.2 s.c ≠ t.1) →
      IfNode.render ev ⟨terms, LinkType.OrLink, trueList, falseList⟩ s
          = NodeList.render trueList s ∧
        (IfNode.calls ev ⟨terms, LinkType.OrLink, trueList, falseList⟩ s).count
          IfCall.renderTrueList = 1 ∧
        (IfNode.calls ev ⟨terms, LinkType.OrLink, trueList, falseList⟩ s).count
          IfCall.renderFalseList = 0) ∧
    ((¬ ∃ t ∈ terms, ev.isTrue t.2 s.c ≠ t.1) →
      IfNode.render ev ⟨terms, LinkType.OrLink, trueList, falseList⟩ s
          = NodeList.render falseList s ∧
        (IfNode.calls ev ⟨terms, LinkType.OrLink, trueList, falseList⟩ s).count
          IfCall.renderFalseList = 1 ∧
        (IfNode.calls ev ⟨terms, LinkType.OrLink, trueList, falseList⟩ s).count
          IfCall.renderTrueList = 0) ∧
    (∀ A B : FilterExpression,
      terms = [(true, A), (false, B)] →
      ((IfNode.calls ev ⟨terms, LinkType.OrLink, trueList, falseList⟩ s).count
          IfCall.renderTrueList = 1 ↔
        (ev.isTrue A s.c = false ∨ ev.isTrue B s.c = true))) := by
  have hnr := IfNode.orLoop_no_render ev s.c terms 0
  have hret := IfNode.orLoop_returned ev s.c terms 0
  refine ⟨?_, ?_, ?_⟩
  · intro h
    have hr : (IfNode.orLoop ev s.c terms 0).2 = true := hret.mpr h
    simp [IfNode.render, IfNode.calls, IfNode.run, hr, IfNode.renderTrueList,
      List.count_eq_zero_of_not_mem hnr.1, List.count_eq_zero_of_not_mem hnr.2]
  · intro h
    have hr : (IfNode.orLoop ev s.c terms 0).2 = false := by
      rw [← Bool.not_eq_true]; exact fun hh => h (hret.mp hh)
    simp [IfNode.render, IfNode.calls, IfNode.run, hr, IfNode.renderFalseList,
      List.count_eq_zero_of_not_mem hnr.1, List.count_eq_zero_of_not_mem hnr.2]
  · intro A B hAB
    subst hAB
    cases hA : ev.isTrue A s.c <;> cases hB : ev.isTrue B s.c <;>
      simp [IfNode.calls, IfNode.run, IfNode.orLoop, hA, hB]

/-- C2: with link type AND, for every term list, both branches and every
state, `IfNode::render` renders the true-branch exactly when every term
`(negate, cond)` has `cond.isTrue( c ) != negate` and the false-branch
otherwise; the coded failure test `(!truth && !negate) || (truth && negate)`
is the same as `truth == negate`; and `x and y` with `x` truthy and `y` falsy
renders the false-branch. -/
theorem IfNode.render_andLink (ev : Evaluator) (terms : List (Bool × FilterExpression))
    (trueList falseList : NodeList) (s : RenderState) :
    ((∀ t ∈ terms, ev.isTrue t.2 s.c ≠ t.1) →
      IfNode.render ev ⟨terms, LinkType.AndLink, trueList, falseList⟩ s
          = NodeList.render trueList s ∧
        (IfNode.calls ev ⟨terms, LinkType.AndLink, trueList, falseList⟩ s).count
          IfCall.renderTrueList = 1 ∧
        (IfNode.calls ev ⟨terms, LinkType.AndLink, trueList, falseList⟩ s).count
          IfCall.renderFalseList = 0) ∧
    ((¬ ∀ t ∈ terms, ev.isTrue t.2 s.c ≠ t.1) →
      IfNode.render ev ⟨terms, LinkType.AndLink, trueList, falseList⟩ s
          = NodeList.render falseList s ∧
        (IfNode.calls ev ⟨terms, LinkType.AndLink, trueList, falseList⟩ s).count
          IfCall.renderFalseList = 1 ∧
        (IfNode.calls ev ⟨terms, LinkType.AndLink, trueList, falseList⟩ s).count
          IfCall.renderTrueList = 0) ∧
    (∀ truth negate : Bool,
      ((!truth && !negate) || (truth && negate)) = decide (truth = negate)) ∧
    (∀ x y : FilterExpression,
      terms = [(false, x), (false, y)] → ev.isTrue x s.c = true → ev.isTrue y s.c = false →
      IfNode.render ev ⟨terms, LinkType.AndLink, trueList, falseList⟩ s
        = NodeList.render falseList s) := by
  have hnr := IfNode.andLoop_no_render ev s.c terms 0
  have hret := IfNode.andLoop_renderTrue ev s.c terms 0
  refine ⟨?_, ?_, ?_, ?_⟩
  · intro h
    have hr : (IfNode.andLoop ev s.c terms 0).2 = true := hret.mpr h
    simp [IfNode.render, IfNode.calls, IfNode.run, hr, IfNode.renderTrueList,
      List.count_eq_zero_of_not_mem hnr.1, List.count_eq_zero_of_not_mem hnr.2]
  · intro h
    have hr : (IfNode.andLoop ev s.c terms 0).2 = false := by
      rw [← Bool.not_eq_true]; exact fun hh => h (hret.mp hh)
    simp [IfNode.render, IfNode.calls, IfNode.run, hr, IfNode.renderFalseList,
      List.count_eq_zero_of_not_mem hnr.1, List.count_eq_zero_of_not_mem hnr.2]
  · decide
  · intro x y hxy hx hy
    subst hxy
    simp [IfNode.render, IfNode.run, IfNode.andLoop, hx, hy, IfNode.renderFalseList]

/-! ## Lemmas: hashes and Context -/

theorem QVariantHash.contains_insert_self (h : QVariantHash) (k : String) (v : QVariant) :
    (h.insert k v).contains k = true := by
  simp [QVariantHash.insert, QVariantHash.contains]

theorem QVariantHash.value_insert_self (h : QVariantHash) (k : String) (v : QVariant) :
    (h.insert k v).value k = v := by
  simp [QVariantHash.insert, QVariantHash.value]

theorem QVariantHash.find_filter_ne (h : QVariantHash) (k k2 : String) (hne : k2 ≠ k) :
    (h.filter (fun p => p.1 != k)).find? (fun p => p.1 == k2) = h.find? (fun p => p.1 == k2) := by
  induction h with
  | nil => rfl
  | cons p rest ih =>
    obtain ⟨a, b⟩ := p
    by_cases hp : a = k
    · subst hp
      have h2 : ¬ a = k2 := fun e => hne e.symm
      simp [List.filter_cons, List.find?_cons, h2, ih]
    · by_cases hp2 : a = k2
      · subst hp2; simp [List.filter_cons, hp, List.find?_cons]
      · simp [List.filter_cons, hp, List.find?_cons, hp2, ih]

theorem QVariantHash.value_insert_ne (h : QVariantHash) (k k2 : String) (v : QVariant)
    (hne : k2 ≠ k) : (h.insert k v).value k2 = h.value k2 := by
  have hk : ¬ k = k2 := fun e => hne e.symm
  simp [QVariantHash.insert, QVariantHash.value, List.find?_cons, hk,
    QVariantHash.find_filter_ne h k k2 hne]

theorem QVariantHash.contains_insert_ne (h : QVariantHash) (k k2 : String) (v : QVariant)
    (hne : k2 ≠ k) : (h.insert k v).contains k2 = h.contains k2 := by
  have hk : ¬ k = k2 := fun e => hne e.symm
  have hkb : (k == k2) = false := by simp [hk]
  simp only [QVariantHash.insert, QVariantHash.contains, List.any_cons, hkb, Bool.false_or]
  rw [Bool.eq_iff_iff]
  simp only [List.any_eq_true, List.mem_filter, beq_iff_eq, bne_iff_ne, ne_eq]
  constructor
  · rintro ⟨p, ⟨hp, _⟩, hk2⟩; exact ⟨p, hp, hk2⟩
  · rintro ⟨p, hp, hk2⟩; exact ⟨p, ⟨hp, fun e => hne (hk2 ▸ e)⟩, hk2⟩

theorem Context.pop_insert_push (c : Context) (k : String) (v : QVariant) :
    ((c.push).insert k v).pop = c := rfl

theorem Context.lookup_insert_self (c : Context) (k : String) (v : QVariant) :
    (c.insert k v).lookup k = v := by
  simp [Context.lookup, Context.insert, Context.lookupIn, QVariantHash.contains_insert_self,
    QVariantHash.value_insert_self]

theorem Context.lookup_insert_ne (c : Context) (k k2 : String) (v : QVariant) (hne : k2 ≠ k) :
    (c.insert k v).lookup k2 = c.lookup k2 := by
  simp [Context.lookup, Context.insert, Context.lookupIn,
    QVariantHash.contains_insert_ne _ k k2 v hne, QVariantHash.value_insert_ne _ k k2 v hne]

theorem Context.lookup_push (c : Context) (k : String) : c.push.lookup k = c.lookup k := by
  simp [Context.lookup, Context.push, Context.lookupIn, QVariantHash.contains]

/-! ## Lemmas: the calls of a run -/

theorem ForCall.loopEntries_append (a b : List ForCall) :
    ForCall.loopEntries (a ++ b) = ForCall.loopEntries a ++ ForCall.loopEntries b := by
  induction a with
  | nil => rfl
  | cons x rest ih => cases x <;> simp [ForCall.loopEntries, ih]

theorem ForCall.emptyEntries_append (a b : List ForCall) :
    ForCall.emptyEntries (a ++ b) = ForCall.emptyEntries a ++ ForCall.emptyEntries b := by
  induction a with
  | nil => rfl
  | cons x rest ih => cases x <;> simp [ForCall.emptyEntries, ih]

theorem ForCall.counters_append (a b : List ForCall) :
    ForCall.counters (a ++ b) = ForCall.counters a ++ ForCall.counters b := by
  induction a with
  | nil => rfl
  | cons x rest ih => cases x <;> simp [ForCall.counters, ih]

theorem ForRun.ContextStep.refl (r : ForRun) : ForRun.ContextStep r r :=
  ⟨rfl, rfl, rfl, rfl⟩

theorem ForRun.ContextStep.trans {a b c : ForRun} (h1 : ForRun.ContextStep a b)
    (h2 : ForRun.ContextStep b c) : ForRun.ContextStep a c :=
  ⟨h2.1.trans h1.1, h2.2.1.trans h1.2.1, h2.2.2.1.trans h1.2.2.1, h2.2.2.2.trans h1.2.2.2⟩

theorem ForRun.contextStep_push (r : ForRun) : ForRun.ContextStep r r.push := by
  simp [ForRun.ContextStep, ForRun.push, ForCall.loopEntries_append,
    ForCall.emptyEntries_append, ForCall.counters_append, ForCall.loopEntries,
    ForCall.emptyEntries, ForCall.counters]

theorem ForRun.contextStep_pop (r : ForRun) : ForRun.ContextStep r r.pop := by
  simp [ForRun.ContextStep, ForRun.pop, ForCall.loopEntries_append,
    ForCall.emptyEntries_append, ForCall.counters_append, ForCall.loopEntries,
    ForCall.emptyEntries, ForCall.counters]

theorem ForRun.contextStep_insert (r : ForRun) (k : String) (v : QVariant) :
    ForRun.ContextStep r (r.insert k v) := by
  simp [ForRun.ContextStep, ForRun.insert, ForCall.loopEntries_append,
    ForCall.emptyEntries_append, ForCall.counters_append, ForCall.loopEntries,
    ForCall.emptyEntries, ForCall.counters]

theorem ForRun.contextStep_foldl {α : Type} (f : ForRun → α → ForRun)
    (hf : ∀ r x, ForRun.ContextStep r (f r x)) (l : List α) (r : ForRun) :
    ForRun.ContextStep r (l.foldl f r) := by
  induction l generalizing r with
  | nil => exact ForRun.ContextStep.refl r
  | cons x rest ih => exact (hf r x).trans (ih (f r x))

theorem ForNode.contextStep_unpackAttribute (ev : Evaluator) (item : QVariant) (r : ForRun)
    (loopVar : String) : ForRun.ContextStep r (ForNode.unpackAttribute ev item r loopVar) := by
  unfold ForNode.unpackAttribute
  exact (((ForRun.contextStep_push r).trans (ForRun.contextStep_insert _ _ _)).trans
    (ForRun.contextStep_pop _)).trans (ForRun.contextStep_insert _ _ _)

theorem ForNode.contextStep_bind (ev : Evaluator) (n : ForNode) (item : QVariant) (r : ForRun) :
    ForRun.ContextStep r (n.bind ev item r) := by
  unfold ForNode.bind
  simp only []
  split
  · split
    · unfold ForNode.unpackList
      exact (ForRun.contextStep_foldl _ (fun r j => ForRun.contextStep_insert _ _ _) _ _).trans
        (ForRun.contextStep_foldl _ (fun r j => ForRun.contextStep_insert _ _ _) _ _)
    · exact ForRun.contextStep_foldl _ (ForNode.contextStep_unpackAttribute ev item) _ _
  · exact ForRun.contextStep_insert _ _ _

theorem ForNode.contextStep_installParentLoop (r : ForRun) :
    ForRun.ContextStep r (ForNode.installParentLoop r) := by
  unfold ForNode.installParentLoop
  simp only []
  split
  · exact ForRun.contextStep_insert _ _ _
  · exact ForRun.ContextStep.refl r

theorem ForNode.passes_succ (ev : Evaluator) (n : ForNode) (varList : List QVariant)
    (r : ForRun) (k : Nat) :
    ForNode.passes ev n varList r (k + 1)
      = ForNode.iteration ev n varList (ForNode.passes ev n varList r k) k := by
  simp [ForNode.passes, List.range_succ, List.foldl_append]

theorem ForNode.loopEntries_iteration (ev : Evaluator) (n : ForNode) (varList : List QVariant)
    (r : ForRun) (i : Nat) :
    ForCall.loopEntries (ForNode.iteration ev n varList r i).calls
      = ForCall.loopEntries r.calls ++ [ForNode.entry ev n varList r i] := by
  have hb := (ForNode.contextStep_bind ev n
    (varList.getD (n.index varList.length i) QVariant.invalid)
    (r.insertLoopVariables varList.length i)).2.1
  simp only [ForNode.iteration, ForRun.renderLoop, ForCall.loopEntries_append, hb,
    ForNode.entry]
  simp [ForRun.insertLoopVariables, ForCall.loopEntries_append, ForCall.loopEntries]

theorem ForNode.loopEntries_passes (ev : Evaluator) (n : ForNode) (varList : List QVariant)
    (r : ForRun) (k : Nat) :
    ForCall.loopEntries (ForNode.passes ev n varList r k).calls
      = ForCall.loopEntries r.calls
        ++ (List.range k).map
            (fun j => ForNode.entry ev n varList (ForNode.passes ev n varList r j) j) := by
  induction k with
  | zero => simp [ForNode.passes]
  | succ k ih =>
    rw [ForNode.passes_succ, ForNode.loopEntries_iteration, ih, List.range_succ, List.map_append]
    simp

theorem ForNode.counters_iteration (ev : Evaluator) (n : ForNode) (varList : List QVariant)
    (r : ForRun) (i : Nat) :
    ForCall.counters (ForNode.iteration ev n varList r i).calls
      = ForCall.counters r.calls ++ [((varList.length : Int), (i : Int))] := by
  have hb := (ForNode.contextStep_bind ev n
    (varList.getD (n.index varList.length i) QVariant.invalid)
    (r.insertLoopVariables varList.length i)).2.2.2
  simp only [ForNode.iteration, ForRun.renderLoop, ForCall.counters_append, hb]
  simp [ForRun.insertLoopVariables, ForCall.counters_append, ForCall.counters]

theorem ForNode.counters_passes (ev : Evaluator) (n : ForNode) (varList : List QVariant)
    (r : ForRun) (k : Nat) :
    ForCall.counters (ForNode.passes ev n varList r k).calls
      = ForCall.counters r.calls
        ++ (List.range k).map (fun (j : Nat) => ((varList.length : Int), (j : Int))) := by
  induction k with
  | zero => simp [ForNode.passes]
  | succ k ih =>
    rw [ForNode.passes_succ, ForNode.counters_iteration, ih, List.range_succ, List.map_append]
    simp

/-- The start of a run, up to and including `c->push()`. -/
theorem ForNode.contextStep_start (s : RenderState) :
    ForRun.ContextStep ⟨s, []⟩ (ForNode.installParentLoop ⟨s, []⟩).push :=
  (ForNode.contextStep_installParentLoop _).trans (ForRun.contextStep_push _)

/-- The run on a non-empty source: the loop, then the closing `c->pop()`. -/
theorem ForNode.run_of_nonempty (ev : Evaluator) (n : ForNode) (s : RenderState)
    (h : 1 ≤ (ForNode.varList ev n s).length) :
    ForNode.run ev n s
      = (ForNode.passes ev n (ForNode.varList ev n s) (ForNode.installParentLoop ⟨s, []⟩).push
          (ForNode.varList ev n s).length).pop := by
  have h2 : ¬ (ForNode.varList ev n s).length < 1 := by omega
  unfold ForNode.varList at h2
  simp only [ForNode.run, h2, if_false, ForNode.loop, ForNode.passes, ForNode.varList]

/-- The run on an empty source: `c->pop()`, then the empty-body list. -/
theorem ForNode.run_of_empty (ev : Evaluator) (n : ForNode) (s : RenderState)
    (h : (ForNode.varList ev n s).length = 0) :
    ForNode.run ev n s
      = ⟨NodeList.render n.emptyNodeList (ForNode.installParentLoop ⟨s, []⟩).push.pop.s,
          (ForNode.installParentLoop ⟨s, []⟩).push.pop.calls
            ++ [ForCall.renderEmpty (ForNode.installParentLoop ⟨s, []⟩).push.pop.s]⟩ := by
  have h2 : (ForNode.varList ev n s).length < 1 := by omega
  unfold ForNode.varList at h2
  simp only [ForNode.run, h2, if_true]

theorem ForNode.loopEntries_run (ev : Evaluator) (n : ForNode) (s : RenderState)
    (h : 1 ≤ (ForNode.varList ev n s).length) :
    ForCall.loopEntries (ForNode.run ev n s).calls
      = (List.range (ForNode.varList ev n s).length).map
          (fun j => ForNode.entry ev n (ForNode.varList ev n s)
            (ForNode.passes ev n (ForNode.varList ev n s)
              (ForNode.installParentLoop ⟨s, []⟩).push j) j) := by
  rw [ForNode.run_of_nonempty ev n s h, (ForRun.contextStep_pop _).2.1,
    ForNode.loopEntries_passes, (ForNode.contextStep_start s).2.1]
  simp [ForCall.loopEntries]

/-! ## Lemmas: what a pass of the loop leaves visible -/

theorem ForNode.forloopRecord_insertLoopVariables (s : RenderState) (c : Context)
    (len i : Nat) (h : s.c.lookup "forloop" = (ForNode.insertLoopVariables c len i).lookup "forloop") :
    ForNode.ForloopRecordAt s len i := by
  unfold ForNode.ForloopRecordAt
  rw [h]
  simp only [ForNode.insertLoopVariables, Context.lookup_insert_self, QVariant.toHash]
  have e1 : ((len : Int) - (i : Int) - 1) = (len : Int) - 1 - (i : Int) := by omega
  refine ⟨?_, ?_, ?_, ?_, ?_, ?_⟩
  · simp [QVariantHash.value_insert_self, QVariantHash.value_insert_ne]
  · simp [QVariantHash.value_insert_self, QVariantHash.value_insert_ne]
  · simp [QVariantHash.value_insert_self, QVariantHash.value_insert_ne]
  · simp [QVariantHash.value_insert_self, QVariantHash.value_insert_ne, e1]
  · simp only [QVariantHash.value_insert_self, QVariantHash.value_insert_ne _ _ _ _
      (show "first" ≠ "last" by decide)]
    rfl
  · simp only [QVariantHash.value_insert_self]
    rfl

theorem ForRun.lookup_foldl_insert (name : String) (f : Nat → String) (g : Nat → QVariant)
    (js : List Nat) (h : ∀ j ∈ js, f j ≠ name) (r : ForRun) :
    (js.foldl (fun r j => r.insert (f j) (g j)) r).s.c.lookup name = r.s.c.lookup name := by
  induction js generalizing r with
  | nil => rfl
  | cons j rest ih =>
    rw [List.foldl_cons, ih (fun k hk => h k (List.mem_cons_of_mem _ hk))]
    exact Context.lookup_insert_ne _ _ _ _ (fun e => h j (List.mem_cons_self _ _) e.symm)

theorem ForNode.getD_mem_loopVars (l : List String) (j : Nat) (h : j < l.length) :
    l.getD j "" ∈ l := by
  rw [List.getD_eq_getElem l "" h]
  exact List.getElem_mem h

theorem ForNode.context_unpackAttribute (ev : Evaluator) (item : QVariant) (r : ForRun)
    (loopVar : String) :
    (ForNode.unpackAttribute ev item r loopVar).s.c
      = r.s.c.insert loopVar (ev.resolve ⟨"var." ++ loopVar⟩ ((r.s.c.push).insert "var" item)) := by
  rfl

theorem ForNode.lookup_foldl_unpackAttribute (ev : Evaluator) (item : QVariant) (name : String)
    (vs : List String) (h : name ∉ vs) (r : ForRun) :
    (vs.foldl (ForNode.unpackAttribute ev item) r).s.c.lookup name = r.s.c.lookup name := by
  induction vs generalizing r with
  | nil => rfl
  | cons v rest ih =>
    rw [List.foldl_cons, ih (fun hk => h (List.mem_cons_of_mem _ hk)),
      ForNode.context_unpackAttribute]
    exact Context.lookup_insert_ne _ _ _ _ (fun e => h (e ▸ List.mem_cons_self _ _))

/-- Binding the loop variables leaves every other name as it was. -/
theorem ForNode.lookup_bind (ev : Evaluator) (n : ForNode) (item : QVariant) (r : ForRun)
    (name : String) (hvars : n.loopVars ≠ []) (hname : name ∉ n.loopVars) :
    (n.bind ev item r).s.c.lookup name = r.s.c.lookup name := by
  have hmem : ∀ j, j < n.loopVars.length → n.loopVars.getD j "" ≠ name := fun j hj e =>
    hname (e ▸ ForNode.getD_mem_loopVars n.loopVars j hj)
  unfold ForNode.bind
  simp only []
  split
  · split
    · unfold ForNode.unpackList
      simp only []
      rw [ForRun.lookup_foldl_insert name (fun j => n.loopVars.getD j "") (fun _ => QVariant.invalid),
        ForRun.lookup_foldl_insert name (fun j => n.loopVars.getD j "")
          (fun j => item.toList.getD j QVariant.invalid)]
      · intro j hj
        exact hmem j (by have := List.mem_range.mp hj; omega)
      · intro j hj
        exact hmem j (by have := List.mem_range'_1.mp hj; omega)
    · exact ForNode.lookup_foldl_unpackAttribute ev item name n.loopVars hname r
  · have h0 : 0 < n.loopVars.length := List.length_pos.mpr hvars
    exact Context.lookup_insert_ne _ _ _ _ (fun e => hmem 0 h0 e.symm)

/-- The body of pass `i` is entered with the counters of pass `i` visible,
whatever the run was before, when no loop variable is named `forloop`. -/
theorem ForNode.forloopRecord_entry (ev : Evaluator) (n : ForNode) (varList : List QVariant)
    (r : ForRun) (i : Nat) (hvars : n.loopVars ≠ []) (hname : "forloop" ∉ n.loopVars) :
    ForNode.ForloopRecordAt (ForNode.entry ev n varList r i) varList.length i := by
  apply ForNode.forloopRecord_insertLoopVariables _ r.s.c
  unfold ForNode.entry
  rw [ForNode.lookup_bind ev n _ _ "forloop" hvars hname]
  rfl

/-! ## Theorems: the `forloop` counters -/

theorem ForNode.getElem_loopEntries_run (ev : Evaluator) (n : ForNode) (s : RenderState)
    (i : Nat) (hi : i < (ForNode.varList ev n s).length) :
    (ForCall.loopEntries (ForNode.run ev n s).calls)[i]?
      = some (ForNode.entry ev n (ForNode.varList ev n s)
          (ForNode.passes ev n (ForNode.varList ev n s)
            (ForNode.installParentLoop ⟨s, []⟩).push i) i) := by
  rw [ForNode.loopEntries_run ev n s (by omega)]
  simp [hi]

/-- C3, as stated, fails when a loop variable is itself named `forloop`: for
`{% for forloop in l %}` over `l = [ {counter0: 99} ]` the body sees the
element under the name `forloop`, with `counter0 = 99` in the only iteration. -/
theorem ForNode.forloop_record_shadowed :
    1 ≤ (ForNode.varList referenceEvaluator ⟨["forloop"], ⟨"l"⟩, false, [], []⟩
      ⟨[], ⟨[("l", QVariant.list [QVariant.hash [("counter0", QVariant.int 99)]])], []⟩⟩).length ∧
    ¬ ForNode.CountersVisible referenceEvaluator ⟨["forloop"], ⟨"l"⟩, false, [], []⟩
      ⟨[], ⟨[("l", QVariant.list [QVariant.hash [("counter0", QVariant.int 99)]])], []⟩⟩ := by
  refine ⟨by decide, ?_⟩
  intro h
  obtain ⟨entry, he, hr⟩ := h.2 0 (by decide)
  rw [ForNode.getElem_loopEntries_run _ _ _ 0 (by decide)] at he
  cases he
  revert hr
  decide

/-- C3 (amended): for every ForNode with at least one loop variable, none of
them named `forloop`, every source sequence of length `len >= 1` and every
iteration `i < len`, the body is entered with a `forloop` record holding
`counter0 = i`, `counter = i + 1`, `revcounter = len - i`,
`revcounter0 = len - 1 - i`, `first = (i == 0)`, `last = (i == len - 1)`; the
values do not depend on the `reversed` flag. -/
theorem ForNode.forloop_record_visible (ev : Evaluator) (loopVars : List String)
    (fe : FilterExpression) (reversed : Bool) (body emptyBody : NodeList) (s : RenderState)
    (hvars : loopVars ≠ []) (hname : "forloop" ∉ loopVars)
    (hlen : 1 ≤ (ForNode.varList ev ⟨loopVars, fe, reversed, body, emptyBody⟩ s).length) :
    ForNode.CountersVisible ev ⟨loopVars, fe, reversed, body, emptyBody⟩ s ∧
    ForNode.CountersVisible ev ⟨loopVars, fe, !reversed, body, emptyBody⟩ s ∧
    (ForNode.varList ev ⟨loopVars, fe, !reversed, body, emptyBody⟩ s).length
      = (ForNode.varList ev ⟨loopVars, fe, reversed, body, emptyBody⟩ s).length := by
  have key : ∀ n : ForNode, n.loopVars ≠ [] → "forloop" ∉ n.loopVars →
      1 ≤ (ForNode.varList ev n s).length → ForNode.CountersVisible ev n s := by
    intro n hv hn hl
    refine ⟨?_, ?_⟩
    · rw [ForNode.loopEntries_run ev n s hl]; simp
    · intro i hi
      exact ⟨_, ForNode.getElem_loopEntries_run ev n s i hi,
        ForNode.forloopRecord_entry ev n _ _ i hv hn⟩
  exact ⟨key _ hvars hname hlen, key _ hvars hname hlen, rfl⟩

/-- C3 (amended) at `{% for x in l reversed %}` over `l = [7, 8]`. -/
theorem ForNode.forloop_record_visible_witness :
    ["x"] ≠ [] ∧ "forloop" ∉ ["x"] ∧
    ForNode.CountersVisible referenceEvaluator ⟨["x"], ⟨"l"⟩, true, [], []⟩
      ⟨[], ⟨[("l", QVariant.list [QVariant.int 7, QVariant.int 8])], []⟩⟩ :=
  ⟨by decide, by decide,
    (ForNode.forloop_record_visible referenceEvaluator ["x"] ⟨"l"⟩ true [] []
      ⟨[], ⟨[("l", QVariant.list [QVariant.int 7, QVariant.int 8])], []⟩⟩
      (by decide) (by decide) (by decide)).1⟩

/-! ## Theorems: visiting order -/

theorem ForNode.map_getD_range (L : List QVariant) :
    (List.range L.length).map (fun i => L.getD i QVariant.invalid) = L := by
  apply List.ext_getElem
  · simp
  · intro i h1 h2
    simp [List.getD_eq_getElem, h2]

theorem ForNode.getD_reverse (L : List QVariant) (i : Nat) (hi : i < L.length) :
    L.reverse.getD i QVariant.invalid = L.getD (L.length - i - 1) QVariant.invalid := by
  have h1 : i < L.reverse.length := by simpa using hi
  have h2 : L.length - i - 1 < L.length := by omega
  rw [List.getD_eq_getElem _ _ h1, List.getD_eq_getElem _ _ h2, List.getElem_reverse]
  congr 1
  omega

theorem ForNode.some_getD (L : List QVariant) (i : Nat) (hi : i < L.length) :
    some (L.getD i QVariant.invalid) = L[i]? := by
  rw [List.getD_eq_getElem _ _ hi, List.getElem?_eq_getElem hi]

theorem ForNode.map_getD_range_reversed (L : List QVariant) :
    (List.range L.length).map (fun i => L.getD (L.length - i - 1) QVariant.invalid)
      = L.reverse := by
  conv_rhs => rw [← ForNode.map_getD_range L.reverse]
  rw [List.length_reverse]
  apply List.map_congr_left
  intro i hi
  exact (ForNode.getD_reverse L i (List.mem_range.mp hi)).symm

/-- With one loop variable the binding is the single `c->insert`. -/
theorem ForNode.lookup_entry_single (ev : Evaluator) (n : ForNode) (v : String)
    (hv : n.loopVars = [v]) (varList : List QVariant) (r : ForRun) (i : Nat) :
    (ForNode.entry ev n varList r i).c.lookup v
      = varList.getD (n.index varList.length i) QVariant.invalid := by
  simp [ForNode.entry, ForNode.bind, hv, ForRun.insert, Context.lookup_insert_self]

theorem ForNode.loopEntries_run_of_empty (ev : Evaluator) (n : ForNode) (s : RenderState)
    (h : (ForNode.varList ev n s).length = 0) :
    ForCall.loopEntries (ForNode.run ev n s).calls = [] := by
  rw [ForNode.run_of_empty ev n s h]
  simp only [ForCall.loopEntries_append, (ForRun.contextStep_pop _).2.1,
    (ForNode.contextStep_start s).2.1]
  rfl

theorem ForNode.counters_run_of_empty (ev : Evaluator) (n : ForNode) (s : RenderState)
    (h : (ForNode.varList ev n s).length = 0) :
    ForCall.counters (ForNode.run ev n s).calls = [] := by
  rw [ForNode.run_of_empty ev n s h]
  simp only [ForCall.counters_append, (ForRun.contextStep_pop _).2.2.2,
    (ForNode.contextStep_start s).2.2.2]
  rfl

theorem ForNode.counters_run (ev : Evaluator) (n : ForNode) (s : RenderState) :
    ForCall.counters (ForNode.run ev n s).calls
      = (List.range (ForNode.varList ev n s).length).map
          (fun (i : Nat) => (((ForNode.varList ev n s).length : Int), (i : Int))) := by
  by_cases h : (ForNode.varList ev n s).length = 0
  · rw [ForNode.counters_run_of_empty ev n s h, h]; rfl
  · rw [ForNode.run_of_nonempty ev n s (by omega), (ForRun.contextStep_pop _).2.2.2,
      ForNode.counters_passes, (ForNode.contextStep_start s).2.2.2]
    simp [ForCall.counters]

/-- A pass of the reversed loop over `L` is the same pass of the forward loop
over the reverse of `L`. -/
theorem ForNode.iteration_reversed (ev ev2 : Evaluator) (hres : ev2.resolve = ev.resolve)
    (n : ForNode) (L : List QVariant) (r : ForRun) (i : Nat) (hi : i < L.length) :
    ForNode.iteration ev { n with isReversed := true } L r i
      = ForNode.iteration ev2 { n with isReversed := false } L.reverse r i := by
  have hb : ∀ (item : QVariant) (r : ForRun),
      ForNode.bind ev { n with isReversed := true } item r
        = ForNode.bind ev2 { n with isReversed := false } item r := by
    intro item r
    have hu : ForNode.unpackAttribute ev2 = ForNode.unpackAttribute ev := by
      funext item r loopVar
      simp only [ForNode.unpackAttribute, hres]
    simp only [ForNode.bind, ForNode.unpackList, hu]
  simp only [ForNode.iteration, ForNode.index, List.length_reverse, if_true,
    Bool.false_eq_true, if_false, ForNode.getD_reverse L i hi, hb]
  rfl

theorem ForNode.passes_reversed (ev ev2 : Evaluator) (hres : ev2.resolve = ev.resolve)
    (n : ForNode) (L : List QVariant) (r : ForRun) (k : Nat) (hk : k ≤ L.length) :
    ForNode.passes ev { n with isReversed := true } L r k
      = ForNode.passes ev2 { n with isReversed := false } L.reverse r k := by
  induction k with
  | zero => rfl
  | succ k ih =>
    rw [ForNode.passes_succ, ForNode.passes_succ, ih (by omega),
      ForNode.iteration_reversed ev ev2 hres n L _ k (by omega)]

/-- C4: for every ForNode with the single loop variable `v`, over every source
sequence `L`: the values bound to `v` at the successive entries of the body
are `L` when not reversed and the reverse of `L` when reversed; the counters
passed to `insertLoopVariables` run `0, 1, ..., len - 1` in both cases, and
(for `v` other than `forloop`) the `i`-th entry sees `counter0 = i` together
with the `i`-th such value; and the reversed run over `L` is, call by call
and state by state, the forward run over the reverse of `L`. -/
theorem ForNode.single_variable_visits (ev : Evaluator) (v : String) (fe : FilterExpression)
    (reversed : Bool) (body emptyBody : NodeList) (s : RenderState) :
    ((ForCall.loopEntries (ForNode.run ev ⟨[v], fe, reversed, body, emptyBody⟩ s).calls).map
        (fun entry => entry.c.lookup v)
      = if reversed then (ForNode.varList ev ⟨[v], fe, reversed, body, emptyBody⟩ s).reverse
        else ForNode.varList ev ⟨[v], fe, reversed, body, emptyBody⟩ s) ∧
    (ForCall.counters (ForNode.run ev ⟨[v], fe, reversed, body, emptyBody⟩ s).calls
      = (List.range (ForNode.varList ev ⟨[v], fe, reversed, body, emptyBody⟩ s).length).map
          (fun (i : Nat) =>
            (((ForNode.varList ev ⟨[v], fe, reversed, body, emptyBody⟩ s).length : Int),
              (i : Int)))) ∧
    (v ≠ "forloop" →
      ∀ i, i < (ForNode.varList ev ⟨[v], fe, reversed, body, emptyBody⟩ s).length →
        ∃ entry,
          (ForCall.loopEntries
            (ForNode.run ev ⟨[v], fe, reversed, body, emptyBody⟩ s).calls)[i]? = some entry ∧
          (entry.c.lookup "forloop").toHash.value "counter0" = QVariant.int (i : Int) ∧
          some (entry.c.lookup v)
            = (if reversed then
                (ForNode.varList ev ⟨[v], fe, reversed, body, emptyBody⟩ s).reverse
              else ForNode.varList ev ⟨[v], fe, reversed, body, emptyBody⟩ s)[i]?) ∧
    (ForNode.run ev ⟨[v], fe, true, body, emptyBody⟩ s
      = ForNode.run ⟨ev.resolve, ev.isTrue, fun f c => (ev.toList f c).reverse⟩
          ⟨[v], fe, false, body, emptyBody⟩ s) := by
  refine ⟨?_, ForNode.counters_run ev _ s, ?_, ?_⟩
  · by_cases h : (ForNode.varList ev ⟨[v], fe, reversed, body, emptyBody⟩ s).length = 0
    · rw [ForNode.loopEntries_run_of_empty ev _ s h]
      have h0 := List.length_eq_zero.mp h
      simp [h0]
    · rw [ForNode.loopEntries_run ev _ s (by omega), List.map_map]
      have hf : ((fun entry : RenderState => entry.c.lookup v) ∘
          fun j => ForNode.entry ev ⟨[v], fe, reversed, body, emptyBody⟩
            (ForNode.varList ev ⟨[v], fe, reversed, body, emptyBody⟩ s)
            (ForNode.passes ev ⟨[v], fe, reversed, body, emptyBody⟩
              (ForNode.varList ev ⟨[v], fe, reversed, body, emptyBody⟩ s)
              (ForNode.installParentLoop ⟨s, []⟩).push j) j)
          = fun j => (ForNode.varList ev ⟨[v], fe, reversed, body, emptyBody⟩ s).getD
              (ForNode.index ⟨[v], fe, reversed, body, emptyBody⟩
                (ForNode.varList ev ⟨[v], fe, reversed, body, emptyBody⟩ s).length j)
              QVariant.invalid := by
        funext j
        exact ForNode.lookup_entry_single ev _ v rfl _ _ j
      rw [hf]
      cases reversed
      · simpa [ForNode.index] using ForNode.map_getD_range _
      · simpa [ForNode.index] using ForNode.map_getD_range_reversed _
  · intro hv i hi
    refine ⟨_, ForNode.getElem_loopEntries_run ev _ s i hi, ?_, ?_⟩
    · exact (ForNode.forloopRecord_entry ev ⟨[v], fe, reversed, body, emptyBody⟩ _ _ i
        (by simp) (by simpa using fun e => hv e.symm)).1
    · rw [ForNode.lookup_entry_single ev _ v rfl]
      cases reversed
      · exact ForNode.some_getD _ i hi
      · simp only [ForNode.index, if_true, ← ForNode.getD_reverse _ i hi]
        exact ForNode.some_getD _ i (by simpa using hi)
  · have hvl : ForNode.varList ⟨ev.resolve, ev.isTrue, fun f c => (ev.toList f c).reverse⟩
        ⟨[v], fe, false, body, emptyBody⟩ s
        = (ForNode.varList ev ⟨[v], fe, true, body, emptyBody⟩ s).reverse := rfl
    by_cases h : (ForNode.varList ev ⟨[v], fe, true, body, emptyBody⟩ s).length = 0
    · rw [ForNode.run_of_empty ev _ s h, ForNode.run_of_empty _ _ s (by rw [hvl]; simpa using h)]
    · rw [ForNode.run_of_nonempty ev _ s (by omega),
        ForNode.run_of_nonempty _ _ s (by rw [hvl]; simp; omega), hvl, List.length_reverse]
      exact congrArg ForRun.pop (ForNode.passes_reversed ev _ rfl
        ⟨[v], fe, true, body, emptyBody⟩ _ _ _ (le_refl _))

/-! ## Theorems: body or empty-body -/

theorem ForNode.range_split (m a : Nat) (h : a ≤ m) :
    List.range m = List.range a ++ List.range' a (m - a) := by
  have h2 := List.range'_append_1 0 a (m - a)
  rw [Nat.zero_add] at h2
  rw [List.range_eq_range', List.range_eq_range', h2]
  congr 1
  omega

theorem ForRun.foldl_insert_eq (f : Nat → String) (g : Nat → QVariant) (js : List Nat)
    (r : ForRun) :
    js.foldl (fun r j => r.insert (f j) (g j)) r
      = ⟨{ r.s with c := js.foldl (fun c j => c.insert (f j) (g j)) r.s.c },
          r.calls ++ js.map (fun j => ForCall.insert (f j) (g j))⟩ := by
  induction js generalizing r with
  | nil => simp
  | cons j rest ih => rw [List.foldl_cons, ih]; simp [ForRun.insert]

theorem ForRun.foldl_insert_congr (f : Nat → String) (g g2 : Nat → QVariant) (js : List Nat)
    (h : ∀ j ∈ js, g j = g2 j) (r : ForRun) :
    js.foldl (fun r j => r.insert (f j) (g j)) r
      = js.foldl (fun r j => r.insert (f j) (g2 j)) r := by
  induction js generalizing r with
  | nil => rfl
  | cons j rest ih =>
    rw [List.foldl_cons, List.foldl_cons, h j (List.mem_cons_self _ _),
      ih (fun k hk => h k (List.mem_cons_of_mem _ hk))]

/-- The two `j` loops of the list branch amount to one binding per loop
variable: position `j` of the element, or the invalid value beyond its end. -/
theorem ForNode.unpackList_eq (n : ForNode) (e : List QVariant) (r : ForRun) :
    n.unpackList e r
      = (List.range n.loopVars.length).foldl
          (fun r j => r.insert (n.loopVars.getD j "") (e.getD j QVariant.invalid)) r := by
  have hsplit : List.range n.loopVars.length
      = List.range (min n.loopVars.length e.length)
        ++ List.range' (min n.loopVars.length e.length)
            (n.loopVars.length - min n.loopVars.length e.length) := by
    exact ForNode.range_split _ _ (Nat.min_le_left _ _)
  unfold ForNode.unpackList
  simp only []
  rw [hsplit, List.foldl_append]
  apply ForRun.foldl_insert_congr
  intro j hj
  have hj2 := (List.mem_range'_1.mp hj).1
  rw [List.getD_eq_default]
  rcases Nat.le_total n.loopVars.length e.length with h | h
  · rw [Nat.min_eq_left h] at hj hj2
    have := (List.mem_range'_1.mp hj).2
    omega
  · rw [Nat.min_eq_right h] at hj2
    exact hj2

theorem Context.top_contains_insert_mono (c : Context) (k k2 : String) (v : QVariant)
    (h : c.top.contains k2 = true) : (c.insert k v).top.contains k2 = true := by
  by_cases e : k2 = k
  · subst e; exact QVariantHash.contains_insert_self _ _ _
  · simpa [Context.insert, QVariantHash.contains_insert_ne _ k k2 v e] using h

theorem Context.top_contains_foldl_insert (f : Nat → String) (g : Nat → QVariant)
    (js : List Nat) (c : Context) (k : String) (h : c.top.contains k = true) :
    (js.foldl (fun c j => c.insert (f j) (g j)) c).top.contains k = true := by
  induction js generalizing c with
  | nil => exact h
  | cons j rest ih =>
    rw [List.foldl_cons]
    exact ih _ (Context.top_contains_insert_mono c (f j) k (g j) h)

theorem Context.lookup_foldl_insert_ne (name : String) (f : Nat → String) (g : Nat → QVariant)
    (js : List Nat) (h : ∀ j ∈ js, f j ≠ name) (c : Context) :
    (js.foldl (fun c j => c.insert (f j) (g j)) c).lookup name = c.lookup name := by
  induction js generalizing c with
  | nil => rfl
  | cons j rest ih =>
    rw [List.foldl_cons, ih (fun k hk => h k (List.mem_cons_of_mem _ hk))]
    exact Context.lookup_insert_ne _ _ _ _ (fun e => h j (List.mem_cons_self _ _) e.symm)

/-- After one binding per position `0 .. m - 1`, position `j` holds its value
unless a later position has the same name. -/
theorem Context.lookup_foldl_insert_range (f : Nat → String) (g : Nat → QVariant) (m j : Nat)
    (hj : j < m) (hlast : ∀ k, j < k → k < m → f k ≠ f j) (c : Context) :
    ((List.range m).foldl (fun c i => c.insert (f i) (g i)) c).lookup (f j) = g j ∧
    ((List.range m).foldl (fun c i => c.insert (f i) (g i)) c).top.contains (f j) = true := by
  have hsplit : List.range m = (List.range j ++ [j]) ++ List.range' (j + 1) (m - (j + 1)) := by
    rw [← List.range_succ]
    exact ForNode.range_split m (j + 1) hj
  rw [hsplit, List.foldl_append, List.foldl_append]
  constructor
  · rw [Context.lookup_foldl_insert_ne]
    · simp [Context.lookup_insert_self]
    · intro k hk
      have := List.mem_range'_1.mp hk
      exact hlast k (by omega) (by omega)
  · apply Context.top_contains_foldl_insert
    simp [Context.insert, QVariantHash.contains_insert_self]

theorem ForNode.bind_list (ev : Evaluator) (n : ForNode) (hn : 2 ≤ n.loopVars.length)
    (e : List QVariant) (r : ForRun) :
    n.bind ev (QVariant.list e) r
      = ⟨⟨r.s.stream, (List.range n.loopVars.length).foldl
            (fun c j => c.insert (n.loopVars.getD j "") (e.getD j QVariant.invalid)) r.s.c⟩,
          r.calls ++ (List.range n.loopVars.length).map
            (fun j => ForCall.insert (n.loopVars.getD j "") (e.getD j QVariant.invalid))⟩ := by
  have h1 : n.loopVars.length > 1 := by omega
  simp only [ForNode.bind, h1, decide_True, if_true, QVariant.isList, QVariant.toList,
    ForNode.unpackList_eq, ForRun.foldl_insert_eq]

theorem ForNode.getD_take_loopVars (e : List QVariant) (m j : Nat) (hj : j < m) :
    (e.take m).getD j QVariant.invalid = e.getD j QVariant.invalid := by
  rw [List.getD_eq_getElem?_getD, List.getD_eq_getElem?_getD, List.getElem?_take_of_lt hj]

/-- C6: for every ForNode with `n >= 2` loop variables and every iteration
whose source element is a list `e`: the binding makes exactly one
`c->insert` per loop variable, in order, variable `j` receiving `e[j]` for
`j < len(e)` and the invalid value for `len(e) <= j < n`, so that nothing but
`e` decides the bindings; at the entry of the body every loop variable (that
no later loop variable repeats) is bound in the top scope to that value; and
the elements of `e` from position `n` on do not matter. -/
theorem ForNode.unpack_list_element (ev : Evaluator) (n : ForNode) (s : RenderState)
    (hn : 2 ≤ n.loopVars.length) (i : Nat) (hi : i < (ForNode.varList ev n s).length)
    (e : List QVariant)
    (he : (ForNode.varList ev n s)[n.index (ForNode.varList ev n s).length i]?
      = some (QVariant.list e)) :
    (∃ entry, (ForCall.loopEntries (ForNode.run ev n s).calls)[i]? = some entry ∧
      ∀ j name, n.loopVars[j]? = some name →
        (∀ k, j < k → n.loopVars[k]? ≠ some name) →
        entry.c.top.contains name = true ∧
        (j < e.length → some (entry.c.lookup name) = e[j]?) ∧
        (e.length ≤ j → entry.c.lookup name = QVariant.invalid)) ∧
    (∀ r : ForRun, (n.bind ev (QVariant.list e) r).calls
      = r.calls ++ (List.range n.loopVars.length).map
          (fun j => ForCall.insert (n.loopVars.getD j "")
            (if j < e.length then e.getD j QVariant.invalid else QVariant.invalid))) ∧
    (∀ r : ForRun, n.bind ev (QVariant.list e) r
      = n.bind ev (QVariant.list (e.take n.loopVars.length)) r) := by
  refine ⟨⟨_, ForNode.getElem_loopEntries_run ev n s i hi, ?_⟩, ?_, ?_⟩
  · intro j name hj hlast
    obtain ⟨hjlt, hjname⟩ := List.getElem?_eq_some_iff.mp hj
    have hitem : (ForNode.varList ev n s).getD (n.index (ForNode.varList ev n s).length i)
        QVariant.invalid = QVariant.list e := by
      rw [List.getD_eq_getElem?_getD, he]; rfl
    have hname : n.loopVars.getD j "" = name := by
      rw [List.getD_eq_getElem _ _ hjlt]; exact hjname
    have hl : ∀ k, j < k → k < n.loopVars.length →
        n.loopVars.getD k "" ≠ n.loopVars.getD j "" := by
      intro k hjk hk hk2
      apply hlast k hjk
      rw [List.getElem?_eq_getElem hk, ← List.getD_eq_getElem _ "" hk, hk2, hname]
    have key := Context.lookup_foldl_insert_range (fun j => n.loopVars.getD j "")
      (fun j => e.getD j QVariant.invalid) n.loopVars.length j hjlt hl
      (ForNode.insertLoopVariables (ForNode.passes ev n (ForNode.varList ev n s)
        (ForNode.installParentLoop ⟨s, []⟩).push i).s.c (ForNode.varList ev n s).length i)
    simp only [hname] at key
    simp only [ForNode.entry, hitem, ForNode.bind_list ev n hn, ForRun.insertLoopVariables]
    refine ⟨key.2, fun hlt => ?_, fun hge => ?_⟩
    · rw [key.1]; exact ForNode.some_getD e j hlt
    · rw [key.1]; exact List.getD_eq_default _ _ hge
  · intro r
    rw [ForNode.bind_list ev n hn]
    simp only [List.append_cancel_left_eq]
    apply List.map_congr_left
    intro j _
    by_cases hlt : j < e.length
    · simp only [hlt, if_true]
    · simp only [hlt, if_false]
      rw [List.getD_eq_default e QVariant.invalid (by omega)]
  · intro r
    rw [ForNode.bind_list ev n hn, ForNode.bind_list ev n hn]
    have hg : ∀ j ∈ List.range n.loopVars.length,
        (e.take n.loopVars.length).getD j QVariant.invalid = e.getD j QVariant.invalid :=
      fun j hj => ForNode.getD_take_loopVars e _ j (List.mem_range.mp hj)
    have h1 := ForRun.foldl_insert_congr (fun j => n.loopVars.getD j "") _ _ _ hg r
    rw [ForRun.foldl_insert_eq, ForRun.foldl_insert_eq] at h1
    exact h1.symm

/-- C6 at `{% for a, b, c in u %}` over `u = [[1], [3, 4, 5]]`: in the first
iteration `a = 1` and `b`, `c` are bound to the invalid value; and at
`{% for a, b in w %}` over `w = [[1, 2], [3, 4]]` the body sees `a = 1, b = 2`
and then `a = 3, b = 4`. -/
theorem ForNode.unpack_list_element_witness :
    ((ForCall.loopEntries (ForNode.run referenceEvaluator
        ⟨["a", "b"], ⟨"w"⟩, false, [], []⟩
        ⟨[], ⟨[("w", QVariant.list [QVariant.list [QVariant.int 1, QVariant.int 2],
          QVariant.list [QVariant.int 3, QVariant.int 4]])], []⟩⟩).calls).map
        (fun entry => (entry.c.lookup "a", entry.c.lookup "b"))
      = [(QVariant.int 1, QVariant.int 2), (QVariant.int 3, QVariant.int 4)]) ∧
    (∃ entry, (ForCall.loopEntries (ForNode.run referenceEvaluator
        ⟨["a", "b", "c"], ⟨"u"⟩, false, [], []⟩
        ⟨[], ⟨[("u", QVariant.list [QVariant.list [QVariant.int 1],
          QVariant.list [QVariant.int 3, QVariant.int 4, QVariant.int 5]])], []⟩⟩).calls)[0]?
        = some entry ∧
      entry.c.lookup "a" = QVariant.int 1 ∧
      entry.c.top.contains "b" = true ∧ entry.c.lookup "b" = QVariant.invalid ∧
      entry.c.top.contains "c" = true ∧ entry.c.lookup "c" = QVariant.invalid) := by
  obtain ⟨⟨entry, h0, h⟩, _⟩ := ForNode.unpack_list_element referenceEvaluator
    ⟨["a", "b", "c"], ⟨"u"⟩, false, [], []⟩
    ⟨[], ⟨[("u", QVariant.list [QVariant.list [QVariant.int 1],
      QVariant.list [QVariant.int 3, QVariant.int 4, QVariant.int 5]])], []⟩⟩
    (by decide) 0 (by decide) [QVariant.int 1] (by decide)
  refine ⟨by decide, entry, h0, ?_, ?_, ?_, ?_, ?_⟩
  · have ha := (h 0 "a" (by decide) (by intro k hk; rcases k with _ | _ | _ | k <;> simp at hk ⊢)).2.1
      (by decide)
    simpa using ha
  · exact (h 1 "b" (by decide) (by intro k hk; rcases k with _ | _ | _ | k <;> simp at hk ⊢)).1
  · exact (h 1 "b" (by decide) (by intro k hk; rcases k with _ | _ | _ | k <;> simp at hk ⊢)).2.2
      (by decide)
  · exact (h 2 "c" (by decide) (by intro k hk; rcases k with _ | _ | _ | k <;> simp at hk ⊢)).1
  · exact (h 2 "c" (by decide) (by intro k hk; rcases k with _ | _ | _ | k <;> simp at hk ⊢)).2.2
      (by decide)

/-! ## Theorems: nested loops -/

theorem ForNode.parentloop_insertLoopVariables (c : Context) (listSize i : Int) :
    ((ForNode.insertLoopVariables c listSize i).lookup "forloop").toHash.value "parentloop"
      = (c.lookup "forloop").toHash.value "parentloop" := by
  simp [ForNode.insertLoopVariables, Context.lookup_insert_self, QVariant.toHash,
    QVariantHash.value_insert_ne]

theorem ForNode.parentloop_entry (ev : Evaluator) (n : ForNode) (varList : List QVariant)
    (r : ForRun) (i : Nat) (hvars : n.loopVars ≠ []) (hname : "forloop" ∉ n.loopVars) :
    ((ForNode.entry ev n varList r i).c.lookup "forloop").toHash.value "parentloop"
      = (r.s.c.lookup "forloop").toHash.value "parentloop" := by
  unfold ForNode.entry
  rw [ForNode.lookup_bind ev n _ _ "forloop" hvars hname]
  exact ForNode.parentloop_insertLoopVariables _ _ _

theorem ForNode.state_iteration (ev : Evaluator) (n : ForNode) (varList : List QVariant)
    (r : ForRun) (i : Nat) :
    (ForNode.iteration ev n varList r i).s = n.renderLoop (ForNode.entry ev n varList r i) :=
  rfl

theorem ForNode.parentloop_passes (ev : Evaluator) (n : ForNode) (varList : List QVariant)
    (r : ForRun) (k : Nat) (hvars : n.loopVars ≠ []) (hname : "forloop" ∉ n.loopVars)
    (hbody : ∀ st, (n.renderLoop st).c.lookup "forloop" = st.c.lookup "forloop") :
    ((ForNode.passes ev n varList r k).s.c.lookup "forloop").toHash.value "parentloop"
      = (r.s.c.lookup "forloop").toHash.value "parentloop" := by
  induction k with
  | zero => rfl
  | succ k ih =>
    rw [ForNode.passes_succ, ForNode.state_iteration, hbody,
      ForNode.parentloop_entry ev n varList _ k hvars hname, ih]

/-- The opening of a nested render leaves the visible record, with itself
under `parentloop`, visible above the new scope. -/
theorem ForNode.parentloop_start (s : RenderState) (hvalid : (s.c.lookup "forloop").isValid = true) :
    (((ForNode.installParentLoop ⟨s, []⟩).push.s.c.lookup "forloop").toHash.value "parentloop")
      = QVariant.hash (s.c.lookup "forloop").toHash := by
  simp [ForNode.installParentLoop, hvalid, ForRun.push, ForRun.insert, Context.lookup_push,
    Context.lookup_insert_self, QVariant.toHash, QVariantHash.value_insert_self]

/-- A nested render whose body leaves `forloop` alone shows every entry of its
body the record of the enclosing loop. -/
theorem ForNode.parentloopVisible_of_body (ev : Evaluator) (n : ForNode) (s : RenderState)
    (hvalid : (s.c.lookup "forloop").isValid = true)
    (hvars : n.loopVars ≠ []) (hname : "forloop" ∉ n.loopVars)
    (hbody : ∀ st, (n.renderLoop st).c.lookup "forloop" = st.c.lookup "forloop") :
    ForNode.ParentloopVisible ev n s := by
  intro i hi
  refine ⟨_, ForNode.getElem_loopEntries_run ev n s i hi, ?_⟩
  rw [ForNode.parentloop_entry ev n _ _ i hvars hname,
    ForNode.parentloop_passes ev n _ _ i hvars hname hbody, ForNode.parentloop_start s hvalid]

theorem ForNode.renderLoop_split (ev : Evaluator) (outer inner : ForNode) (pre post : NodeList)
    (h : outer.loopNodeList = pre ++ inner.toNode ev :: post) (st : RenderState) :
    outer.renderLoop st
      = NodeList.render post (ForNode.render ev inner (NodeList.render pre st)) := by
  simp [ForNode.renderLoop, h, List.foldl_append, NodeList.render, ForNode.toNode]

theorem ForNode.isValid_of_forloopRecordAt (st : RenderState) (len k : Nat)
    (h : ForNode.ForloopRecordAt st len k) : (st.c.lookup "forloop").isValid = true := by
  have h1 := h.1
  cases hl : st.c.lookup "forloop" <;> simp [hl, QVariant.toHash, QVariantHash.value] at h1
  rfl

/-- C7, as stated, fails in two ways.  (1) With a third loop nested in the
inner body (`l = [1, 2]`, `m = [x, y]`): in outer iteration 2 the second
entry of the middle body sees under `parentloop` the middle loop's own first
record (`counter0 = 0`), not the outer record (`counter0 = 1`).  (2) With an
inner loop variable named `forloop` the inner body sees the element, which
has no `parentloop`. -/
theorem ForNode.parentloop_overwritten :
    (∃ st, (ForCall.loopEntries (ForNode.run referenceEvaluator
        ⟨["a"], ⟨"l"⟩, false,
          [ForNode.toNode referenceEvaluator ⟨["b"], ⟨"m"⟩, false,
            [ForNode.toNode referenceEvaluator ⟨["z"], ⟨"m"⟩, false, [], []⟩], []⟩], []⟩
        ⟨[], ⟨[("l", QVariant.list [QVariant.int 1, QVariant.int 2]),
          ("m", QVariant.list [QVariant.string "x", QVariant.string "y"])], []⟩⟩).calls)[1]?
        = some st ∧
      (st.c.lookup "forloop").toHash.value "counter0" = QVariant.int 1 ∧
      ¬ ForNode.ParentloopVisible referenceEvaluator
        ⟨["b"], ⟨"m"⟩, false,
          [ForNode.toNode referenceEvaluator ⟨["z"], ⟨"m"⟩, false, [], []⟩], []⟩ st) ∧
    (∃ st, (ForCall.loopEntries (ForNode.run referenceEvaluator
        ⟨["a"], ⟨"l"⟩, false,
          [ForNode.toNode referenceEvaluator ⟨["forloop"], ⟨"m"⟩, false, [], []⟩], []⟩
        ⟨[], ⟨[("l", QVariant.list [QVariant.int 1, QVariant.int 2]),
          ("m", QVariant.list [QVariant.string "x", QVariant.string "y"])], []⟩⟩).calls)[0]?
        = some st ∧
      ¬ ForNode.ParentloopVisible referenceEvaluator
        ⟨["forloop"], ⟨"m"⟩, false, [], []⟩ st) := by
  constructor
  · refine ⟨_, ForNode.getElem_loopEntries_run _ _ _ 1 (by decide), by decide, ?_⟩
    intro h
    obtain ⟨entry, he, hp⟩ := h 1 (by decide)
    rw [ForNode.getElem_loopEntries_run _ _ _ 1 (by decide)] at he
    cases he
    revert hp
    decide
  · refine ⟨_, ForNode.getElem_loopEntries_run _ _ _ 0 (by decide), ?_⟩
    intro h
    obtain ⟨entry, he, hp⟩ := h 0 (by decide)
    rw [ForNode.getElem_loopEntries_run _ _ _ 0 (by decide)] at he
    cases he
    revert hp
    decide

/-- C7 (amended): for a ForNode `inner` in the body of a ForNode `outer`, both
with loop variables none of which is named `forloop`, when the nodes of the
outer body before `inner` and the body of `inner` leave the `forloop` binding
of the Context as they found it: in every outer iteration `k` the inner
render is entered in a state whose `forloop` record has `counter0 = k`, and
every entry of the inner body sees under `forloop.parentloop` exactly that
record, so `parentloop.counter0 = k`. -/
theorem ForNode.parentloop_snapshot (ev : Evaluator) (outer inner : ForNode)
    (pre post : NodeList) (s : RenderState)
    (hnest : outer.loopNodeList = pre ++ inner.toNode ev :: post)
    (hpre : ∀ st, (NodeList.render pre st).c.lookup "forloop" = st.c.lookup "forloop")
    (hovars : outer.loopVars ≠ []) (honame : "forloop" ∉ outer.loopVars)
    (hivars : inner.loopVars ≠ []) (hiname : "forloop" ∉ inner.loopVars)
    (hbody : ∀ st, (inner.renderLoop st).c.lookup "forloop" = st.c.lookup "forloop")
    (k : Nat) (hk : k < (ForNode.varList ev outer s).length) :
    ∃ outerEntry,
      (ForCall.loopEntries (ForNode.run ev outer s).calls)[k]? = some outerEntry ∧
      outer.renderLoop outerEntry
        = NodeList.render post (ForNode.render ev inner (NodeList.render pre outerEntry)) ∧
      ForNode.ForloopRecordAt (NodeList.render pre outerEntry)
        (ForNode.varList ev outer s).length k ∧
      ForNode.ParentloopVisible ev inner (NodeList.render pre outerEntry) ∧
      ∀ i, i < (ForNode.varList ev inner (NodeList.render pre outerEntry)).length →
        ∃ entry,
          (ForCall.loopEntries
            (ForNode.run ev inner (NodeList.render pre outerEntry)).calls)[i]? = some entry ∧
          ((entry.c.lookup "forloop").toHash.value "parentloop").toHash.value "counter0"
            = QVariant.int (k : Int) := by
  have hrec : ForNode.ForloopRecordAt (NodeList.render pre
      (ForNode.entry ev outer (ForNode.varList ev outer s)
        (ForNode.passes ev outer (ForNode.varList ev outer s)
          (ForNode.installParentLoop ⟨s, []⟩).push k) k))
      (ForNode.varList ev outer s).length k := by
    have h0 := ForNode.forloopRecord_entry ev outer (ForNode.varList ev outer s)
      (ForNode.passes ev outer (ForNode.varList ev outer s)
        (ForNode.installParentLoop ⟨s, []⟩).push k) k hovars honame
    unfold ForNode.ForloopRecordAt at h0 ⊢
    rw [hpre]
    exact h0
  have hvis := ForNode.parentloopVisible_of_body ev inner _
    (ForNode.isValid_of_forloopRecordAt _ _ _ hrec) hivars hiname hbody
  refine ⟨_, ForNode.getElem_loopEntries_run ev outer s k hk,
    ForNode.renderLoop_split ev outer inner pre post hnest _, hrec, hvis, ?_⟩
  intro i hi
  obtain ⟨entry, he, hp⟩ := hvis i hi
  exact ⟨entry, he, by rw [hp]; exact hrec.1⟩

/-- C7 (amended) at outer `{% for a in l %}` over `l = [1, 2]` around inner
`{% for b in m %}` over `m = [x, y]`: in outer iteration 2 (`k = 1`) the first
entry of the inner body sees `parentloop.counter0 = 1`; and with a body that
prints `forloop.parentloop.counter0` the four renders print 0, 0, 1, 1. -/
theorem ForNode.parentloop_snapshot_witness :
    (∃ outerEntry entry,
      (ForCall.loopEntries (ForNode.run referenceEvaluator
        ⟨["a"], ⟨"l"⟩, false,
          [ForNode.toNode referenceEvaluator ⟨["b"], ⟨"m"⟩, false, [], []⟩], []⟩
        ⟨[], ⟨[("l", QVariant.list [QVariant.int 1, QVariant.int 2]),
          ("m", QVariant.list [QVariant.string "x", QVariant.string "y"])], []⟩⟩).calls)[1]?
        = some outerEntry ∧
      (ForCall.loopEntries (ForNode.run referenceEvaluator
        ⟨["b"], ⟨"m"⟩, false, [], []⟩ outerEntry).calls)[0]? = some entry ∧
      ((entry.c.lookup "forloop").toHash.value "parentloop").toHash.value "counter0"
        = QVariant.int 1) ∧
    (ForNode.render referenceEvaluator
        ⟨["a"], ⟨"l"⟩, false,
          [ForNode.toNode referenceEvaluator ⟨["b"], ⟨"m"⟩, false,
            [VariableNode referenceEvaluator ⟨"forloop.parentloop.counter0"⟩], []⟩], []⟩
        ⟨[], ⟨[("l", QVariant.list [QVariant.int 1, QVariant.int 2]),
          ("m", QVariant.list [QVariant.string "x", QVariant.string "y"])], []⟩⟩).stream
      = ["0", "0", "1", "1"] := by
  refine ⟨?_, by decide⟩
  obtain ⟨outerEntry, h1, _, _, _, h5⟩ := ForNode.parentloop_snapshot referenceEvaluator
    ⟨["a"], ⟨"l"⟩, false,
      [ForNode.toNode referenceEvaluator ⟨["b"], ⟨"m"⟩, false, [], []⟩], []⟩
    ⟨["b"], ⟨"m"⟩, false, [], []⟩ [] []
    ⟨[], ⟨[("l", QVariant.list [QVariant.int 1, QVariant.int 2]),
      ("m", QVariant.list [QVariant.string "x", QVariant.string "y"])], []⟩⟩
    rfl (fun _ => rfl) (by decide) (by decide) (by decide) (by decide) (fun _ => rfl)
    1 (by decide)
  have h1b := h1
  rw [ForNode.getElem_loopEntries_run _ _ _ 1 (by decide)] at h1b
  cases h1b
  obtain ⟨entry, h6, h7⟩ := h5 0 (by decide)
  exact ⟨_, entry, h1, h6, h7⟩

/-! ## Lemmas: strings -/

theorem QString.splitChars_ne_nil (sep s : List Char) (k : Nat) :
    QString.splitChars sep s k ≠ [] := by
  induction s generalizing k with
  | nil => simp [QString.splitChars]
  | cons ch rest ih =>
    cases k with
    | succ k => simpa [QString.splitChars] using ih k
    | zero =>
      unfold QString.splitChars
      split
      · simp
      · split <;> simp

/-- The split has a single piece exactly when the separator does not occur. -/
theorem QString.length_splitChars_eq_one (sep : List Char) (hsep : sep ≠ []) (s : List Char)
    (k : Nat) :
    (QString.splitChars sep s k).length = 1 ↔ QString.containsChars sep (s.drop k) = false := by
  induction s generalizing k with
  | nil =>
    cases sep with
    | nil => exact absurd rfl hsep
    | cons a as => simp [QString.splitChars, QString.containsChars, QString.startsAt]
  | cons ch rest ih =>
    cases k with
    | succ k => simpa [QString.splitChars] using ih k
    | zero =>
      have ih0 := ih 0
      rw [List.drop_zero] at ih0
      rw [List.drop_zero]
      by_cases hst : QString.startsAt sep (ch :: rest) = true
      · have hne := QString.splitChars_ne_nil sep rest (sep.length - 1)
        have hpos : 0 < (QString.splitChars sep rest (sep.length - 1)).length :=
          List.length_pos.mpr hne
        simp only [QString.splitChars, hst, if_true, List.length_cons, QString.containsChars,
          Bool.true_or]
        constructor
        · intro h; omega
        · intro h; cases h
      · have hne := QString.splitChars_ne_nil sep rest 0
        simp only [Bool.not_eq_true] at hst
        simp only [QString.splitChars, hst, Bool.false_eq_true, if_false, QString.containsChars,
          Bool.false_or, ← ih0]
        cases hsp : QString.splitChars sep rest 0 with
        | nil => exact absurd hsp hne
        | cons piece pieces => simp

theorem QString.length_split_eq_one (s sep : String) (hsep : sep.data ≠ []) :
    (QString.split s sep).length = 1 ↔ QString.contains s sep = false := by
  have h := QString.length_splitChars_eq_one sep.data hsep s.data 0
  rw [List.drop_zero] at h
  simpa [QString.split, QString.contains] using h

theorem QString.contains_join_nil (sep : String) (hsep : sep.data ≠ []) :
    QString.contains (QStringList.join [] " ") sep = false := by
  cases hs : sep.data with
  | nil => exact absurd hs hsep
  | cons a as =>
    simp [QString.contains, QStringList.join, String.intercalate, QString.containsChars,
      QString.startsAt, hs]

/-! ## Theorems: IfNodeFactory -/

/-- C10: for every `if` tag whose joined argument string contains both
`" and "` and `" or "`, `IfNodeFactory::getNode` throws the TagSyntaxError for
mixed operators and builds no node, whatever the splitter, the parser and
the order of the two operators; `x and y or z` and `x or y and z` are both
rejected. -/
theorem IfNodeFactory.getNode_mixed (split : String → List String) (p : Parser)
    (tagContent : String) (tokens : List Token)
    (hand : QString.contains (QStringList.join ((split tagContent).eraseIdx 0) " ") " and "
      = true)
    (hor : QString.contains (QStringList.join ((split tagContent).eraseIdx 0) " ") " or "
      = true) :
    IfNodeFactory.getNode split p tagContent tokens
      = Except.error (Exception.TagSyntaxError "'if' tags can't mix 'and' and 'or'") ∧
    IfNodeFactory.getNode smartSplit p "if x and y or z" tokens
      = Except.error (Exception.TagSyntaxError "'if' tags can't mix 'and' and 'or'") ∧
    IfNodeFactory.getNode smartSplit p "if x or y and z" tokens
      = Except.error (Exception.TagSyntaxError "'if' tags can't mix 'and' and 'or'") := by
  have key : ∀ (sp : String → List String) (tc : String),
      QString.contains (QStringList.join ((sp tc).eraseIdx 0) " ") " and " = true →
      QString.contains (QStringList.join ((sp tc).eraseIdx 0) " ") " or " = true →
      IfNodeFactory.getNode sp p tc tokens
        = Except.error (Exception.TagSyntaxError "'if' tags can't mix 'and' and 'or'") := by
    intro sp tc h1 h2
    have hlen : ¬ ((sp tc).eraseIdx 0).length ≤ 0 := by
      intro h0
      have hnil : (sp tc).eraseIdx 0 = [] := List.length_eq_zero.mp (by omega)
      rw [hnil, QString.contains_join_nil " and " (by decide)] at h1
      cases h1
    have hsplit : ¬ (QString.split (QStringList.join ((sp tc).eraseIdx 0) " ") " and ").length
        = 1 := by
      rw [QString.length_split_eq_one _ _ (by decide), h1]
      decide
    simp only [IfNodeFactory.getNode, hlen, if_false, IfNodeFactory.boolPairs, hsplit, h2,
      if_true]
  exact ⟨key split tagContent hand hor, key smartSplit _ (by decide) (by decide),
    key smartSplit _ (by decide) (by decide)⟩

/-- C10 at the tag `if x and y or z`. -/
theorem IfNodeFactory.getNode_mixed_witness :
    QString.contains (QStringList.join ((smartSplit "if x and y or z").eraseIdx 0) " ") " and "
      = true ∧
    QString.contains (QStringList.join ((smartSplit "if x and y or z").eraseIdx 0) " ") " or "
      = true ∧
    IfNodeFactory.getNode smartSplit (fixedParser [] []) "if x and y or z" []
      = Except.error (Exception.TagSyntaxError "'if' tags can't mix 'and' and 'or'") :=
  ⟨by decide, by decide,
    (IfNodeFactory.getNode_mixed smartSplit (fixedParser [] []) "if x and y or z" []
      (by decide) (by decide)).1⟩

/-! ## Theorems: ForNodeFactory -/

theorem ForNodeFactory.vars_foldl (args acc : List String) :
    args.foldl (fun vars arg => vars ++ QString.splitSkipEmptyParts arg ",") acc
      = acc ++ args.flatMap (fun arg => QString.splitSkipEmptyParts arg ",") := by
  induction args generalizing acc with
  | nil => simp
  | cons a rest ih => rw [List.foldl_cons, ih]; simp [List.flatMap_cons]

theorem ForNodeFactory.vars_eq_flatMap (args : List String) :
    ForNodeFactory.vars args = args.flatMap (fun arg => QString.splitSkipEmptyParts arg ",") := by
  simp [ForNodeFactory.vars, ForNodeFactory.vars_foldl]

/-- For a one-character separator the split is the library split of a list at
an element. -/
theorem QString.splitChars_single (c : Char) (s : List Char) :
    QString.splitChars [c] s 0 = s.splitOn c := by
  induction s with
  | nil => simp [QString.splitChars, List.splitOn, List.splitOnP_nil]
  | cons ch rest ih =>
    have hne := List.splitOnP_ne_nil (fun x => x == c) rest
    rw [List.splitOn, List.splitOnP_cons]
    rw [List.splitOn] at ih
    by_cases h : ch = c
    · subst h
      simp [QString.splitChars, QString.startsAt, ih]
    · have h2 : ¬ c = ch := fun e => h e.symm
      simp only [QString.splitChars, QString.startsAt, ih]
      cases hsp : List.splitOnP (fun x => x == c) rest with
      | nil => exact absurd hsp hne
      | cons piece pieces => simp [List.isPrefixOf, h, h2]

theorem QString.splitSkipEmptyParts_comma (word : String) :
    QString.splitSkipEmptyParts word "," = ForNodeFactory.fragments word := by
  simp only [QString.splitSkipEmptyParts, ForNodeFactory.fragments]
  rw [QString.splitChars_single]

theorem QString.not_mem_splitOnP (c : Char) (s : List Char) :
    ∀ piece ∈ s.splitOnP (fun x => x == c), c ∉ piece := by
  induction s with
  | nil => simp [List.splitOnP_nil]
  | cons ch rest ih =>
    have hne := List.splitOnP_ne_nil (fun x => x == c) rest
    rw [List.splitOnP_cons]
    by_cases h : ch = c
    · subst h
      simpa using ih
    · cases hsp : List.splitOnP (fun x => x == c) rest with
      | nil => exact absurd hsp hne
      | cons piece pieces =>
        rw [hsp] at ih
        have h2 : ¬ c = ch := fun e => h e.symm
        simp only [beq_iff_eq, h, if_false, List.modifyHead_cons, List.mem_cons,
          forall_eq_or_imp, not_or, Bool.false_eq_true]
        exact ⟨⟨h2, ih piece (List.mem_cons_self _ _)⟩,
          fun q hq => ih q (List.mem_cons_of_mem _ hq)⟩

/-- A fragment is non-empty and holds no comma. -/
theorem ForNodeFactory.mem_fragments (word name : String)
    (h : name ∈ ForNodeFactory.fragments word) : name.data ≠ [] ∧ ',' ∉ name.data := by
  simp only [ForNodeFactory.fragments, List.mem_map, List.mem_filter] at h
  obtain ⟨piece, ⟨hp, hne⟩, rfl⟩ := h
  refine ⟨?_, QString.not_mem_splitOnP ',' word.data piece hp⟩
  intro e
  simp only [] at e
  simp [e] at hne

theorem ForNodeFactory.mem_vars (args : List String) (name : String)
    (h : name ∈ ForNodeFactory.vars args) : name.data ≠ [] ∧ ',' ∉ name.data := by
  rw [ForNodeFactory.vars_eq_flatMap, List.mem_flatMap] at h
  obtain ⟨arg, _, hn⟩ := h
  rw [QString.splitSkipEmptyParts_comma] at hn
  exact ForNodeFactory.mem_fragments arg name hn

/-- The test `var.isNull()` never succeeds on the loop variables. -/
theorem ForNodeFactory.vars_not_null (args : List String) :
    (ForNodeFactory.vars args).any QString.isNull = false := by
  rw [Bool.eq_false_iff]
  intro h
  obtain ⟨name, hn, hnull⟩ := List.any_eq_true.mp h
  have := (ForNodeFactory.mem_vars args name hn).1
  simp [QString.isNull] at hnull
  exact this hnull

/-- The function `getNode` is the reading of the tag content followed by the two requests
to the parser. -/
theorem ForNodeFactory.getNode_eq (split : String → List String) (p : Parser)
    (tagContent : String) (tokens : List Token) :
    ForNodeFactory.getNode split p tagContent tokens
      = match ForNodeFactory.header split tagContent with
        | Except.error e => Except.error e
        | Except.ok (vars, fe, reversed) =>
          if QString.trimmed
              (Parser.takeNextToken (p.parse ["empty", "endfor"] tokens).2).1.content
              = "empty" then
            Except.ok (⟨vars, fe, reversed, (p.parse ["empty", "endfor"] tokens).1,
                (p.parse ["endfor"]
                  (Parser.takeNextToken (p.parse ["empty", "endfor"] tokens).2).2).1⟩,
              Parser.removeNextToken (p.parse ["endfor"]
                (Parser.takeNextToken (p.parse ["empty", "endfor"] tokens).2).2).2)
          else
            Except.ok (⟨vars, fe, reversed, (p.parse ["empty", "endfor"] tokens).1, []⟩,
              (Parser.takeNextToken (p.parse ["empty", "endfor"] tokens).2).2) := by
  unfold ForNodeFactory.getNode ForNodeFactory.header
  simp only []
  split_ifs <;> rfl

theorem ForNodeFactory.length_remaining (expr : List String) (h : 4 ≤ expr.length) :
    2 ≤ (ForNodeFactory.remaining expr).length := by
  unfold ForNodeFactory.remaining
  split <;> simp [List.length_dropLast, List.length_tail] <;> omega

/-- The reading of the tag content, case by case. -/
theorem ForNodeFactory.header_eq (split : String → List String) (tagContent : String) :
    ForNodeFactory.header split tagContent
      = if (split tagContent).length < 4 then
          Except.error (Exception.TagSyntaxError
            ("'for' statements should have at least four words: " ++ tagContent))
        else if (ForNodeFactory.remaining (split tagContent))[
            (ForNodeFactory.remaining (split tagContent)).length - 2]? ≠ some "in" then
          Except.error (Exception.TagSyntaxError
            ("'for' statements should use the form 'for x in y': " ++ tagContent))
        else
          Except.ok (ForNodeFactory.vars ((ForNodeFactory.remaining (split tagContent)).take
              ((ForNodeFactory.remaining (split tagContent)).length - 2)),
            ⟨(ForNodeFactory.remaining (split tagContent)).getLastD ""⟩,
            decide (((split tagContent).eraseIdx 0).getLast? = some "reversed")) := by
  have hrem : (if decide (((split tagContent).eraseIdx 0).getLast? = some "reversed") = true
      then ((split tagContent).eraseIdx 0).dropLast else (split tagContent).eraseIdx 0)
      = ForNodeFactory.remaining (split tagContent) := by
    simp [ForNodeFactory.remaining]
  unfold ForNodeFactory.header
  simp only [hrem, List.head?_drop, ForNodeFactory.vars_not_null, Bool.false_eq_true, if_false]

theorem ForNodeFactory.getLast?_eraseIdx (expr : List String) (h : 2 ≤ expr.length) :
    (expr.eraseIdx 0).getLast? = expr.getLast? := by
  match expr, h with
  | a :: b :: rest, _ => simp

/-- C9: for every tag content `ForNodeFactory::getNode` accepts: the loop
variables are, in order, the non-empty comma-separated fragments of the tokens
before `in` (each name non-empty and without a comma); `in` is the
second-to-last remaining token and the source expression is compiled from the
token after it, the last one; and the node is reversed exactly when the final
token of the tag is `reversed`. -/
theorem ForNodeFactory.getNode_accepts (split : String → List String) (p : Parser)
    (tagContent : String) (tokens rest : List Token) (n : ForNode)
    (h : ForNodeFactory.getNode split p tagContent tokens = Except.ok (n, rest)) :
    n.loopVars
      = ((ForNodeFactory.remaining (split tagContent)).take
          ((ForNodeFactory.remaining (split tagContent)).length - 2)).flatMap
          ForNodeFactory.fragments ∧
    (∀ name ∈ n.loopVars, name.data ≠ [] ∧ ',' ∉ name.data) ∧
    (ForNodeFactory.remaining (split tagContent))[
      (ForNodeFactory.remaining (split tagContent)).length - 2]? = some "in" ∧
    (ForNodeFactory.remaining (split tagContent))[
      (ForNodeFactory.remaining (split tagContent)).length - 1]?
      = some n.filterExpression.text ∧
    (n.isReversed = true ↔ (split tagContent).getLast? = some "reversed") := by
  rw [ForNodeFactory.getNode_eq, ForNodeFactory.header_eq] at h
  by_cases h1 : (split tagContent).length < 4
  · simp [h1] at h
  · by_cases h2 : (ForNodeFactory.remaining (split tagContent))[
        (ForNodeFactory.remaining (split tagContent)).length - 2]? = some "in"
    · have hlen := ForNodeFactory.length_remaining (split tagContent) (by omega)
      have hvars : n.loopVars = ForNodeFactory.vars
          ((ForNodeFactory.remaining (split tagContent)).take
            ((ForNodeFactory.remaining (split tagContent)).length - 2)) ∧
          n.filterExpression = ⟨(ForNodeFactory.remaining (split tagContent)).getLastD ""⟩ ∧
          n.isReversed = decide (((split tagContent).eraseIdx 0).getLast? = some "reversed") := by
        simp only [h1, h2, if_false, ne_eq, not_true_eq_false] at h
        split at h <;>
          · injection h with h
            injection h with h _
            subst h
            exact ⟨rfl, rfl, rfl⟩
      obtain ⟨hv, hfe, hrev⟩ := hvars
      refine ⟨?_, ?_, h2, ?_, ?_⟩
      · rw [hv, ForNodeFactory.vars_eq_flatMap]
        congr 1
        funext word
        exact QString.splitSkipEmptyParts_comma word
      · intro name hname
        rw [hv] at hname
        exact ForNodeFactory.mem_vars _ name hname
      · rw [hfe, List.getLastD_eq_getLast?, List.getLast?_eq_getElem?]
        have hlt : (ForNodeFactory.remaining (split tagContent)).length - 1
            < (ForNodeFactory.remaining (split tagContent)).length := by omega
        simp [List.getElem?_eq_getElem hlt]
      · rw [hrev, ForNodeFactory.getLast?_eraseIdx _ (by omega)]
        simp
    · simp [h1, h2] at h

/-- C9 at `for x, y in list.values reversed` and at `for x,y in l`. -/
theorem ForNodeFactory.getNode_accepts_witness :
    ForNodeFactory.getNode smartSplit (fixedParser [] []) "for x, y in list.values reversed" []
      = Except.ok (⟨["x", "y"], ⟨"list.values"⟩, true, [], []⟩, []) ∧
    ForNodeFactory.getNode smartSplit (fixedParser [] []) "for x,y in l" []
      = Except.ok (⟨["x", "y"], ⟨"l"⟩, false, [], []⟩, []) ∧
    ((["x", "y"] : List String)
      = ((ForNodeFactory.remaining (smartSplit "for x, y in list.values reversed")).take
          ((ForNodeFactory.remaining
            (smartSplit "for x, y in list.values reversed")).length - 2)).flatMap
          ForNodeFactory.fragments) :=
  ⟨rfl, rfl,
    (ForNodeFactory.getNode_accepts smartSplit (fixedParser [] [])
      "for x, y in list.values reversed" [] []
      ⟨["x", "y"], ⟨"list.values"⟩, true, [], []⟩ rfl).1⟩

/-! ## Worked examples -/

/-- C1 at `{% if not a or b %}T{% else %}F{% endif %}` with `a = 1` and `b`
absent: no term is satisfied and the false-branch renders. -/
theorem IfNode.render_orLink_witness :
    IfNode.render referenceEvaluator
        ⟨[(true, ⟨"a"⟩), (false, ⟨"b"⟩)], LinkType.OrLink, [TextNode "T"], [TextNode "F"]⟩
        ⟨[], ⟨[("a", QVariant.int 1)], []⟩⟩
      = NodeList.render [TextNode "F"] ⟨[], ⟨[("a", QVariant.int 1)], []⟩⟩ :=
  ((IfNode.render_orLink referenceEvaluator [(true, ⟨"a"⟩), (false, ⟨"b"⟩)]
    [TextNode "T"] [TextNode "F"] ⟨[], ⟨[("a", QVariant.int 1)], []⟩⟩).2.1 (by decide)).1

/-- C2 at `{% if x and y %}T{% else %}F{% endif %}` with `x = 1` and `y = 0`:
the false-branch renders. -/
theorem IfNode.render_andLink_witness :
    IfNode.render referenceEvaluator
        ⟨[(false, ⟨"x"⟩), (false, ⟨"y"⟩)], LinkType.AndLink, [TextNode "T"], [TextNode "F"]⟩
        ⟨[], ⟨[("x", QVariant.int 1), ("y", QVariant.int 0)], []⟩⟩
      = NodeList.render [TextNode "F"]
          ⟨[], ⟨[("x", QVariant.int 1), ("y", QVariant.int 0)], []⟩⟩ :=
  (IfNode.render_andLink referenceEvaluator [(false, ⟨"x"⟩), (false, ⟨"y"⟩)]
    [TextNode "T"] [TextNode "F"]
    ⟨[], ⟨[("x", QVariant.int 1), ("y", QVariant.int 0)], []⟩⟩).2.2.2
    ⟨"x"⟩ ⟨"y"⟩ rfl (by decide) (by decide)

/-- C4 at `{% for x in l reversed %}` over `l = [a, b, c]`: the body sees
`c, b, a` while the counters run 0, 1, 2. -/
theorem ForNode.single_variable_visits_witness :
    ((ForCall.loopEntries (ForNode.run referenceEvaluator ⟨["x"], ⟨"l"⟩, true, [], []⟩
        ⟨[], ⟨[("l", QVariant.list [QVariant.string "a", QVariant.string "b",
          QVariant.string "c"])], []⟩⟩).calls).map (fun entry => entry.c.lookup "x")
      = [QVariant.string "c", QVariant.string "b", QVariant.string "a"]) ∧
    (ForCall.counters (ForNode.run referenceEvaluator ⟨["x"], ⟨"l"⟩, true, [], []⟩
        ⟨[], ⟨[("l", QVariant.list [QVariant.string "a", QVariant.string "b",
          QVariant.string "c"])], []⟩⟩).calls
      = [(3, 0), (3, 1), (3, 2)]) :=
  ⟨(ForNode.single_variable_visits referenceEvaluator "x" ⟨"l"⟩ true [] []
      ⟨[], ⟨[("l", QVariant.list [QVariant.string "a", QVariant.string "b",
        QVariant.string "c"])], []⟩⟩).1.trans (by decide),
    (ForNode.single_variable_visits referenceEvaluator "x" ⟨"l"⟩ true [] []
      ⟨[], ⟨[("l", QVariant.list [QVariant.string "a", QVariant.string "b",
        QVariant.string "c"])], []⟩⟩).2.1.trans (by decide)⟩

theorem IfNodeFactory.boolVars_error (pre post : List String) (piece : String) (e : Exception)
    (hpre : ∀ q ∈ pre, ∃ t, IfNodeFactory.pair q = Except.ok t)
    (hpiece : IfNodeFactory.pair piece = Except.error e) :
    IfNodeFactory.boolVars (pre ++ piece :: post) = Except.error e := by
  induction pre with
  | nil => simp [IfNodeFactory.boolVars, hpiece]
  | cons q rest ih =>
    obtain ⟨t, ht⟩ := hpre q (List.mem_cons_self _ _)
    have := ih (fun x hx => hpre x (List.mem_cons_of_mem _ hx))
    simp [IfNodeFactory.boolVars, ht, this]

theorem IfNodeFactory.boolVars_ok (pieces : List String)
    (h : ∀ q ∈ pieces, ∃ t, IfNodeFactory.pair q = Except.ok t) :
    ∃ terms, IfNodeFactory.boolVars pieces = Except.ok terms ∧
      List.Forall₂ (fun q t => IfNodeFactory.pair q = Except.ok t) pieces terms := by
  induction pieces with
  | nil => exact ⟨[], rfl, List.Forall₂.nil⟩
  | cons q rest ih =>
    obtain ⟨t, ht⟩ := h q (List.mem_cons_self _ _)
    obtain ⟨terms, hterms, hall⟩ := ih (fun x hx => h x (List.mem_cons_of_mem _ hx))
    exact ⟨t :: terms, by simp [IfNodeFactory.boolVars, ht, hterms], List.Forall₂.cons ht hall⟩

theorem IfNodeFactory.boolVars_forall₂ (pieces : List String)
    (terms : List (Bool × FilterExpression))
    (h : IfNodeFactory.boolVars pieces = Except.ok terms) :
    List.Forall₂ (fun q t => IfNodeFactory.pair q = Except.ok t) pieces terms := by
  induction pieces generalizing terms with
  | nil =>
    simp [IfNodeFactory.boolVars] at h
    subst h
    exact List.Forall₂.nil
  | cons q rest ih =>
    unfold IfNodeFactory.boolVars at h
    cases hq : IfNodeFactory.pair q with
    | error e => simp [hq] at h
    | ok t =>
      cases hr : IfNodeFactory.boolVars rest with
      | error e => simp [hq, hr] at h
      | ok ts =>
        simp [hq, hr] at h
        subst h
        exact List.Forall₂.cons hq (ih ts hr)

/-- The factory on a tag whose argument list is not empty: the split into
pieces, then the terms, then the two requests to the parser. -/
theorem IfNodeFactory.getNode_if_eq (split : String → List String) (p : Parser)
    (tagContent : String) (tokens : List Token)
    (hlen : 0 < ((split tagContent).eraseIdx 0).length) :
    IfNodeFactory.getNode split p tagContent tokens
      = match IfNodeFactory.boolPairs (QStringList.join ((split tagContent).eraseIdx 0) " ") with
        | Except.error e => Except.error e
        | Except.ok (boolPairs, linkType) =>
          match IfNodeFactory.boolVars boolPairs with
          | Except.error e => Except.error e
          | Except.ok boolVars =>
            if QString.trimmed
                (Parser.takeNextToken (p.parse ["else", "endif"] tokens).2).1.content
                = "else" then
              Except.ok (⟨boolVars, linkType, (p.parse ["else", "endif"] tokens).1,
                  (p.parse ["endif"]
                    (Parser.takeNextToken (p.parse ["else", "endif"] tokens).2).2).1⟩,
                Parser.removeNextToken (p.parse ["endif"]
                  (Parser.takeNextToken (p.parse ["else", "endif"] tokens).2).2).2)
            else
              Except.ok (⟨boolVars, linkType, (p.parse ["else", "endif"] tokens).1, []⟩,
                (Parser.takeNextToken (p.parse ["else", "endif"] tokens).2).2) := by
  have h0 : ¬ ((split tagContent).eraseIdx 0).length ≤ 0 := by omega
  unfold IfNodeFactory.getNode
  simp only [h0, if_false]
  rfl

/-- C11, as stated, fails in two ways.  (1) The second token is trimmed before
it is compiled: for the tag `if "x and not <tab>y"` the split on `" and "`
cuts the quoted word, the piece `not <tab>y"` has the two tokens `not` and
`<tab>y"`, and its term holds the expression `y"`.  (2) The first rejected
piece decides the error: for `if a b and not c d` the piece `not c d` has
three tokens, but the factory fails with "Expected 'not'" on `a b`. -/
theorem IfNodeFactory.pair_trims_and_first_error_wins :
    (QString.split (QStringList.join ((smartSplit
        ("if " ++ String.mk [Char.ofNat 34] ++ "x and not " ++ String.mk [Char.ofNat 9]
          ++ "y" ++ String.mk [Char.ofNat 34])).eraseIdx 0) " ") " and "
      = [String.mk [Char.ofNat 34] ++ "x",
          "not " ++ String.mk [Char.ofNat 9] ++ "y" ++ String.mk [Char.ofNat 34]] ∧
    QString.split ("not " ++ String.mk [Char.ofNat 9] ++ "y" ++ String.mk [Char.ofNat 34]) " "
      = ["not", String.mk [Char.ofNat 9] ++ "y" ++ String.mk [Char.ofNat 34]] ∧
    IfNodeFactory.pair
        ("not " ++ String.mk [Char.ofNat 9] ++ "y" ++ String.mk [Char.ofNat 34])
      = Except.ok (true, ⟨"y" ++ String.mk [Char.ofNat 34]⟩) ∧
    "y" ++ String.mk [Char.ofNat 34]
      ≠ String.mk [Char.ofNat 9] ++ "y" ++ String.mk [Char.ofNat 34]) ∧
    (QString.split (QStringList.join ((smartSplit "if a b and not c d").eraseIdx 0) " ") " and "
      = ["a b", "not c d"] ∧
    QString.contains "not c d" " " = true ∧
    (QString.split "not c d" " ").length = 3 ∧
    IfNodeFactory.getNode smartSplit (fixedParser [] []) "if a b and not c d" []
      = Except.error (Exception.TagSyntaxError "Expected 'not' in if statement") ∧
    Exception.TagSyntaxError "Expected 'not' in if statement"
      ≠ Exception.TagSyntaxError "'if' statement improperly formatted") :=
  ⟨⟨by decide, by decide, rfl, by decide⟩,
    ⟨by decide, by decide, by decide, rfl, by decide⟩⟩

/-- C11 (amended): for every piece of the operator split, taken in order: a
piece without a space yields the term (negate = false, expression of the
trimmed piece); a piece with a space that splits at spaces into exactly two
tokens, the first `not`, yields (negate = true, expression of the trimmed
second token); a piece with a space that does not split into exactly two
tokens is rejected with 'improperly formatted'; a piece that splits into two
tokens of which the first is not `not` is rejected with "Expected 'not'".
The factory throws the error of the first rejected piece, and when no piece is
rejected the terms of the node are the terms of the pieces, in order.  `a b`
and `a and` fail with "Expected 'not'", `not a b` with 'improperly
formatted'. -/
theorem IfNodeFactory.pair_cases (split : String → List String) (p : Parser)
    (tagContent : String) (tokens : List Token) (piece : String) :
    (QString.contains piece " " = false →
      IfNodeFactory.pair piece = Except.ok (false, ⟨QString.trimmed piece⟩)) ∧
    (QString.contains piece " " = true → ∀ second, QString.split piece " " = ["not", second] →
      IfNodeFactory.pair piece = Except.ok (true, ⟨QString.trimmed second⟩)) ∧
    (QString.contains piece " " = true → (QString.split piece " ").length ≠ 2 →
      IfNodeFactory.pair piece
        = Except.error (Exception.TagSyntaxError "'if' statement improperly formatted")) ∧
    (QString.contains piece " " = true →
      ∀ first second, QString.split piece " " = [first, second] → first ≠ "not" →
      IfNodeFactory.pair piece
        = Except.error (Exception.TagSyntaxError "Expected 'not' in if statement")) ∧
    (∀ pre post linkType e,
      0 < ((split tagContent).eraseIdx 0).length →
      IfNodeFactory.boolPairs (QStringList.join ((split tagContent).eraseIdx 0) " ")
        = Except.ok (pre ++ piece :: post, linkType) →
      (∀ q ∈ pre, ∃ t, IfNodeFactory.pair q = Except.ok t) →
      IfNodeFactory.pair piece = Except.error e →
      IfNodeFactory.getNode split p tagContent tokens = Except.error e) ∧
    (∀ pieces linkType,
      0 < ((split tagContent).eraseIdx 0).length →
      IfNodeFactory.boolPairs (QStringList.join ((split tagContent).eraseIdx 0) " ")
        = Except.ok (pieces, linkType) →
      (∀ q ∈ pieces, ∃ t, IfNodeFactory.pair q = Except.ok t) →
      ∃ n rest, IfNodeFactory.getNode split p tagContent tokens = Except.ok (n, rest) ∧
        List.Forall₂ (fun q t => IfNodeFactory.pair q = Except.ok t) pieces n.boolVars) ∧
    (IfNodeFactory.getNode smartSplit p "if a b" tokens
        = Except.error (Exception.TagSyntaxError "Expected 'not' in if statement") ∧
      IfNodeFactory.getNode smartSplit p "if a and" tokens
        = Except.error (Exception.TagSyntaxError "Expected 'not' in if statement") ∧
      IfNodeFactory.getNode smartSplit p "if not a b" tokens
        = Except.error (Exception.TagSyntaxError "'if' statement improperly formatted")) := by
  refine ⟨?_, ?_, ?_, ?_, ?_, ?_, ?_⟩
  · intro h
    simp [IfNodeFactory.pair, h]
  · intro h second hs
    simp [IfNodeFactory.pair, h, hs]
  · intro h hl
    simp [IfNodeFactory.pair, h, hl]
  · intro h first second hs hf
    simp [IfNodeFactory.pair, h, hs, hf]
  · intro pre post linkType e hlen hbp hpre hpiece
    rw [IfNodeFactory.getNode_if_eq split p tagContent tokens hlen, hbp]
    simp only [IfNodeFactory.boolVars_error pre post piece e hpre hpiece]
  · intro pieces linkType hlen hbp hall
    obtain ⟨terms, hterms, hf⟩ := IfNodeFactory.boolVars_ok pieces hall
    rw [IfNodeFactory.getNode_if_eq split p tagContent tokens hlen, hbp]
    simp only [hterms]
    split
    · exact ⟨_, _, rfl, hf⟩
    · exact ⟨_, _, rfl, hf⟩
  · exact ⟨rfl, rfl, rfl⟩

/-- C11 (amended) at the tag `if not a and b`: the pieces are `not a` and `b`
and the terms are (true, `a`) and (false, `b`). -/
theorem IfNodeFactory.pair_cases_witness :
    IfNodeFactory.pair "not a" = Except.ok (true, ⟨"a"⟩) ∧
    IfNodeFactory.pair "b" = Except.ok (false, ⟨"b"⟩) ∧
    (∃ n rest, IfNodeFactory.getNode smartSplit (fixedParser [] []) "if not a and b" []
        = Except.ok (n, rest) ∧
      List.Forall₂ (fun q t => IfNodeFactory.pair q = Except.ok t) ["not a", "b"] n.boolVars) :=
  ⟨((IfNodeFactory.pair_cases smartSplit (fixedParser [] []) "if not a and b" [] "not a").2.1
      (by decide) "a" (by decide)).trans rfl,
    ((IfNodeFactory.pair_cases smartSplit (fixedParser [] []) "if not a and b" [] "b").1
      (by decide)).trans rfl,
    (IfNodeFactory.pair_cases smartSplit (fixedParser [] []) "if not a and b" [] "b").2.2.2.2.2.1
      ["not a", "b"] LinkType.AndLink (by decide) rfl
      (by intro q hq
          simp only [List.mem_cons, List.mem_singleton, List.not_mem_nil, or_false] at hq
          rcases hq with rfl | rfl
          · exact ⟨_, rfl⟩
          · exact ⟨_, rfl⟩)⟩

/-! ## Theorems: parse, then render -/

/-- C12: the node `IfNodeFactory::getNode` builds for the tag `if not a`,
closed by `else` and `endif`, has the single term (negate = true, `a`) and
link OR, the true-branch `T` the parser returned up to `else` and the
false-branch `F` it returned up to `endif`; rendered in any state it leaves
exactly what `T` leaves when `a` is falsy and exactly what `F` leaves when
`a` is truthy. -/
theorem IfNodeFactory.roundtrip_not (ev : Evaluator) (split : String → List String)
    (p : Parser) (tokens : List Token) (s : RenderState)
    (hsplit : split "if not a" = ["if", "not", "a"])
    (helse : QString.trimmed
      (Parser.takeNextToken (p.parse ["else", "endif"] tokens).2).1.content = "else") :
    ∃ n rest, IfNodeFactory.getNode split p "if not a" tokens = Except.ok (n, rest) ∧
      n.boolVars = [(true, ⟨"a"⟩)] ∧ n.linkType = LinkType.OrLink ∧
      n.trueList = (p.parse ["else", "endif"] tokens).1 ∧
      n.falseList = (p.parse ["endif"]
        (Parser.takeNextToken (p.parse ["else", "endif"] tokens).2).2).1 ∧
      (ev.isTrue ⟨"a"⟩ s.c = false →
        IfNode.render ev n s = NodeList.render (p.parse ["else", "endif"] tokens).1 s) ∧
      (ev.isTrue ⟨"a"⟩ s.c = true →
        IfNode.render ev n s = NodeList.render (p.parse ["endif"]
          (Parser.takeNextToken (p.parse ["else", "endif"] tokens).2).2).1 s) := by
  have hlen : 0 < ((split "if not a").eraseIdx 0).length := by rw [hsplit]; decide
  have hbp : IfNodeFactory.boolPairs (QStringList.join ((split "if not a").eraseIdx 0) " ")
      = Except.ok (["not a"], LinkType.OrLink) := by rw [hsplit]; rfl
  have hbv : IfNodeFactory.boolVars ["not a"] = Except.ok [(true, ⟨"a"⟩)] := rfl
  rw [IfNodeFactory.getNode_if_eq split p "if not a" tokens hlen, hbp]
  simp only [hbv, helse, if_true]
  refine ⟨_, _, rfl, rfl, rfl, rfl, rfl, ?_, ?_⟩
  · intro h
    simp [IfNode.render, IfNode.run, IfNode.orLoop, h, IfNode.renderTrueList]
  · intro h
    simp [IfNode.render, IfNode.run, IfNode.orLoop, h, IfNode.renderFalseList]

/-- C12 at `{% if not a %}T{% else %}F{% endif %}`: rendered with `a` absent
the output is `T`, rendered with `a = 1` it is `F`. -/
theorem IfNodeFactory.roundtrip_not_witness :
    ∃ n rest, IfNodeFactory.getNode smartSplit (fixedParser [TextNode "T"] [TextNode "F"])
        "if not a" [⟨"else"⟩, ⟨"endif"⟩] = Except.ok (n, rest) ∧
      (IfNode.render referenceEvaluator n ⟨[], ⟨[], []⟩⟩).stream = ["T"] ∧
      (IfNode.render referenceEvaluator n ⟨[], ⟨[("a", QVariant.int 1)], []⟩⟩).stream
        = ["F"] := by
  obtain ⟨n, rest, h, _, _, _, _, hT, _⟩ := IfNodeFactory.roundtrip_not referenceEvaluator
    smartSplit (fixedParser [TextNode "T"] [TextNode "F"]) [⟨"else"⟩, ⟨"endif"⟩]
    ⟨[], ⟨[], []⟩⟩ (by decide) (by decide)
  obtain ⟨n2, rest2, h2, _, _, _, _, _, hF⟩ := IfNodeFactory.roundtrip_not referenceEvaluator
    smartSplit (fixedParser [TextNode "T"] [TextNode "F"]) [⟨"else"⟩, ⟨"endif"⟩]
    ⟨[], ⟨[("a", QVariant.int 1)], []⟩⟩ (by decide) (by decide)
  rw [h] at h2
  injection h2 with h2
  injection h2 with hn _
  subst hn
  refine ⟨n, rest, h, ?_, ?_⟩
  · rw [hT (by decide)]; rfl
  · rw [hF (by decide)]; rfl

/-! ## Theorems: short-circuit evaluation -/

theorem IfNode.orLoop_decided (ev : Evaluator) (c : Context)
    (pre post : List (Bool × FilterExpression)) (t : Bool × FilterExpression) (i : Nat)
    (hpre : ∀ q ∈ pre, IfNode.decides ev c LinkType.OrLink q = false)
    (ht : IfNode.decides ev c LinkType.OrLink t = true) :
    IfNode.orLoop ev c (pre ++ t :: post) i
      = ((List.range' i (pre.length + 1)).map IfCall.isTrue, true) := by
  induction pre generalizing i with
  | nil =>
    simp only [IfNode.decides] at ht
    simp [IfNode.orLoop, ht, List.range']
  | cons q rest ih =>
    have hq := hpre q (List.mem_cons_self _ _)
    simp only [IfNode.decides, bne_eq_false_iff_eq] at hq
    have := ih (i + 1) (fun x hx => hpre x (List.mem_cons_of_mem _ hx))
    simp [IfNode.orLoop, hq, this, List.range']

theorem IfNode.orLoop_undecided (ev : Evaluator) (c : Context)
    (terms : List (Bool × FilterExpression)) (i : Nat)
    (h : ∀ q ∈ terms, IfNode.decides ev c LinkType.OrLink q = false) :
    IfNode.orLoop ev c terms i = ((List.range' i terms.length).map IfCall.isTrue, false) := by
  induction terms generalizing i with
  | nil => simp [IfNode.orLoop]
  | cons q rest ih =>
    have hq := h q (List.mem_cons_self _ _)
    simp only [IfNode.decides, bne_eq_false_iff_eq] at hq
    have := ih (i + 1) (fun x hx => h x (List.mem_cons_of_mem _ hx))
    simp [IfNode.orLoop, hq, this, List.range']

theorem IfNode.andLoop_fails_iff (truth negate : Bool) :
    ((!truth && !negate) || (truth && negate)) = (truth == negate) := by
  cases truth <;> cases negate <;> rfl

theorem IfNode.andLoop_decided (ev : Evaluator) (c : Context)
    (pre post : List (Bool × FilterExpression)) (t : Bool × FilterExpression) (i : Nat)
    (hpre : ∀ q ∈ pre, IfNode.decides ev c LinkType.AndLink q = false)
    (ht : IfNode.decides ev c LinkType.AndLink t = true) :
    IfNode.andLoop ev c (pre ++ t :: post) i
      = ((List.range' i (pre.length + 1)).map IfCall.isTrue, false) := by
  induction pre generalizing i with
  | nil =>
    simp only [IfNode.decides] at ht
    simp [IfNode.andLoop, IfNode.andLoop_fails_iff, ht, List.range']
  | cons q rest ih =>
    have hq := hpre q (List.mem_cons_self _ _)
    simp only [IfNode.decides] at hq
    have := ih (i + 1) (fun x hx => hpre x (List.mem_cons_of_mem _ hx))
    simp [IfNode.andLoop, IfNode.andLoop_fails_iff, hq, this, List.range']

theorem IfNode.andLoop_undecided (ev : Evaluator) (c : Context)
    (terms : List (Bool × FilterExpression)) (i : Nat)
    (h : ∀ q ∈ terms, IfNode.decides ev c LinkType.AndLink q = false) :
    IfNode.andLoop ev c terms i = ((List.range' i terms.length).map IfCall.isTrue, true) := by
  induction terms generalizing i with
  | nil => simp [IfNode.andLoop]
  | cons q rest ih =>
    have hq := h q (List.mem_cons_self _ _)
    simp only [IfNode.decides] at hq
    have := ih (i + 1) (fun x hx => h x (List.mem_cons_of_mem _ hx))
    simp [IfNode.andLoop, IfNode.andLoop_fails_iff, hq, this, List.range']

theorem IfCall.evaluated_map_isTrue (l : List Nat) (b : IfCall)
    (hb : b = IfCall.renderTrueList ∨ b = IfCall.renderFalseList) :
    IfCall.evaluated (l.map IfCall.isTrue ++ [b]) = l := by
  induction l with
  | nil => rcases hb with rfl | rfl <;> rfl
  | cons x rest ih => simp [IfCall.evaluated, ih]

/-- C13: for every IfNode of either link type and every state, the calls of
`IfNode::render` are the `isTrue` evaluations of terms `0, 1, ..., k`, each
once and in this order, followed by the one branch it renders, where `k` is
the first term that decides the outcome (truth != negate for OR,
truth == negate for AND); when no term decides, every term is evaluated, once
and in order.  No term after the deciding one is evaluated. -/
theorem IfNode.evaluates_deciding_range (ev : Evaluator) (terms : List (Bool × FilterExpression))
    (linkType : LinkType) (trueList falseList : NodeList) (s : RenderState) :
    (∀ pre t post, terms = pre ++ t :: post →
      (∀ q ∈ pre, IfNode.decides ev s.c linkType q = false) →
      IfNode.decides ev s.c linkType t = true →
      IfNode.calls ev ⟨terms, linkType, trueList, falseList⟩ s
          = (List.range (pre.length + 1)).map IfCall.isTrue
            ++ [if linkType = LinkType.OrLink then IfCall.renderTrueList
                else IfCall.renderFalseList] ∧
        IfCall.evaluated (IfNode.calls ev ⟨terms, linkType, trueList, falseList⟩ s)
          = List.range (pre.length + 1)) ∧
    ((∀ q ∈ terms, IfNode.decides ev s.c linkType q = false) →
      IfNode.calls ev ⟨terms, linkType, trueList, falseList⟩ s
          = (List.range terms.length).map IfCall.isTrue
            ++ [if linkType = LinkType.OrLink then IfCall.renderFalseList
                else IfCall.renderTrueList] ∧
        IfCall.evaluated (IfNode.calls ev ⟨terms, linkType, trueList, falseList⟩ s)
          = List.range terms.length) := by
  constructor
  · intro pre t post hterms hpre ht
    subst hterms
    have hcalls : IfNode.calls ev ⟨pre ++ t :: post, linkType, trueList, falseList⟩ s
        = (List.range (pre.length + 1)).map IfCall.isTrue
          ++ [if linkType = LinkType.OrLink then IfCall.renderTrueList
              else IfCall.renderFalseList] := by
      cases linkType
      · simp [IfNode.calls, IfNode.run, IfNode.orLoop_decided ev s.c pre post t 0 hpre ht,
          List.range_eq_range']
      · simp [IfNode.calls, IfNode.run, IfNode.andLoop_decided ev s.c pre post t 0 hpre ht,
          List.range_eq_range']
    refine ⟨hcalls, ?_⟩
    rw [hcalls]
    apply IfCall.evaluated_map_isTrue
    cases linkType <;> simp
  · intro h
    have hcalls : IfNode.calls ev ⟨terms, linkType, trueList, falseList⟩ s
        = (List.range terms.length).map IfCall.isTrue
          ++ [if linkType = LinkType.OrLink then IfCall.renderFalseList
              else IfCall.renderTrueList] := by
      cases linkType
      · simp [IfNode.calls, IfNode.run, IfNode.orLoop_undecided ev s.c terms 0 h,
          List.range_eq_range']
      · simp [IfNode.calls, IfNode.run, IfNode.andLoop_undecided ev s.c terms 0 h,
          List.range_eq_range']
    refine ⟨hcalls, ?_⟩
    rw [hcalls]
    apply IfCall.evaluated_map_isTrue
    cases linkType <;> simp

/-- C13 at `{% if a or b or c %}` with `a` absent and `b = 1`: `a` and `b` are
evaluated, in this order, and `c` is not. -/
theorem IfNode.evaluates_deciding_range_witness :
    IfCall.evaluated (IfNode.calls referenceEvaluator
      ⟨[(false, ⟨"a"⟩), (false, ⟨"b"⟩), (false, ⟨"c"⟩)], LinkType.OrLink, [], []⟩
      ⟨[], ⟨[("b", QVariant.int 1)], []⟩⟩) = [0, 1] :=
  ((IfNode.evaluates_deciding_range referenceEvaluator
    [(false, ⟨"a"⟩), (false, ⟨"b"⟩), (false, ⟨"c"⟩)] LinkType.OrLink [] []
    ⟨[], ⟨[("b", QVariant.int 1)], []⟩⟩).1 [(false, ⟨"a"⟩)] (false, ⟨"b"⟩) [(false, ⟨"c"⟩)]
    rfl (by decide) (by decide)).2

/-! ## Theorems: the node an `if` tag yields -/

theorem IfNodeFactory.boolPairs_and (exprString : String)
    (h : QString.contains exprString " and " = true) (pieces : List String)
    (linkType : LinkType)
    (hbp : IfNodeFactory.boolPairs exprString = Except.ok (pieces, linkType)) :
    pieces = QString.split exprString " and " ∧ linkType = LinkType.AndLink := by
  have hne : ¬ (QString.split exprString " and ").length = 1 := by
    rw [QString.length_split_eq_one _ _ (by decide), h]; decide
  simp only [IfNodeFactory.boolPairs, hne, if_false] at hbp
  split at hbp
  · cases hbp
  · injection hbp with hbp
    injection hbp with h1 h2
    exact ⟨h1.symm, h2.symm⟩

theorem IfNodeFactory.boolPairs_or (exprString : String)
    (h : QString.contains exprString " and " = false) (pieces : List String)
    (linkType : LinkType)
    (hbp : IfNodeFactory.boolPairs exprString = Except.ok (pieces, linkType)) :
    pieces = QString.split exprString " or " ∧ linkType = LinkType.OrLink := by
  have hone : (QString.split exprString " and ").length = 1 :=
    (QString.length_split_eq_one _ _ (by decide)).mpr h
  simp only [IfNodeFactory.boolPairs, hone, if_true] at hbp
  injection hbp with hbp
  injection hbp with h1 h2
  exact ⟨h1.symm, h2.symm⟩

theorem QString.split_ne_nil (s sep : String) : QString.split s sep ≠ [] := by
  simp [QString.split, QString.splitChars_ne_nil]

/-- C17: every node `IfNodeFactory::getNode` returns has at least one term and
the one link type decided by the joined argument string: AND exactly when the
string contains `" and "`, the terms then being, piece by piece, the terms of
the split on `" and "`; OR otherwise, the terms being those of the split on
`" or "`; the number of terms is the number of pieces, and a node with one
term has link OR. -/
theorem IfNodeFactory.getNode_link (split : String → List String) (p : Parser)
    (tagContent : String) (tokens rest : List Token) (n : IfNode)
    (h : IfNodeFactory.getNode split p tagContent tokens = Except.ok (n, rest)) :
    n.boolVars ≠ [] ∧
    (n.linkType = LinkType.AndLink ↔
      QString.contains (QStringList.join ((split tagContent).eraseIdx 0) " ") " and " = true) ∧
    (n.linkType = LinkType.OrLink ↔
      QString.contains (QStringList.join ((split tagContent).eraseIdx 0) " ") " and " = false) ∧
    (QString.contains (QStringList.join ((split tagContent).eraseIdx 0) " ") " and " = true →
      n.boolVars.length
          = (QString.split (QStringList.join ((split tagContent).eraseIdx 0) " ")
              " and ").length ∧
        List.Forall₂ (fun q t => IfNodeFactory.pair q = Except.ok t)
          (QString.split (QStringList.join ((split tagContent).eraseIdx 0) " ") " and ")
          n.boolVars) ∧
    (QString.contains (QStringList.join ((split tagContent).eraseIdx 0) " ") " and " = false →
      n.boolVars.length
          = (QString.split (QStringList.join ((split tagContent).eraseIdx 0) " ")
              " or ").length ∧
        List.Forall₂ (fun q t => IfNodeFactory.pair q = Except.ok t)
          (QString.split (QStringList.join ((split tagContent).eraseIdx 0) " ") " or ")
          n.boolVars) ∧
    (n.boolVars.length = 1 → n.linkType = LinkType.OrLink) := by
  have hlen : 0 < ((split tagContent).eraseIdx 0).length := by
    by_contra h0
    have h1 : ((split tagContent).eraseIdx 0).length ≤ 0 := by omega
    unfold IfNodeFactory.getNode at h
    simp only [h1, if_true] at h
    cases h
  rw [IfNodeFactory.getNode_if_eq split p tagContent tokens hlen] at h
  cases hbp : IfNodeFactory.boolPairs (QStringList.join ((split tagContent).eraseIdx 0) " ") with
  | error e =>
    simp only [hbp] at h
    cases h
  | ok r =>
    obtain ⟨pieces, linkType⟩ := r
    cases hbv : IfNodeFactory.boolVars pieces with
    | error e =>
      simp only [hbp, hbv] at h
      cases h
    | ok terms =>
      have hn : n.boolVars = terms ∧ n.linkType = linkType := by
        simp only [hbp, hbv] at h
        split at h <;>
          · injection h with h
            injection h with h _
            subst h
            exact ⟨rfl, rfl⟩
      obtain ⟨hterms, hlink⟩ := hn
      have hf := IfNodeFactory.boolVars_forall₂ pieces terms hbv
      rw [← hterms] at hf
      cases hc : QString.contains (QStringList.join ((split tagContent).eraseIdx 0) " ") " and "
      · obtain ⟨hp, hl⟩ := IfNodeFactory.boolPairs_or _ hc pieces linkType hbp
        rw [hp] at hf
        have hne := QString.split_ne_nil
          (QStringList.join ((split tagContent).eraseIdx 0) " ") " or "
        refine ⟨?_, ?_, ?_, ?_, ?_, ?_⟩
        · intro h0
          have hl0 := hf.length_eq
          rw [h0] at hl0
          exact hne (List.length_eq_zero.mp hl0)
        · simp [hlink, hl]
        · simp [hlink, hl]
        · intro hx; cases hx
        · intro _; exact ⟨hf.length_eq.symm, hf⟩
        · intro _; rw [hlink, hl]
      · obtain ⟨hp, hl⟩ := IfNodeFactory.boolPairs_and _ hc pieces linkType hbp
        rw [hp] at hf
        have hne := QString.split_ne_nil
          (QStringList.join ((split tagContent).eraseIdx 0) " ") " and "
        have hne1 : ¬ (QString.split (QStringList.join ((split tagContent).eraseIdx 0) " ")
            " and ").length = 1 := by
          rw [QString.length_split_eq_one _ _ (by decide), hc]; decide
        refine ⟨?_, ?_, ?_, ?_, ?_, ?_⟩
        · intro h0
          have hl0 := hf.length_eq
          rw [h0] at hl0
          exact hne (List.length_eq_zero.mp hl0)
        · simp [hlink, hl]
        · simp [hlink, hl]
        · intro _; exact ⟨hf.length_eq.symm, hf⟩
        · intro hx; cases hx
        · intro h1
          exact absurd (hf.length_eq.trans h1) hne1

/-- C17 at the tags `if x and not y` (two terms, link AND) and `if x` (one
term, link OR). -/
theorem IfNodeFactory.getNode_link_witness :
    IfNodeFactory.getNode smartSplit (fixedParser [] []) "if x and not y" []
      = Except.ok (⟨[(false, ⟨"x"⟩), (true, ⟨"y"⟩)], LinkType.AndLink, [], []⟩, []) ∧
    IfNodeFactory.getNode smartSplit (fixedParser [] []) "if x" []
      = Except.ok (⟨[(false, ⟨"x"⟩)], LinkType.OrLink, [], []⟩, []) ∧
    ((⟨[(false, ⟨"x"⟩), (true, ⟨"y"⟩)], LinkType.AndLink, [], []⟩ : IfNode).linkType
        = LinkType.AndLink ↔
      QString.contains (QStringList.join ((smartSplit "if x and not y").eraseIdx 0) " ") " and "
        = true) :=
  ⟨rfl, rfl,
    (IfNodeFactory.getNode_link smartSplit (fixedParser [] []) "if x and not y" [] []
      ⟨[(false, ⟨"x"⟩), (true, ⟨"y"⟩)], LinkType.AndLink, [], []⟩ rfl).2.1⟩

/-! ## Theorems: the size check of a `for` tag -/

/-- C18, as stated, fails: `for x in y` leaves three tokens once the tag name
is dropped, fewer than four, and is accepted. -/
theorem ForNodeFactory.getNode_accepts_three_words :
    ((smartSplit "for x in y").eraseIdx 0).length = 3 ∧
    ForNodeFactory.getNode smartSplit (fixedParser [] []) "for x in y" []
      = Except.ok (⟨["x"], ⟨"y"⟩, false, [], []⟩, []) :=
  ⟨by decide, rfl⟩

/-- C18 (amended): for every tag content, `ForNodeFactory::getNode` throws the
'at least four words' TagSyntaxError whenever fewer than 3 tokens remain
after the tag name is dropped, that is fewer than 4 tokens with the tag name;
every tag it accepts has at least 3 tokens besides the tag name. -/
theorem ForNodeFactory.getNode_four_words (split : String → List String) (p : Parser)
    (tagContent : String) (tokens : List Token)
    (h : ((split tagContent).eraseIdx 0).length < 3) :
    ForNodeFactory.getNode split p tagContent tokens
      = Except.error (Exception.TagSyntaxError
          ("'for' statements should have at least four words: " ++ tagContent)) ∧
    (split tagContent).length < 4 ∧
    ∀ n rest, ForNodeFactory.getNode split p tagContent tokens ≠ Except.ok (n, rest) := by
  have h4 : (split tagContent).length < 4 := by
    rw [List.eraseIdx_zero, List.length_tail] at h
    omega
  have herr : ForNodeFactory.getNode split p tagContent tokens
      = Except.error (Exception.TagSyntaxError
          ("'for' statements should have at least four words: " ++ tagContent)) := by
    rw [ForNodeFactory.getNode_eq, ForNodeFactory.header_eq]
    simp [h4]
  refine ⟨herr, h4, ?_⟩
  intro n rest hok
  rw [herr] at hok
  cases hok

/-- C18 (amended) at the tag `for x in`: two tokens remain and the tag is
rejected. -/
theorem ForNodeFactory.getNode_four_words_witness :
    ((smartSplit "for x in").eraseIdx 0).length < 3 ∧
    ForNodeFactory.getNode smartSplit (fixedParser [] []) "for x in" []
      = Except.error (Exception.TagSyntaxError
          "'for' statements should have at least four words: for x in") :=
  ⟨by decide,
    (ForNodeFactory.getNode_four_words smartSplit (fixedParser [] []) "for x in" []
      (by decide)).1⟩

/-! ## Theorems: pushes and pops pair up -/

theorem ForCall.scopesOpen_append (a b : List ForCall) (d : Nat) :
    ForCall.scopesOpen (a ++ b) d = (ForCall.scopesOpen a d).bind (ForCall.scopesOpen b) := by
  induction a generalizing d with
  | nil => rfl
  | cons x rest ih =>
    cases x with
    | pop => cases d <;> simp [ForCall.scopesOpen, ih]
    | _ => simp [ForCall.scopesOpen, ih]

theorem Context.depth_push (c : Context) : c.push.depth = c.depth + 1 := rfl

theorem Context.depth_insert (c : Context) (k : String) (v : QVariant) :
    (c.insert k v).depth = c.depth := rfl

theorem Context.depth_pop (c : Context) (h : 2 ≤ c.depth) : c.pop.depth + 1 = c.depth := by
  obtain ⟨top, below⟩ := c
  cases below with
  | nil => simp [Context.depth] at h
  | cons b rest => simp [Context.pop, Context.depth]

theorem ForNode.depth_insertLoopVariables (c : Context) (listSize i : Int) :
    (ForNode.insertLoopVariables c listSize i).depth = c.depth := rfl

theorem ForRun.scoped_push {depth d : Nat} {r : ForRun} (h : ForRun.Scoped depth d r) :
    ForRun.Scoped depth (d + 1) r.push := by
  obtain ⟨h0, h1, h2, h3, h4, h5⟩ := h
  refine ⟨h0, ?_, ?_, ?_, ?_, ?_⟩
  · simp [ForRun.push, ForCall.scopesOpen_append, h1, ForCall.scopesOpen]
  · simp [ForRun.push, List.count_append, h2]; omega
  · simp [ForRun.push, Context.depth_push, h3]; omega
  · simpa [ForRun.push, ForCall.loopEntries_append, ForCall.loopEntries] using h4
  · simpa [ForRun.push, ForCall.emptyEntries_append, ForCall.emptyEntries] using h5

theorem ForRun.scoped_pop {depth d : Nat} {r : ForRun} (h : ForRun.Scoped depth (d + 1) r) :
    ForRun.Scoped depth d r.pop := by
  obtain ⟨h0, h1, h2, h3, h4, h5⟩ := h
  refine ⟨h0, ?_, ?_, ?_, ?_, ?_⟩
  · simp [ForRun.pop, ForCall.scopesOpen_append, h1, ForCall.scopesOpen]
  · simp [ForRun.pop, List.count_append, h2]; omega
  · have := Context.depth_pop r.s.c (by rw [h3]; omega)
    simp only [ForRun.pop]
    omega
  · simpa [ForRun.pop, ForCall.loopEntries_append, ForCall.loopEntries] using h4
  · simpa [ForRun.pop, ForCall.emptyEntries_append, ForCall.emptyEntries] using h5

theorem ForRun.scoped_insert {depth d : Nat} {r : ForRun} (h : ForRun.Scoped depth d r)
    (k : String) (v : QVariant) : ForRun.Scoped depth d (r.insert k v) := by
  obtain ⟨h0, h1, h2, h3, h4, h5⟩ := h
  refine ⟨h0, ?_, ?_, ?_, ?_, ?_⟩
  · simp [ForRun.insert, ForCall.scopesOpen_append, h1, ForCall.scopesOpen]
  · simp [ForRun.insert, List.count_append, h2]
  · simpa [ForRun.insert, Context.depth_insert] using h3
  · simpa [ForRun.insert, ForCall.loopEntries_append, ForCall.loopEntries] using h4
  · simpa [ForRun.insert, ForCall.emptyEntries_append, ForCall.emptyEntries] using h5

theorem ForRun.scoped_insertLoopVariables {depth d : Nat} {r : ForRun}
    (h : ForRun.Scoped depth d r) (listSize i : Int) :
    ForRun.Scoped depth d (r.insertLoopVariables listSize i) := by
  obtain ⟨h0, h1, h2, h3, h4, h5⟩ := h
  refine ⟨h0, ?_, ?_, ?_, ?_, ?_⟩
  · simp [ForRun.insertLoopVariables, ForCall.scopesOpen_append, h1, ForCall.scopesOpen]
  · simp [ForRun.insertLoopVariables, List.count_append, h2]
  · simpa [ForRun.insertLoopVariables, ForNode.depth_insertLoopVariables] using h3
  · simpa [ForRun.insertLoopVariables, ForCall.loopEntries_append, ForCall.loopEntries] using h4
  · simpa [ForRun.insertLoopVariables, ForCall.emptyEntries_append, ForCall.emptyEntries]
      using h5

theorem NodeList.depth_render (l : NodeList)
    (h : ∀ nd ∈ l, ∀ st, (nd.render st).c.depth = st.c.depth) (s : RenderState) :
    (NodeList.render l s).c.depth = s.c.depth := by
  induction l generalizing s with
  | nil => rfl
  | cons nd rest ih =>
    simp only [NodeList.render, List.foldl_cons]
    have := ih (fun x hx => h x (List.mem_cons_of_mem _ hx)) (nd.render s)
    simp only [NodeList.render] at this
    rw [this, h nd (List.mem_cons_self _ _)]

theorem ForRun.scoped_renderLoop {depth : Nat} {r : ForRun} (n : ForNode)
    (hbody : ∀ nd ∈ n.loopNodeList, ∀ st, (nd.render st).c.depth = st.c.depth)
    (h : ForRun.Scoped depth 1 r) : ForRun.Scoped depth 1 (r.renderLoop n) := by
  obtain ⟨h0, h1, h2, h3, h4, h5⟩ := h
  refine ⟨h0, ?_, ?_, ?_, ?_, ?_⟩
  · simp [ForRun.renderLoop, ForCall.scopesOpen_append, h1, ForCall.scopesOpen]
  · simp [ForRun.renderLoop, List.count_append, h2]
  · have := NodeList.depth_render n.loopNodeList hbody r.s
    simp only [ForRun.renderLoop, ForNode.renderLoop]
    simp only [NodeList.render] at this
    rw [this, h3]
  · intro entry he
    simp only [ForRun.renderLoop, ForCall.loopEntries_append, ForCall.loopEntries,
      List.mem_append, List.mem_singleton] at he
    rcases he with he | rfl
    · exact h4 entry he
    · exact h3
  · simpa [ForRun.renderLoop, ForCall.emptyEntries_append, ForCall.emptyEntries] using h5

theorem ForRun.scoped_foldl {α : Type} {depth d : Nat} (f : ForRun → α → ForRun)
    (hf : ∀ r x, ForRun.Scoped depth d r → ForRun.Scoped depth d (f r x)) (l : List α)
    (r : ForRun) (h : ForRun.Scoped depth d r) : ForRun.Scoped depth d (l.foldl f r) := by
  induction l generalizing r with
  | nil => exact h
  | cons x rest ih => exact ih (f r x) (hf r x h)

theorem ForNode.scoped_bind {depth d : Nat} (ev : Evaluator) (n : ForNode) (item : QVariant)
    (r : ForRun) (h : ForRun.Scoped depth d r) : ForRun.Scoped depth d (n.bind ev item r) := by
  unfold ForNode.bind
  simp only []
  split
  · split
    · unfold ForNode.unpackList
      exact ForRun.scoped_foldl _ (fun r j hr => ForRun.scoped_insert hr _ _) _ _
        (ForRun.scoped_foldl _ (fun r j hr => ForRun.scoped_insert hr _ _) _ _ h)
    · apply ForRun.scoped_foldl _ _ _ _ h
      intro r loopVar hr
      unfold ForNode.unpackAttribute
      exact ForRun.scoped_insert
        (ForRun.scoped_pop (ForRun.scoped_insert (ForRun.scoped_push hr) _ _)) _ _
  · exact ForRun.scoped_insert h _ _

theorem ForNode.scoped_passes {depth : Nat} (ev : Evaluator) (n : ForNode)
    (hbody : ∀ nd ∈ n.loopNodeList, ∀ st, (nd.render st).c.depth = st.c.depth)
    (varList : List QVariant) (r : ForRun) (k : Nat) (h : ForRun.Scoped depth 1 r) :
    ForRun.Scoped depth 1 (ForNode.passes ev n varList r k) := by
  induction k with
  | zero => exact h
  | succ k ih =>
    rw [ForNode.passes_succ]
    exact ForRun.scoped_renderLoop n hbody
      (ForNode.scoped_bind ev n _ _ (ForRun.scoped_insertLoopVariables ih _ _))

theorem ForNode.scoped_start (s : RenderState) :
    ForRun.Scoped s.c.depth 1 (ForNode.installParentLoop ⟨s, []⟩).push := by
  apply ForRun.scoped_push
  have h0 : ForRun.Scoped s.c.depth 0 ⟨s, []⟩ :=
    ⟨by simp [Context.depth], rfl, rfl, rfl, fun _ he => by simp [ForCall.loopEntries] at he,
      fun _ he => by simp [ForCall.emptyEntries] at he⟩
  unfold ForNode.installParentLoop
  simp only []
  split
  · exact ForRun.scoped_insert h0 _ _
  · exact h0

/-- A whole run leaves no scope of its own open. -/
theorem ForNode.scoped_run (ev : Evaluator) (n : ForNode) (s : RenderState)
    (hbody : ∀ nd ∈ n.loopNodeList, ∀ st, (nd.render st).c.depth = st.c.depth)
    (hempty : ∀ nd ∈ n.emptyNodeList, ∀ st, (nd.render st).c.depth = st.c.depth) :
    ForRun.Scoped s.c.depth 0 (ForNode.run ev n s) := by
  by_cases h : (ForNode.varList ev n s).length = 0
  · rw [ForNode.run_of_empty ev n s h]
    obtain ⟨h0, h1, h2, h3, h4, h5⟩ := ForRun.scoped_pop (ForNode.scoped_start s)
    refine ⟨h0, ?_, ?_, ?_, ?_, ?_⟩
    · simp [ForCall.scopesOpen_append, h1, ForCall.scopesOpen]
    · simp only [List.count_append, h2]; simp
    · rw [NodeList.depth_render n.emptyNodeList hempty]; exact h3
    · simpa [ForCall.loopEntries_append, ForCall.loopEntries] using h4
    · intro entry he
      simp only [ForCall.emptyEntries_append, ForCall.emptyEntries, List.mem_append,
        List.mem_singleton] at he
      rcases he with he | rfl
      · exact h5 entry he
      · exact h3
  · rw [ForNode.run_of_nonempty ev n s (by omega)]
    exact ForRun.scoped_pop (ForNode.scoped_passes ev n hbody _ _ _ (ForNode.scoped_start s))

/-- C15: for every ForNode (with a loop variable) and every state, when each
node of the body and of the empty-body preserves the number of scopes: the
render makes exactly as many `pop` calls as `push` calls, no `pop` closes a
scope the render did not open, the body is always entered one scope deeper
than the caller and the empty-body at the caller's depth, and the depth of
the Context after the call is the depth before it; on the empty and on the
non-empty path, with or without unpacking, the temporary scope of attribute
unpacking included. -/
theorem ForNode.pushes_pair_with_pops (ev : Evaluator) (n : ForNode) (s : RenderState)
    (_hvars : n.loopVars ≠ [])
    (hbody : ∀ nd ∈ n.loopNodeList, ∀ st, (nd.render st).c.depth = st.c.depth)
    (hempty : ∀ nd ∈ n.emptyNodeList, ∀ st, (nd.render st).c.depth = st.c.depth) :
    (ForNode.run ev n s).calls.count ForCall.push
      = (ForNode.run ev n s).calls.count ForCall.pop ∧
    1 ≤ (ForNode.run ev n s).calls.count ForCall.push ∧
    ForCall.scopesOpen (ForNode.run ev n s).calls 0 = some 0 ∧
    (∀ entry ∈ ForCall.loopEntries (ForNode.run ev n s).calls,
      entry.c.depth = s.c.depth + 1) ∧
    (∀ entry ∈ ForCall.emptyEntries (ForNode.run ev n s).calls, entry.c.depth = s.c.depth) ∧
    (ForNode.render ev n s).c.depth = s.c.depth := by
  obtain ⟨_, h1, h2, h3, h4, h5⟩ := ForNode.scoped_run ev n s hbody hempty
  refine ⟨by simpa using h2, ?_, h1, h4, h5, by simpa [ForNode.render] using h3⟩
  by_cases h : (ForNode.varList ev n s).length = 0
  · rw [ForNode.run_of_empty ev n s h]
    simp [ForRun.pop, ForRun.push, List.count_append]
  · rw [ForNode.run_of_nonempty ev n s (by omega)]
    have hmono : ∀ k, 1 ≤ (ForNode.passes ev n (ForNode.varList ev n s)
        (ForNode.installParentLoop ⟨s, []⟩).push k).calls.count ForCall.push := by
      intro k
      have hk := (ForNode.scoped_passes ev n hbody (ForNode.varList ev n s) _ k
        (ForNode.scoped_start s)).2.2.1
      omega
    have := hmono (ForNode.varList ev n s).length
    simp only [ForRun.pop, List.count_append]
    omega

/-! ## Theorems: what a render leaves in the Context -/

theorem NodeList.context_render (l : NodeList)
    (h : ∀ nd ∈ l, ∀ st, (nd.render st).c = st.c) (s : RenderState) :
    (NodeList.render l s).c = s.c := by
  induction l generalizing s with
  | nil => rfl
  | cons nd rest ih =>
    simp only [NodeList.render, List.foldl_cons]
    have := ih (fun x hx => h x (List.mem_cons_of_mem _ hx)) (nd.render s)
    simp only [NodeList.render] at this
    rw [this, h nd (List.mem_cons_self _ _)]

theorem ForRun.below_foldl {α : Type} (f : ForRun → α → ForRun)
    (hf : ∀ r x, (f r x).s.c.below = r.s.c.below) (l : List α) (r : ForRun) :
    (l.foldl f r).s.c.below = r.s.c.below := by
  induction l generalizing r with
  | nil => rfl
  | cons x rest ih => rw [List.foldl_cons, ih, hf]

/-- Binding the loop variables touches the top scope only. -/
theorem ForNode.below_bind (ev : Evaluator) (n : ForNode) (item : QVariant) (r : ForRun) :
    (n.bind ev item r).s.c.below = r.s.c.below := by
  unfold ForNode.bind
  simp only []
  split
  · split
    · unfold ForNode.unpackList
      simp only []
      rw [ForRun.below_foldl (fun r j => r.insert (n.loopVars.getD j "") QVariant.invalid)
          (fun r j => rfl),
        ForRun.below_foldl
          (fun r j => r.insert (n.loopVars.getD j "") (item.toList.getD j QVariant.invalid))
          (fun r j => rfl)]
    · exact ForRun.below_foldl (ForNode.unpackAttribute ev item) (fun r loopVar => rfl) _ _
  · rfl

theorem ForNode.below_passes (ev : Evaluator) (n : ForNode)
    (hbody : ∀ nd ∈ n.loopNodeList, ∀ st, (nd.render st).c = st.c)
    (varList : List QVariant) (r : ForRun) (k : Nat) :
    (ForNode.passes ev n varList r k).s.c.below = r.s.c.below := by
  induction k with
  | zero => rfl
  | succ k ih =>
    have hrl := NodeList.context_render n.loopNodeList hbody
      (ForNode.entry ev n varList (ForNode.passes ev n varList r k) k)
    simp only [NodeList.render] at hrl
    rw [ForNode.passes_succ, ForNode.state_iteration, ForNode.renderLoop, hrl, ForNode.entry,
      ForNode.below_bind]
    exact ih

/-- What a render leaves, when the nodes of its two lists leave the Context
as they found it: the Context of the caller after the opening of the render,
that is the Context at entry when no `forloop` was visible, and otherwise the
Context at entry with `forloop` rebound, in the caller's scope, to the visible
record extended by a `parentloop` entry. -/
theorem ForNode.context_after_render (ev : Evaluator) (n : ForNode) (s : RenderState)
    (hbody : ∀ nd ∈ n.loopNodeList, ∀ st, (nd.render st).c = st.c)
    (hempty : ∀ nd ∈ n.emptyNodeList, ∀ st, (nd.render st).c = st.c) :
    (ForNode.render ev n s).c = (ForNode.installParentLoop ⟨s, []⟩).s.c ∧
    ((s.c.lookup "forloop").isValid = false → (ForNode.render ev n s).c = s.c) ∧
    ((s.c.lookup "forloop").isValid = true →
      (ForNode.render ev n s).c
        = s.c.insert "forloop" (QVariant.hash ((s.c.lookup "forloop").toHash.insert
            "parentloop" (QVariant.hash (s.c.lookup "forloop").toHash)))) := by
  have hmain : (ForNode.render ev n s).c = (ForNode.installParentLoop ⟨s, []⟩).s.c := by
    by_cases h : (ForNode.varList ev n s).length = 0
    · rw [ForNode.render, ForNode.run_of_empty ev n s h]
      exact NodeList.context_render n.emptyNodeList hempty _
    · rw [ForNode.render, ForNode.run_of_nonempty ev n s (by omega)]
      have hb := ForNode.below_passes ev n hbody (ForNode.varList ev n s)
        (ForNode.installParentLoop ⟨s, []⟩).push (ForNode.varList ev n s).length
      simp only [ForRun.pop, Context.pop, hb]
      rfl
  refine ⟨hmain, ?_, ?_⟩
  · intro hv
    rw [hmain]
    simp [ForNode.installParentLoop, hv]
  · intro hv
    rw [hmain]
    simp [ForNode.installParentLoop, hv, ForRun.insert]

/-! ## Theorems: indexed accesses -/

theorem ForRun.foldlM_eq_some {α β : Type} (f : β → α → Option β) (g : β → α → β)
    (l : List α) (h : ∀ x ∈ l, ∀ b, f b x = some (g b x)) (b : β) :
    l.foldlM f b = some (l.foldl g b) := by
  induction l generalizing b with
  | nil => rfl
  | cons x rest ih =>
    rw [List.foldlM_cons, h x (List.mem_cons_self _ _) b]
    exact ih (fun y hy => h y (List.mem_cons_of_mem _ hy)) (g b x)

theorem ForNode.getElem?_eq_some_getD {α : Type} (l : List α) (j : Nat) (d : α)
    (h : j < l.length) : l[j]? = some (l.getD j d) := by
  rw [List.getElem?_eq_getElem h, List.getD_eq_getElem l d h]

theorem ForNode.unpackListChecked_eq (n : ForNode) (vList : List QVariant) (r : ForRun) :
    n.unpackListChecked vList r = some (n.unpackList vList r) := by
  unfold ForNode.unpackListChecked ForNode.unpackList
  simp only []
  rw [ForRun.foldlM_eq_some _
    (fun r j => r.insert (n.loopVars.getD j "") (vList.getD j QVariant.invalid))]
  · simp only []
    apply ForRun.foldlM_eq_some
    intro j hj b
    have hlt : j < n.loopVars.length := by
      have := List.mem_range'_1.mp hj
      omega
    simp only [ForNode.getElem?_eq_some_getD n.loopVars j "" hlt]
  · intro j hj b
    have hj2 := List.mem_range.mp hj
    have h1 : j < n.loopVars.length := by omega
    have h2 : j < vList.length := by omega
    simp only [ForNode.getElem?_eq_some_getD n.loopVars j "" h1,
      ForNode.getElem?_eq_some_getD vList j QVariant.invalid h2]

theorem ForNode.bindChecked_eq (ev : Evaluator) (n : ForNode) (hvars : n.loopVars ≠ [])
    (item : QVariant) (r : ForRun) :
    n.bindChecked ev item r = some (n.bind ev item r) := by
  unfold ForNode.bindChecked ForNode.bind
  simp only []
  split
  · split
    · exact ForNode.unpackListChecked_eq n item.toList r
    · rfl
  · have h0 : 0 < n.loopVars.length := List.length_pos.mpr hvars
    simp only [ForNode.getElem?_eq_some_getD n.loopVars 0 "" h0]

theorem ForNode.index_lt (n : ForNode) (len i : Nat) (hi : i < len) : n.index len i < len := by
  unfold ForNode.index
  split <;> omega

theorem ForNode.iterationChecked_eq (ev : Evaluator) (n : ForNode) (hvars : n.loopVars ≠ [])
    (varList : List QVariant) (r : ForRun) (i : Nat) (hi : i < varList.length) :
    ForNode.iterationChecked ev n varList r i = some (ForNode.iteration ev n varList r i) := by
  unfold ForNode.iterationChecked ForNode.iteration
  simp only [ForNode.getElem?_eq_some_getD varList _ QVariant.invalid
    (ForNode.index_lt n varList.length i hi), ForNode.bindChecked_eq ev n hvars]

theorem ForNode.map_index_perm (n : ForNode) (len : Nat) :
    ((List.range len).map (n.index len)).Perm (List.range len) := by
  cases hrev : n.isReversed
  · have : (List.range len).map (n.index len) = List.range len := by
      conv_rhs => rw [← List.map_id (List.range len)]
      apply List.map_congr_left
      intro i _
      simp [ForNode.index, hrev]
    rw [this]
  · have : (List.range len).map (n.index len) = (List.range len).reverse := by
      rw [List.range_eq_range', List.reverse_range', ← List.range_eq_range']
      apply List.map_congr_left
      intro i hi
      have := List.mem_range.mp hi
      simp only [ForNode.index, hrev, if_true]
      omega
    rw [this]
    exact List.reverse_perm _

/-- C20: for every ForNode with at least one loop variable: the embedding of
`ForNode::render` in which every indexed access (`varList[index]`,
`m_loopVars[0]`, `m_loopVars.at( j )`, `vList.at( j )`) is checked against the
size of its list never finds one out of range and is the run itself; at
iteration `i` of `len` the effective index is below `len`; the positions `j`
of the first unpacking loop are below the sizes of both lists and those of
the second below the number of loop variables; and the effective indexes of
`i = 0 .. len - 1` are a permutation of `0 .. len - 1`. -/
theorem ForNode.accesses_in_range (ev : Evaluator) (n : ForNode) (s : RenderState)
    (hvars : n.loopVars ≠ []) :
    ForNode.runChecked ev n s = some (ForNode.run ev n s) ∧
    (∀ len i, i < len → n.index len i < len) ∧
    (∀ len i, i < len → n.index len i = if n.isReversed then len - 1 - i else i) ∧
    (∀ vList : List QVariant, ∀ j, j < min n.loopVars.length vList.length →
      j < n.loopVars.length ∧ j < vList.length) ∧
    (∀ vList : List QVariant,
      ∀ j ∈ List.range' (min n.loopVars.length vList.length)
        (n.loopVars.length - min n.loopVars.length vList.length), j < n.loopVars.length) ∧
    0 < n.loopVars.length ∧
    (∀ len, ((List.range len).map (n.index len)).Perm (List.range len)) := by
  refine ⟨?_, ForNode.index_lt n, ?_, ?_, ?_, List.length_pos.mpr hvars,
    ForNode.map_index_perm n⟩
  · unfold ForNode.runChecked ForNode.run
    simp only []
    split
    · rfl
    · rw [ForRun.foldlM_eq_some _ (ForNode.iteration ev n _)]
      · rfl
      · intro i hi b
        exact ForNode.iterationChecked_eq ev n hvars _ b i (List.mem_range.mp hi)
  · intro len i hi
    unfold ForNode.index
    split
    · omega
    · rfl
  · intro vList j hj
    omega
  · intro vList j hj
    have := List.mem_range'_1.mp hj
    omega

/-! ## Theorems: a render that is aborted -/

theorem ThrowingNode.renderList_toThrowing (l : NodeList) (s : RenderState) :
    ThrowingNode.renderList (l.map Node.toThrowing) s = ⟨NodeList.render l s, none⟩ := by
  induction l generalizing s with
  | nil => rfl
  | cons nd rest ih =>
    simp only [List.map_cons, ThrowingNode.renderList, Node.toThrowing, ih, NodeList.render,
      List.foldl_cons]

theorem ForNode.bind_header (ev : Evaluator) (n : ForNode) (item : QVariant) (r : ForRun) :
    n.toThrowing.header.bind ev item r = n.bind ev item r := by
  simp only [ForNode.bind, ForNode.unpackList, ForNode.toThrowing, ThrowingForNode.header]

theorem ThrowingForNode.iteration_toThrowing (ev : Evaluator) (n : ForNode)
    (varList : List QVariant) (r : ForRun) (i : Nat) :
    n.toThrowing.iteration ev varList r i = ⟨ForNode.iteration ev n varList r i, none⟩ := by
  simp only [ThrowingForNode.iteration, ForNode.bind_header]
  simp only [ForNode.toThrowing, ThrowingNode.renderList_toThrowing, ForNode.iteration,
    ForRun.renderLoop, ForNode.renderLoop, NodeList.render, ThrowingForNode.header,
    ForNode.index]

theorem ThrowingForNode.loop_toThrowing (ev : Evaluator) (n : ForNode)
    (varList : List QVariant) (is : List Nat) (r : ForRun) :
    ThrowingForNode.loop ev n.toThrowing varList is r
      = ⟨is.foldl (ForNode.iteration ev n varList) r, none⟩ := by
  induction is generalizing r with
  | nil => rfl
  | cons i rest ih =>
    simp only [ThrowingForNode.loop, ThrowingForNode.iteration_toThrowing, ih, List.foldl_cons]

/-- When nothing throws, the render that may be aborted is the render. -/
theorem ThrowingForNode.run_toThrowing (ev : Evaluator) (n : ForNode) (s : RenderState) :
    ThrowingForNode.run ev (fun _ _ => none) n.toThrowing s = ⟨ForNode.run ev n s, none⟩ := by
  have hfe : n.toThrowing.filterExpression = n.filterExpression := rfl
  have hel : n.toThrowing.emptyNodeList = n.emptyNodeList.map Node.toThrowing := rfl
  unfold ThrowingForNode.run ForNode.run
  simp only [hfe, hel, ThrowingNode.renderList_toThrowing, ThrowingForNode.loop_toThrowing,
    ForNode.loop]
  split_ifs <;> rfl

theorem ThrowingNode.depth_renderList (l : List ThrowingNode)
    (h : ∀ nd ∈ l, ∀ st, (nd.render st).s.c.depth = st.c.depth) (s : RenderState) :
    (ThrowingNode.renderList l s).s.c.depth = s.c.depth := by
  induction l generalizing s with
  | nil => rfl
  | cons nd rest ih =>
    have hnd := h nd (List.mem_cons_self _ _) s
    unfold ThrowingNode.renderList
    split
    · exact hnd
    · rw [ih (fun x hx => h x (List.mem_cons_of_mem _ hx)), hnd]

theorem ForRun.scoped_entered {depth : Nat} {r : ForRun} (h : ForRun.Scoped depth 1 r)
    (s2 : RenderState) (hs : s2.c.depth = r.s.c.depth) :
    ForRun.Scoped depth 1 ⟨s2, r.calls ++ [ForCall.renderLoop r.s]⟩ := by
  obtain ⟨h0, h1, h2, h3, h4, h5⟩ := h
  refine ⟨h0, ?_, ?_, ?_, ?_, ?_⟩
  · simp [ForCall.scopesOpen_append, h1, ForCall.scopesOpen]
  · simp [List.count_append, h2]
  · simp only [hs, h3]
  · intro entry he
    simp only [ForCall.loopEntries_append, ForCall.loopEntries, List.mem_append,
      List.mem_singleton] at he
    rcases he with he | rfl
    · exact h4 entry he
    · exact h3
  · simpa [ForCall.emptyEntries_append, ForCall.emptyEntries] using h5

theorem ThrowingForNode.scoped_iteration {depth : Nat} (ev : Evaluator) (n : ThrowingForNode)
    (hbody : ∀ nd ∈ n.loopNodeList, ∀ st, (nd.render st).s.c.depth = st.c.depth)
    (varList : List QVariant) (r : ForRun) (i : Nat) (h : ForRun.Scoped depth 1 r) :
    ForRun.Scoped depth 1 (n.iteration ev varList r i).r := by
  unfold ThrowingForNode.iteration
  exact ForRun.scoped_entered
    (ForNode.scoped_bind ev n.header _ _ (ForRun.scoped_insertLoopVariables h _ _)) _
    (ThrowingNode.depth_renderList n.loopNodeList hbody _)

theorem ThrowingForNode.scoped_loop {depth : Nat} (ev : Evaluator) (n : ThrowingForNode)
    (hbody : ∀ nd ∈ n.loopNodeList, ∀ st, (nd.render st).s.c.depth = st.c.depth)
    (varList : List QVariant) (is : List Nat) (r : ForRun) (h : ForRun.Scoped depth 1 r) :
    ForRun.Scoped depth 1 (ThrowingForNode.loop ev n varList is r).r := by
  induction is generalizing r with
  | nil => exact h
  | cons i rest ih =>
    have hi := ThrowingForNode.scoped_iteration ev n hbody varList r i h
    unfold ThrowingForNode.loop
    split
    · exact hi
    · exact ih _ hi

/-- C19, as stated, fails: `ForNode::render` has nothing that would pop on
the way out of an exception.  With `l = [1]` and a body whose node throws,
the exception leaves the render two scopes deep where it entered one deep;
the same when the evaluation of the source expression throws. -/
theorem ThrowingForNode.scope_not_released :
    (ThrowingForNode.run referenceEvaluator (fun _ _ => none)
        ⟨["x"], ⟨"l"⟩, false, [ThrowingNode.fail "body failed"], []⟩
        ⟨[], ⟨[("l", QVariant.list [QVariant.int 1])], []⟩⟩).thrown
      = some ⟨"body failed"⟩ ∧
    (ThrowingForNode.run referenceEvaluator (fun _ _ => none)
        ⟨["x"], ⟨"l"⟩, false, [ThrowingNode.fail "body failed"], []⟩
        ⟨[], ⟨[("l", QVariant.list [QVariant.int 1])], []⟩⟩).r.s.c.depth = 2 ∧
    (⟨[], ⟨[("l", QVariant.list [QVariant.int 1])], []⟩⟩ : RenderState).c.depth = 1 ∧
    ¬ ThrowingForNode.ReleasesOnError referenceEvaluator (fun _ _ => none)
        ⟨["x"], ⟨"l"⟩, false, [ThrowingNode.fail "body failed"], []⟩
        ⟨[], ⟨[("l", QVariant.list [QVariant.int 1])], []⟩⟩ ∧
    ¬ ThrowingForNode.ReleasesOnError referenceEvaluator (fun _ _ => some ⟨"source failed"⟩)
        ⟨["x"], ⟨"l"⟩, false, [], []⟩
        ⟨[], ⟨[("l", QVariant.list [QVariant.int 1])], []⟩⟩ := by
  refine ⟨by decide, by decide, by decide, ?_, ?_⟩
  · intro h
    have := h ⟨"body failed"⟩ (by decide)
    revert this
    decide
  · intro h
    have := h ⟨"source failed"⟩ (by decide)
    revert this
    decide

/-- C19 (amended): for every ForNode (with a loop variable) whose body and
empty-body nodes keep the number of scopes, also when they throw: an
exception thrown by the evaluation of the source expression or by a body
node passes through `ForNode::render`, which does not release the scope it
pushed; the depth of the Context when the exception leaves is the depth at
entry plus one, with one `push` more than `pop` calls made.  The scope is
released on normal completion, and before the empty-body is rendered, so the
depth is the depth at entry when the render returns and when the empty-body
throws. -/
theorem ThrowingForNode.scope_left_open (ev : Evaluator)
    (sourceFails : FilterExpression → Context → Option RenderFailure)
    (n : ThrowingForNode) (s : RenderState) (_hvars : n.loopVars ≠ [])
    (hbody : ∀ nd ∈ n.loopNodeList, ∀ st, (nd.render st).s.c.depth = st.c.depth)
    (hempty : ∀ nd ∈ n.emptyNodeList, ∀ st, (nd.render st).s.c.depth = st.c.depth) :
    (∀ e, sourceFails n.filterExpression (ForNode.sourceContext s) = some e →
      (ThrowingForNode.run ev sourceFails n s).thrown = some e ∧
      (ThrowingForNode.run ev sourceFails n s).r.s.c.depth = s.c.depth + 1 ∧
      (ThrowingForNode.run ev sourceFails n s).r.calls.count ForCall.push
        = (ThrowingForNode.run ev sourceFails n s).r.calls.count ForCall.pop + 1) ∧
    (sourceFails n.filterExpression (ForNode.sourceContext s) = none →
      1 ≤ (ev.toList n.filterExpression (ForNode.sourceContext s)).length →
      ∀ e, (ThrowingForNode.run ev sourceFails n s).thrown = some e →
        (ThrowingForNode.run ev sourceFails n s).r.s.c.depth = s.c.depth + 1 ∧
        (ThrowingForNode.run ev sourceFails n s).r.calls.count ForCall.push
          = (ThrowingForNode.run ev sourceFails n s).r.calls.count ForCall.pop + 1) ∧
    (sourceFails n.filterExpression (ForNode.sourceContext s) = none →
      (ev.toList n.filterExpression (ForNode.sourceContext s)).length = 0 →
      (ThrowingForNode.run ev sourceFails n s).r.s.c.depth = s.c.depth) ∧
    ((ThrowingForNode.run ev sourceFails n s).thrown = none →
      (ThrowingForNode.run ev sourceFails n s).r.s.c.depth = s.c.depth ∧
      (ThrowingForNode.run ev sourceFails n s).r.calls.count ForCall.push
        = (ThrowingForNode.run ev sourceFails n s).r.calls.count ForCall.pop) := by
  have hstart := ForNode.scoped_start s
  have hloop := fun (is : List Nat) => ThrowingForNode.scoped_loop ev n hbody
    (ev.toList n.filterExpression (ForNode.sourceContext s)) is _ hstart
  have hemptyPath : sourceFails n.filterExpression (ForNode.sourceContext s) = none →
      (ev.toList n.filterExpression (ForNode.sourceContext s)).length = 0 →
      (ThrowingForNode.run ev sourceFails n s).r.s.c.depth = s.c.depth ∧
      (ThrowingForNode.run ev sourceFails n s).r.calls.count ForCall.push
        = (ThrowingForNode.run ev sourceFails n s).r.calls.count ForCall.pop := by
    intro hsrc hlen
    have hlt : (ev.toList n.filterExpression (ForNode.sourceContext s)).length < 1 := by omega
    obtain ⟨_, _, h2, h3, _, _⟩ := ForRun.scoped_pop hstart
    unfold ForNode.sourceContext at hsrc hlt
    simp only [ThrowingForNode.run, hsrc, hlt, if_true]
    refine ⟨?_, ?_⟩
    · rw [ThrowingNode.depth_renderList n.emptyNodeList hempty]; exact h3
    · simp only [List.count_append, h2]; simp
  have hloopPath : sourceFails n.filterExpression (ForNode.sourceContext s) = none →
      1 ≤ (ev.toList n.filterExpression (ForNode.sourceContext s)).length →
      (∀ e, (ThrowingForNode.run ev sourceFails n s).thrown = some e →
        (ThrowingForNode.run ev sourceFails n s).r.s.c.depth = s.c.depth + 1 ∧
        (ThrowingForNode.run ev sourceFails n s).r.calls.count ForCall.push
          = (ThrowingForNode.run ev sourceFails n s).r.calls.count ForCall.pop + 1) ∧
      ((ThrowingForNode.run ev sourceFails n s).thrown = none →
        (ThrowingForNode.run ev sourceFails n s).r.s.c.depth = s.c.depth ∧
        (ThrowingForNode.run ev sourceFails n s).r.calls.count ForCall.push
          = (ThrowingForNode.run ev sourceFails n s).r.calls.count ForCall.pop) := by
    intro hsrc hlen
    have hlt : ¬ (ev.toList n.filterExpression (ForNode.sourceContext s)).length < 1 := by omega
    have hl := hloop (List.range (ev.toList n.filterExpression (ForNode.sourceContext s)).length)
    unfold ForNode.sourceContext at hsrc hlt hl
    simp only [ThrowingForNode.run, hsrc, hlt, if_false]
    cases ht : (ThrowingForNode.loop ev n
        (ev.toList n.filterExpression (ForNode.installParentLoop ⟨s, []⟩).push.s.c)
        (List.range (ev.toList n.filterExpression
          (ForNode.installParentLoop ⟨s, []⟩).push.s.c).length)
        (ForNode.installParentLoop ⟨s, []⟩).push).thrown with
    | none =>
      obtain ⟨_, _, h2, h3, _, _⟩ := ForRun.scoped_pop hl
      simp only [reduceCtorEq, false_implies, implies_true, true_and, forall_const]
      exact ⟨h3, by simpa using h2⟩
    | some e0 =>
      obtain ⟨_, _, h2, h3, _, _⟩ := hl
      simp only [reduceCtorEq, false_implies, and_true]
      intro e _
      exact ⟨h3, h2⟩
  refine ⟨?_, fun hsrc hlen => (hloopPath hsrc hlen).1, fun hsrc hlen => (hemptyPath hsrc hlen).1,
    ?_⟩
  · intro e hsrc
    obtain ⟨_, _, h2, h3, _, _⟩ := hstart
    unfold ForNode.sourceContext at hsrc
    simp only [ThrowingForNode.run, hsrc]
    exact ⟨trivial, h3, h2⟩
  · intro hnone
    cases hsrc : sourceFails n.filterExpression (ForNode.sourceContext s) with
    | some e =>
      have hs2 := hsrc
      unfold ForNode.sourceContext at hs2
      simp [ThrowingForNode.run, hs2] at hnone
    | none =>
      by_cases hlen : (ev.toList n.filterExpression (ForNode.sourceContext s)).length = 0
      · exact hemptyPath hsrc hlen
      · exact (hloopPath hsrc (by omega)).2 hnone

/-! ## Worked examples: scopes, accesses, aborted renders -/

/-- C14: the code at a nested render.  With `l = [1]` and `m = [x]`, outer
`{% for a in l %}` around inner `{% for b in m %}{% endfor %}` (whose lists are
empty, so its nodes leave the Context alone): the inner render is entered with
the outer `forloop` record visible, which has no `parentloop`; when it returns
the Context is not the one it was given: the caller's `forloop` now has a
`parentloop` entry, and a `{{ forloop.parentloop.counter0 }}` placed after the
inner loop in the outer body prints `0`. -/
theorem ForNode.render_leaks_parentloop :
    ∃ st, (ForCall.loopEntries (ForNode.run referenceEvaluator
        ⟨["a"], ⟨"l"⟩, false,
          [ForNode.toNode referenceEvaluator ⟨["b"], ⟨"m"⟩, false, [], []⟩], []⟩
        ⟨[], ⟨[("l", QVariant.list [QVariant.int 1]),
          ("m", QVariant.list [QVariant.string "x"])], []⟩⟩).calls)[0]? = some st ∧
      (st.c.lookup "forloop").isValid = true ∧
      (st.c.lookup "forloop").toHash.contains "parentloop" = false ∧
      ((ForNode.render referenceEvaluator ⟨["b"], ⟨"m"⟩, false, [], []⟩ st).c.lookup
        "forloop").toHash.contains "parentloop" = true ∧
      (ForNode.render referenceEvaluator ⟨["b"], ⟨"m"⟩, false, [], []⟩ st).c ≠ st.c ∧
      (ForNode.render referenceEvaluator
        ⟨["a"], ⟨"l"⟩, false,
          [ForNode.toNode referenceEvaluator ⟨["b"], ⟨"m"⟩, false, [], []⟩,
            VariableNode referenceEvaluator ⟨"forloop.parentloop.counter0"⟩], []⟩
        ⟨[], ⟨[("l", QVariant.list [QVariant.int 1]),
          ("m", QVariant.list [QVariant.string "x"])], []⟩⟩).stream = ["0"] :=
  ⟨_, ForNode.getElem_loopEntries_run _ _ _ 0 (by decide), by decide, by decide, by decide,
    by decide, by decide⟩

/-- C15 at `{% for a, b in l %}x{% endfor %}` over `l = [ {a: 1, b: 2} ]`, where
each loop variable is resolved in a temporary scope: three pushes, three
pops, and the depth after the render is the depth before. -/
theorem ForNode.pushes_pair_with_pops_witness :
    (ForNode.run referenceEvaluator ⟨["a", "b"], ⟨"l"⟩, false, [TextNode "x"], []⟩
        ⟨[], ⟨[("l", QVariant.list [QVariant.hash [("a", QVariant.int 1),
          ("b", QVariant.int 2)]])], []⟩⟩).calls.count ForCall.push = 3 ∧
    (ForNode.run referenceEvaluator ⟨["a", "b"], ⟨"l"⟩, false, [TextNode "x"], []⟩
        ⟨[], ⟨[("l", QVariant.list [QVariant.hash [("a", QVariant.int 1),
          ("b", QVariant.int 2)]])], []⟩⟩).calls.count ForCall.pop = 3 ∧
    (ForNode.render referenceEvaluator ⟨["a", "b"], ⟨"l"⟩, false, [TextNode "x"], []⟩
        ⟨[], ⟨[("l", QVariant.list [QVariant.hash [("a", QVariant.int 1),
          ("b", QVariant.int 2)]])], []⟩⟩).c.depth = 1 := by
  have h := ForNode.pushes_pair_with_pops referenceEvaluator
    ⟨["a", "b"], ⟨"l"⟩, false, [TextNode "x"], []⟩
    ⟨[], ⟨[("l", QVariant.list [QVariant.hash [("a", QVariant.int 1),
      ("b", QVariant.int 2)]])], []⟩⟩ (by decide)
    (by intro nd hnd st
        simp only [List.mem_singleton] at hnd
        subst hnd
        rfl)
    (by intro nd hnd; simp at hnd)
  have h3 : (ForNode.run referenceEvaluator ⟨["a", "b"], ⟨"l"⟩, false, [TextNode "x"], []⟩
      ⟨[], ⟨[("l", QVariant.list [QVariant.hash [("a", QVariant.int 1),
        ("b", QVariant.int 2)]])], []⟩⟩).calls.count ForCall.push = 3 := by decide
  exact ⟨h3, by rw [← h.1]; exact h3, h.2.2.2.2.2⟩

/-- C16: the code at the tag `for , in y`.  The four tokens pass both checks,
the one word before `in` has no non-empty fragment, and the factory returns a
node without any loop variable; rendering that node over `y = [1]` reads
`m_loopVars[0]` of an empty list. -/
theorem ForNodeFactory.getNode_without_loop_variable :
    smartSplit "for , in y" = ["for", ",", "in", "y"] ∧
    ForNodeFactory.getNode smartSplit (fixedParser [] []) "for , in y" []
      = Except.ok (⟨[], ⟨"y"⟩, false, [], []⟩, []) ∧
    ForNode.runChecked referenceEvaluator ⟨[], ⟨"y"⟩, false, [], []⟩
      ⟨[], ⟨[("y", QVariant.list [QVariant.int 1])], []⟩⟩ = none :=
  ⟨by decide, rfl, by decide⟩

/-- C19 (amended) at `{% for x in l %}` over `l = [1]` with a body whose node
throws: the exception leaves the render one scope deeper than it entered. -/
theorem ThrowingForNode.scope_left_open_witness :
    (ThrowingForNode.run referenceEvaluator (fun _ _ => none)
        ⟨["x"], ⟨"l"⟩, false, [ThrowingNode.fail "body failed"], []⟩
        ⟨[], ⟨[("l", QVariant.list [QVariant.int 1])], []⟩⟩).thrown = some ⟨"body failed"⟩ ∧
    (ThrowingForNode.run referenceEvaluator (fun _ _ => none)
        ⟨["x"], ⟨"l"⟩, false, [ThrowingNode.fail "body failed"], []⟩
        ⟨[], ⟨[("l", QVariant.list [QVariant.int 1])], []⟩⟩).r.s.c.depth
      = (⟨[], ⟨[("l", QVariant.list [QVariant.int 1])], []⟩⟩ : RenderState).c.depth + 1 :=
  ⟨by decide,
    ((ThrowingForNode.scope_left_open referenceEvaluator (fun _ _ => none)
      ⟨["x"], ⟨"l"⟩, false, [ThrowingNode.fail "body failed"], []⟩
      ⟨[], ⟨[("l", QVariant.list [QVariant.int 1])], []⟩⟩ (by decide)
      (by intro nd hnd st
          simp only [List.mem_singleton] at hnd
          subst hnd
          rfl)
      (by intro nd hnd; simp at hnd)).2.1 rfl (by decide) ⟨"body failed"⟩ (by decide)).1⟩

/-- C20 at `{% for a, b in l reversed %}` over `l = [[1, 2], [3]]`: no access
is out of range. -/
theorem ForNode.accesses_in_range_witness :
    ["a", "b"] ≠ [] ∧
    ForNode.runChecked referenceEvaluator ⟨["a", "b"], ⟨"l"⟩, true, [], []⟩
        ⟨[], ⟨[("l", QVariant.list [QVariant.list [QVariant.int 1, QVariant.int 2],
          QVariant.list [QVariant.int 3]])], []⟩⟩
      = some (ForNode.run referenceEvaluator ⟨["a", "b"], ⟨"l"⟩, true, [], []⟩
        ⟨[], ⟨[("l", QVariant.list [QVariant.list [QVariant.int 1, QVariant.int 2],
          QVariant.list [QVariant.int 3]])], []⟩⟩) :=
  ⟨by decide,
    (ForNode.accesses_in_range referenceEvaluator ⟨["a", "b"], ⟨"l"⟩, true, [], []⟩
      ⟨[], ⟨[("l", QVariant.list [QVariant.list [QVariant.int 1, QVariant.int 2],
        QVariant.list [QVariant.int 3]])], []⟩⟩ (by decide)).1⟩
